import Mathlib

/-!
Merkle DAG builder and retriever (`dag.go`, `dag2file.go`)

A shallow embedding of the Go package `merkledag`:

* byte slices are lists of naturals; Go's `nil` slice and the empty slice are
  both the empty list, and a `nil` result ("not found") is the empty list; a file
  whose `Bytes()` is an empty slice that is not `nil` is outside the model;
* Go strings (names, paths) are Lean strings, so a name is always valid UTF-8; a
  name that is not is outside the model;
* `Size()` of a node is a `uint64`, a natural number; the Go `int` of `Link.Size`
  is held as its 64-bit two's-complement pattern, read by `intValue`;
* `json.Marshal` / `json.Unmarshal` and the injected `hash.Hash` are library
  code and are taken as parameters (`Codec`, `h`);
* the `KVStore` is a write log: `Put` adds an entry in front, `Has` and `Get`
  look the key up (the most recent write wins);
* a Go panic (slice out of range) or a recursion that never returns is `none`.
-/

namespace MerkleDag

/-- Byte slice of the program. -/
abbrev Bytes := List Nat

/-- Link of `dag.go`: name, hash of the referenced object, size. `Size` is the Go `int`
as its 64-bit two's-complement pattern: a length is its own pattern, and `int(x)` of a
`uint64` keeps the pattern `x % 2 ^ 64`. -/
structure Link where
  Name : String
  Hash : Bytes
  Size : Nat
  deriving DecidableEq, Repr

/-- Object of `dag.go`: the links and the data. -/
structure Object where
  Links : List Link
  Data : Bytes
  deriving DecidableEq, Repr

/-- The Go `int` that a 64-bit pattern stands for: patterns from `2 ^ 63` on are the
negative numbers. -/
def intValue (pattern : Nat) : Int :=
  if pattern % 2 ^ 64 < 2 ^ 63 then ((pattern % 2 ^ 64 : Nat) : Int)
  else ((pattern % 2 ^ 64 : Nat) : Int) - 2 ^ 64

/-- Zero value `Object{}` of Go. -/
def emptyObject : Object := { Links := [], Data := [] }

def K : Nat := 1 <<< 10
def M : Nat := K <<< 10
def CHUNK_SIZE : Nat := 256 * K
def MAX_LISTLINE : Nat := 4096
/-- Bytes of the Go string "blob". -/
def BLOB : Bytes := [98, 108, 111, 98]
/-- Bytes of the Go string "link" (the constant LIST). -/
def LIST : Bytes := [108, 105, 110, 107]
/-- Bytes of the Go string "tree". -/
def TREE : Bytes := [116, 114, 101, 101]

/-- The two directions of `encoding/json` on `Object`: `marshal` is `json.Marshal`,
`unmarshal` is `json.Unmarshal` into a zero `Object` (which stays zero on an error). -/
structure Codec where
  marshal : Object → Bytes
  unmarshal : Bytes → Object

/-- The key-value store as a write log, newest entry first. -/
abbrev Store := List (Bytes × Bytes)

/-- `store.Has(key)`. -/
def Store.Has (store : Store) (key : Bytes) : Bool := (store.lookup key).isSome

/-- `store.Get(key)`: the stored value, `nil` when the key is absent. -/
def Store.Get (store : Store) (key : Bytes) : Bytes := (store.lookup key).getD []

/-- `store.Put(key, value)`. -/
def Store.Put (store : Store) (key value : Bytes) : Store := (key, value) :: store

/-- `computeHash`: reset the hash, write the data, return the digest. -/
def computeHash (data : Bytes) (h : Bytes → Bytes) : Bytes := h data

/-- `putObjInStore`: marshal, hash, skip when the key is present, otherwise store the raw
data for a blob and the encoding for anything else. -/
def putObjInStore (c : Codec) (obj : Object) (store : Store) (h : Bytes → Bytes)
    (objType : Bytes) : Store :=
  let value := c.marshal obj
  let hash := computeHash value h
  if store.Has hash then store
  else if objType = BLOB then store.Put hash obj.Data
  else store.Put hash value

/-! ### The float64 arithmetic of `handleFile`

Every finite non-negative float64 is a natural multiple of `2^-1074`; a float is
represented by that multiple, a natural number. Division by a power of two is then exact division
followed by rounding to the nearest integer, ties to even. -/

/-- Quotient `n / d` rounded to the nearest integer, ties to even. -/
def roundHalfEven (n d : Nat) : Nat :=
  let q := n / d
  let r := n % d
  if 2 * r < d then q
  else if d < 2 * r then q + 1
  else if q % 2 = 0 then q else q + 1

/-- Conversion `float64(n)` of an unsigned integer: 53 significant bits, ties to even;
the result as an integer. -/
def float64OfNat (n : Nat) : Nat :=
  if n < 2 ^ 53 then n
  else
    let e := Nat.log2 n - 52
    roundHalfEven n (2 ^ e) * 2 ^ e

/-- The unit `1.0` as a multiple of `2^-1074`. -/
def F64.one : Nat := 2 ^ 1074

/-- Float division by a power of two `d`. -/
def F64.divPow2 (x : Nat) (d : Nat) : Nat := roundHalfEven x d

/-- `math.Ceil`. -/
def F64.ceil (x : Nat) : Nat := ((x + (F64.one - 1)) / F64.one) * F64.one

/-- `numChunks := math.Ceil(float64(size) / float64(CHUNK_SIZE))`. -/
def numChunks (size : Nat) : Nat :=
  F64.ceil (F64.divPow2 (float64OfNat size * F64.one) CHUNK_SIZE)

/-- The loop `for { height++; tmp /= MAX_LISTLINE; if tmp == 0 { break } }`;
`none` when the iteration budget is used up before the loop exits. -/
def heightLoop : Nat → Nat → Nat → Option Nat
  | 0, _, _ => none
  | fuel + 1, height, tmp =>
    let height := height + 1
    let tmp := F64.divPow2 tmp MAX_LISTLINE
    if tmp = 0 then some height else heightLoop fuel height tmp

/-- The height that `handleFile` computes for a file of the given size. -/
def computeHeight (size : Nat) : Option Nat :=
  heightLoop (numChunks size + 1) 0 (numChunks size)

/-! ### Source nodes -/

/-- Source node: a file (name, size, bytes), a directory (name, size, children in the
iterator's order) or a node whose `Type()` is neither FILE nor DIR. -/
inductive Node where
  | file (name : String) (size : Nat) (bytes : Bytes)
  | dir (name : String) (size : Nat) (children : List Node)
  | other (name : String) (size : Nat)
  deriving Repr

/-! ### Builder (`dag.go`) -/

/-- Slice expression `b[lo:hi]` of Go, for `lo ≤ hi ≤ len(b)`. -/
def slice (b : Bytes) (lo hi : Nat) : Bytes := (b.take hi).drop lo

/-- The chunk loop of `dfshandleFile` at height 1 (`for i := 1; i <= MAX_LISTLINE; i++`),
with `n` iterations left; the state is `obj`, `lendata`, `start` and the store. -/
def chunkLoop (c : Codec) (h : Bytes → Bytes) (bytes : Bytes) :
    Nat → Object → Nat → Nat → Store → Object × Nat × Store
  | 0, obj, lendata, _, store => (obj, lendata, store)
  | n + 1, obj, lendata, start, store =>
    let stop := if start + CHUNK_SIZE > bytes.length then bytes.length else start + CHUNK_SIZE
    let data := slice bytes start stop
    let blobObj : Object := { Links := [], Data := data }
    let store := putObjInStore c blobObj store h BLOB
    let jsonMarshal := c.marshal blobObj
    let obj : Object :=
      { Links := obj.Links ++ [{ Name := "", Hash := computeHash jsonMarshal h, Size := data.length }],
        Data := obj.Data ++ BLOB }
    let lendata := lendata + data.length
    let start := start + CHUNK_SIZE
    if start ≥ bytes.length then (obj, lendata, store)
    else chunkLoop c h bytes n obj lendata start store

/-- The loop of `dfshandleFile` at a height above 1, with `n` iterations left; `child` is
the recursive call `dfshandleFile(height-1, node, store, start, h)`. -/
def levelLoop (c : Codec) (h : Bytes → Bytes) (bytes : Bytes)
    (child : Store → Nat → Option (Object × Nat × Store)) :
    Nat → Object → Nat → Nat → Store → Option (Object × Nat × Store)
  | 0, obj, lendata, _, store => some (obj, lendata, store)
  | n + 1, obj, lendata, start, store =>
    if start ≥ bytes.length then some (obj, lendata, store)
    else
      match child store start with
      | none => none
      | some (tmpObj, tmpLendata, store) =>
        let lendata := lendata + tmpLendata
        let jsonMarshal := c.marshal tmpObj
        let links := obj.Links ++ [{ Name := "", Hash := computeHash jsonMarshal h, Size := tmpLendata }]
        let data := if tmpObj.Links = [] then obj.Data ++ BLOB else obj.Data ++ LIST
        levelLoop c h bytes child n { Links := links, Data := data } lendata (start + tmpLendata) store

/-- `dfshandleFile(height, node, store, start, h)` on the bytes of the file: the object built
and the number of bytes it covers, with the store afterwards. `none` is a run that does not
return: the slice `Bytes()[start:]` with `start` beyond the end, or a height below 1 with
bytes left (the recursion never reaches height 1). -/
def dfshandleFile (c : Codec) (h : Bytes → Bytes) :
    Nat → Bytes → Store → Nat → Option (Object × Nat × Store)
  | 0, bytes, store, start =>
    if start ≥ bytes.length then
      some (emptyObject, 0, putObjInStore c emptyObject store h LIST)
    else none
  | 1, bytes, store, start =>
    if start > bytes.length then none
    else if bytes.length - start < CHUNK_SIZE then
      let data := slice bytes start bytes.length
      let obj : Object := { Links := [], Data := data }
      some (obj, data.length, putObjInStore c obj store h BLOB)
    else
      let r := chunkLoop c h bytes MAX_LISTLINE emptyObject 0 start store
      some (r.1, r.2.1, putObjInStore c r.1 r.2.2 h LIST)
  | height + 2, bytes, store, start =>
    match levelLoop c h bytes (fun store start => dfshandleFile c h (height + 1) bytes store start)
        MAX_LISTLINE emptyObject 0 start store with
    | none => none
    | some (obj, lendata, store) => some (obj, lendata, putObjInStore c obj store h LIST)

/-- `handleFile` on a file of the given size and bytes. -/
def handleFile (c : Codec) (h : Bytes → Bytes) (size : Nat) (bytes : Bytes) (store : Store) :
    Option (Object × Store) :=
  if size > CHUNK_SIZE then
    match computeHeight size with
    | none => none
    | some height =>
      match dfshandleFile c h height bytes store 0 with
      | none => none
      | some (obj, _, store) => some (obj, store)
  else
    let obj : Object := { Links := [], Data := bytes }
    some (obj, putObjInStore c obj store h BLOB)

mutual
/-- `handleDir(node, store, h)`; a node that is not a directory has no iterator (`none`). -/
def handleDir (c : Codec) (h : Bytes → Bytes) : Node → Store → Option (Object × Store)
  | Node.dir _ _ children, store =>
    match dirLoop c h children emptyObject store with
    | none => none
    | some (treeObject, store) => some (treeObject, putObjInStore c treeObject store h LIST)
  | _, _ => none
termination_by structural node => node

/-- The loop `for iter.Next()` of `handleDir` over the children still to visit. -/
def dirLoop (c : Codec) (h : Bytes → Bytes) :
    List Node → Object → Store → Option (Object × Store)
  | [], treeObject, store => some (treeObject, store)
  | node :: rest, treeObject, store =>
    match node with
    | Node.file name size bytes =>
      match handleFile c h size bytes store with
      | none => none
      | some (tmp, store) =>
        let jsonMarshal := c.marshal tmp
        let links := treeObject.Links ++ [{ Name := name, Hash := computeHash jsonMarshal h, Size := size % 2 ^ 64 }]
        let data := if tmp.Links = [] then treeObject.Data ++ BLOB else treeObject.Data ++ LIST
        dirLoop c h rest { Links := links, Data := data } store
    | Node.dir name size _ =>
      match handleDir c h node store with
      | none => none
      | some (tmp, store) =>
        let jsonMarshal := c.marshal tmp
        let links := treeObject.Links ++ [{ Name := name, Hash := computeHash jsonMarshal h, Size := size % 2 ^ 64 }]
        dirLoop c h rest { Links := links, Data := treeObject.Data ++ TREE } store
    | Node.other _ _ => dirLoop c h rest treeObject store
termination_by structural children => children
end

/-- `Add`: build the object of the node, return the hash of its encoding (the Merkle root)
and the store afterwards. -/
def Add (c : Codec) (store : Store) (node : Node) (h : Bytes → Bytes) : Option (Bytes × Store) :=
  let r : Option (Object × Store) :=
    match node with
    | Node.file _ size bytes => handleFile c h size bytes store
    | Node.dir _ _ _ => handleDir c h node store
    | Node.other _ _ => some (emptyObject, store)
  match r with
  | none => none
  | some (obj, store) => some (computeHash (c.marshal obj) h, store)

/-! ### Retriever (`dag2file.go`) -/

/-- Segments of a string between the separators `/`, on characters. -/
def splitChars : List Char → List (List Char)
  | [] => [[]]
  | ch :: rest =>
    if ch = '/' then [] :: splitChars rest
    else
      match splitChars rest with
      | [] => [[ch]]
      | seg :: segs => (ch :: seg) :: segs

/-- `strings.Split(path, "/")`. -/
def Split (path : String) : List String := (splitChars path.data).map String.mk

/-- The loop `for i := range obj.Links` of `getFileByList` over the links still to visit,
with the tag offset `index` and the bytes collected so far; `recList` is the recursive call.
A tag slice beyond the end of `Data` is a panic. -/
def listLoop (c : Codec) (recList : Object → Option Bytes) (store : Store) (data : Bytes) :
    List Link → Nat → Bytes → Option Bytes
  | [], _, ans => some ans
  | curObjLink :: rest, index, ans =>
    if index + 4 > data.length then none
    else
      let curObjType := slice data index (index + 4)
      let curObjBinary := store.Get curObjLink.Hash
      let curObj := c.unmarshal curObjBinary
      if curObjType = BLOB then listLoop c recList store data rest (index + 4) (ans ++ curObjBinary)
      else
        match recList curObj with
        | none => none
        | some tmp => listLoop c recList store data rest (index + 4) (ans ++ tmp)

/-- `getFileByList(obj, store)`, with a bound on the depth of the recursion; `none` when the
bound is reached or a tag is out of range. -/
def getFileByList (c : Codec) : Nat → Object → Store → Option Bytes
  | 0, _, _ => none
  | fuel + 1, obj, store =>
    listLoop c (fun o => getFileByList c fuel o store) store obj.Data obj.Links 0 []

/-- The loop `for i := range obj.Links` of `getFileByDir` over the links still to visit, with
the tag offset `index`; `seg` is `pathArr[cur]`, `recDir` and `recList` are the calls of
`getFileByDir` at `cur+1` and of `getFileByList`. The result `[]` is `nil`. -/
def dirScan (c : Codec) (recDir recList : Object → Option Bytes) (store : Store) (data : Bytes)
    (seg : String) : List Link → Nat → Option Bytes
  | [], _ => some []
  | objInfo :: rest, index =>
    if index + 4 > data.length then none
    else
      let objType := slice data index (index + 4)
      if objInfo.Name ≠ seg then dirScan c recDir recList store data seg rest (index + 4)
      else if objType = TREE then
        match recDir (c.unmarshal (store.Get objInfo.Hash)) with
        | none => none
        | some ans =>
          if ans ≠ [] then some ans
          else dirScan c recDir recList store data seg rest (index + 4)
      else if objType = BLOB then some (store.Get objInfo.Hash)
      else if objType = LIST then recList (c.unmarshal (store.Get objInfo.Hash))
      else dirScan c recDir recList store data seg rest (index + 4)

/-- `getFileByDir(obj, pathArr, cur, store)`, with a bound on the depth of the recursion. -/
def getFileByDir (c : Codec) : Nat → Object → List String → Nat → Store → Option Bytes
  | 0, _, _, _, _ => none
  | fuel + 1, obj, pathArr, cur, store =>
    if cur ≥ pathArr.length then some []
    else
      dirScan c (fun o => getFileByDir c fuel o pathArr (cur + 1) store)
        (fun o => getFileByList c fuel o store) store obj.Data (pathArr.getD cur "") obj.Links 0

/-- `Hash2File(store, hash, path, hp)`, with a bound on the depth of the recursion. -/
def Hash2File (c : Codec) (fuel : Nat) (store : Store) (hash : Bytes) (path : String) :
    Option Bytes :=
  if store.Has hash then
    let objBinary := store.Get hash
    let obj := c.unmarshal objBinary
    let pathArr := Split path
    let cur := 1
    getFileByDir c fuel obj pathArr cur store
  else some []

/-! ### A concrete codec

A length-prefixed encoding, to run the definitions on concrete inputs. -/

/-- A byte string with its length in front. -/
def encBytes (b : Bytes) : Bytes := b.length :: b

/-- One link: name, hash, size. -/
def encLink (l : Link) : Bytes :=
  encBytes (l.Name.data.map Char.toNat) ++ (encBytes l.Hash ++ [l.Size])

/-- The links one after the other. -/
def encLinks : List Link → Bytes
  | [] => []
  | l :: ls => encLink l ++ encLinks ls

/-- Inverse of `encBytes` on a stream: the byte string and the rest. -/
def decBytes : Bytes → Bytes × Bytes
  | [] => ([], [])
  | n :: xs => (xs.take n, xs.drop n)

/-- Inverse of `encLink` on a stream. -/
def decLink (xs : Bytes) : Link × Bytes :=
  let nm := decBytes xs
  let hs := decBytes nm.2
  ({ Name := String.mk (nm.1.map Char.ofNat), Hash := hs.1, Size := hs.2.headD 0 }, hs.2.tail)

/-- Inverse of `encLinks` for a known number of links. -/
def decLinks : Nat → Bytes → List Link × Bytes
  | 0, xs => ([], xs)
  | n + 1, xs =>
    let l := decLink xs
    let ls := decLinks n l.2
    (l.1 :: ls.1, ls.2)

/-- The length-prefixed codec; the empty input decodes to the zero object. -/
def lpCodec : Codec where
  marshal o := o.Links.length :: (encLinks o.Links ++ encBytes o.Data)
  unmarshal
    | [] => emptyObject
    | n :: xs =>
      let ls := decLinks n xs
      { Links := ls.1, Data := (decBytes ls.2).1 }

/-! ### The persist requests of a build

The objects the builder constructs do not depend on the store. The definitions below follow
the builder step by step and, in place of the store, collect the calls of `putObjInStore`
in order: one pair of the object and the type argument per call. -/

/-- One call of `putObjInStore`: the object and the `objType` argument. -/
abbrev Req := Object × Bytes

/-- Run the calls of `putObjInStore` of a request list on a store, in order. -/
def persist (c : Codec) (h : Bytes → Bytes) : List Req → Store → Store
  | [], store => store
  | r :: rs, store => persist c h rs (putObjInStore c r.1 store h r.2)

/-- Requests of `chunkLoop`. -/
def chunkReqs (c : Codec) (h : Bytes → Bytes) (bytes : Bytes) :
    Nat → Object → Nat → Nat → Object × Nat × List Req
  | 0, obj, lendata, _ => (obj, lendata, [])
  | n + 1, obj, lendata, start =>
    let stop := if start + CHUNK_SIZE > bytes.length then bytes.length else start + CHUNK_SIZE
    let data := slice bytes start stop
    let blobObj : Object := { Links := [], Data := data }
    let obj : Object :=
      { Links := obj.Links ++ [{ Name := "", Hash := computeHash (c.marshal blobObj) h, Size := data.length }],
        Data := obj.Data ++ BLOB }
    if start + CHUNK_SIZE ≥ bytes.length then (obj, lendata + data.length, [(blobObj, BLOB)])
    else
      let r := chunkReqs c h bytes n obj (lendata + data.length) (start + CHUNK_SIZE)
      (r.1, r.2.1, (blobObj, BLOB) :: r.2.2)

/-- Requests of `levelLoop`. -/
def levelReqs (c : Codec) (h : Bytes → Bytes) (bytes : Bytes)
    (child : Nat → Option (Object × Nat × List Req)) :
    Nat → Object → Nat → Nat → Option (Object × Nat × List Req)
  | 0, obj, lendata, _ => some (obj, lendata, [])
  | n + 1, obj, lendata, start =>
    if start ≥ bytes.length then some (obj, lendata, [])
    else
      match child start with
      | none => none
      | some (tmpObj, tmpLendata, reqs) =>
        let links := obj.Links ++ [{ Name := "", Hash := computeHash (c.marshal tmpObj) h, Size := tmpLendata }]
        let data := if tmpObj.Links = [] then obj.Data ++ BLOB else obj.Data ++ LIST
        match levelReqs c h bytes child n { Links := links, Data := data } (lendata + tmpLendata)
            (start + tmpLendata) with
        | none => none
        | some (obj, lendata, rest) => some (obj, lendata, reqs ++ rest)

/-- Requests of `dfshandleFile`, with the object built and the bytes covered. -/
def dfsReqs (c : Codec) (h : Bytes → Bytes) : Nat → Bytes → Nat → Option (Object × Nat × List Req)
  | 0, bytes, start =>
    if start ≥ bytes.length then some (emptyObject, 0, [(emptyObject, LIST)]) else none
  | 1, bytes, start =>
    if start > bytes.length then none
    else if bytes.length - start < CHUNK_SIZE then
      let data := slice bytes start bytes.length
      let obj : Object := { Links := [], Data := data }
      some (obj, data.length, [(obj, BLOB)])
    else
      let r := chunkReqs c h bytes MAX_LISTLINE emptyObject 0 start
      some (r.1, r.2.1, r.2.2 ++ [(r.1, LIST)])
  | height + 2, bytes, start =>
    match levelReqs c h bytes (fun start => dfsReqs c h (height + 1) bytes start)
        MAX_LISTLINE emptyObject 0 start with
    | none => none
    | some (obj, lendata, reqs) => some (obj, lendata, reqs ++ [(obj, LIST)])

/-- Requests of `handleFile`, with the object built. -/
def fileReqs (c : Codec) (h : Bytes → Bytes) (size : Nat) (bytes : Bytes) :
    Option (Object × List Req) :=
  if size > CHUNK_SIZE then
    match computeHeight size with
    | none => none
    | some height =>
      match dfsReqs c h height bytes 0 with
      | none => none
      | some (obj, _, reqs) => some (obj, reqs)
  else
    let obj : Object := { Links := [], Data := bytes }
    some (obj, [(obj, BLOB)])

mutual
/-- Requests of `handleDir`, with the object built. -/
def dirReqs (c : Codec) (h : Bytes → Bytes) : Node → Option (Object × List Req)
  | Node.dir _ _ children =>
    match dirLoopReqs c h children emptyObject with
    | none => none
    | some (treeObject, reqs) => some (treeObject, reqs ++ [(treeObject, LIST)])
  | _ => none
termination_by structural node => node

/-- Requests of `dirLoop`. -/
def dirLoopReqs (c : Codec) (h : Bytes → Bytes) : List Node → Object → Option (Object × List Req)
  | [], treeObject => some (treeObject, [])
  | node :: rest, treeObject =>
    match node with
    | Node.file name size bytes =>
      match fileReqs c h size bytes with
      | none => none
      | some (tmp, reqs) =>
        let links := treeObject.Links ++ [{ Name := name, Hash := computeHash (c.marshal tmp) h, Size := size % 2 ^ 64 }]
        let data := if tmp.Links = [] then treeObject.Data ++ BLOB else treeObject.Data ++ LIST
        match dirLoopReqs c h rest { Links := links, Data := data } with
        | none => none
        | some (obj, more) => some (obj, reqs ++ more)
    | Node.dir name size _ =>
      match dirReqs c h node with
      | none => none
      | some (tmp, reqs) =>
        let links := treeObject.Links ++ [{ Name := name, Hash := computeHash (c.marshal tmp) h, Size := size % 2 ^ 64 }]
        match dirLoopReqs c h rest { Links := links, Data := treeObject.Data ++ TREE } with
        | none => none
        | some (obj, more) => some (obj, reqs ++ more)
    | Node.other _ _ => dirLoopReqs c h rest treeObject
termination_by structural children => children
end

/-- Requests of `Add`, with the root object. -/
def addReqs (c : Codec) (h : Bytes → Bytes) (node : Node) : Option (Object × List Req) :=
  match node with
  | Node.file _ size bytes => fileReqs c h size bytes
  | Node.dir _ _ _ => dirReqs c h node
  | Node.other _ _ => some (emptyObject, [])

/-! ### Sample inputs -/

/-- A small source tree: an empty directory, an empty file, a ten-byte file and a nested
directory with a two-byte file. -/
def sampleTree : Node :=
  Node.dir "root" 0
    [Node.dir "a" 0 [], Node.file "b" 0 [],
      Node.file "hello.txt" 10 [97, 98, 99, 100, 101, 102, 103, 104, 105, 106],
      Node.dir "d" 2 [Node.file "c" 2 [7, 7]]]

/-! ### Notions used in the statements -/

/-- Number of bytes a call of `dfshandleFile` at the given height can cover. -/
def cap (height : Nat) : Nat := MAX_LISTLINE ^ height * CHUNK_SIZE

/-- The value under which `putObjInStore` files an object without links when its type is
`BLOB`, and an object with links otherwise. -/
def storedValue (c : Codec) (o : Object) : Bytes :=
  if o.Links = [] then o.Data else c.marshal o

/-- The store holds the object under the hash of its encoding, with the value above. -/
def Stored (c : Codec) (h : Bytes → Bytes) (store : Store) (o : Object) : Prop :=
  store.lookup (h (c.marshal o)) = some (storedValue c o)

/-- Shape of a persist request: a blob request has no links; any other request is made with
type `LIST` and carries four bytes of data per link. -/
def ReqShape (r : Req) : Prop :=
  (r.2 = BLOB ∧ r.1.Links = []) ∨ (r.2 = LIST ∧ r.1.Data.length = 4 * r.1.Links.length)

/-- Every request with a non-zero object is in the store with the value of `storedValue`. -/
def GoodStore (c : Codec) (h : Bytes → Bytes) (store : Store) (reqs : List Req) : Prop :=
  ∀ r ∈ reqs, r.1 ≠ emptyObject → Stored c h store r.1

/-- The bytes that `getFileByList` adds for a link to the object `o`, tagged by the builder:
the stored value for an object without links, the bytes of the recursive call otherwise. -/
def childBytes (c : Codec) (h : Bytes → Bytes) (recList : Object → Option Bytes) (store : Store)
    (o : Object) : Option Bytes :=
  if o.Links = [] then some (store.Get (h (c.marshal o)))
  else recList (c.unmarshal (store.Get (h (c.marshal o))))

/-- The object that `Add` builds for a node (the zero object when the build does not
return). -/
def nodeObj (c : Codec) (h : Bytes → Bytes) (node : Node) : Object :=
  ((addReqs c h node).map Prod.fst).getD emptyObject

/-- The persist requests of the build of a node. -/
def nodeReqs (c : Codec) (h : Bytes → Bytes) (node : Node) : List Req :=
  ((addReqs c h node).map Prod.snd).getD []

/-- The link that `handleDir` appends for a child. -/
def nodeLink (c : Codec) (h : Bytes → Bytes) : Node → Link
  | Node.file name size bytes =>
    { Name := name, Hash := h (c.marshal (nodeObj c h (Node.file name size bytes))), Size := size % 2 ^ 64 }
  | Node.dir name size children =>
    { Name := name, Hash := h (c.marshal (nodeObj c h (Node.dir name size children))), Size := size % 2 ^ 64 }
  | Node.other name size => { Name := name, Hash := [], Size := size % 2 ^ 64 }

/-- The tag that `handleDir` appends for a child. -/
def nodeTag (c : Codec) (h : Bytes → Bytes) : Node → Bytes
  | Node.file name size bytes =>
    if (nodeObj c h (Node.file name size bytes)).Links = [] then BLOB else LIST
  | Node.dir _ _ _ => TREE
  | Node.other _ _ => []

/-- The links of the tree object of a directory with the given children. -/
def treeLinks (c : Codec) (h : Bytes → Bytes) : List Node → List Link
  | [] => []
  | Node.other _ _ :: rest => treeLinks c h rest
  | node :: rest => nodeLink c h node :: treeLinks c h rest

/-- The data of the tree object of a directory with the given children. -/
def treeData (c : Codec) (h : Bytes → Bytes) : List Node → Bytes
  | [] => []
  | Node.other _ _ :: rest => treeData c h rest
  | node :: rest => nodeTag c h node ++ treeData c h rest

/-- The persist requests of the children of a directory, in order. -/
def treeReqs (c : Codec) (h : Bytes → Bytes) : List Node → List Req
  | [] => []
  | node :: rest => nodeReqs c h node ++ treeReqs c h rest

/-- The tree object of a directory with the given children. -/
def treeObj (c : Codec) (h : Bytes → Bytes) (children : List Node) : Object :=
  { Links := treeLinks c h children, Data := treeData c h children }

/-! ### Source trees and paths -/

/-- The name under which `handleDir` links a child: files and directories only. -/
def Node.linkName : Node → Option String
  | Node.file name _ _ => some name
  | Node.dir name _ _ => some name
  | Node.other _ _ => none

/-- The node reached from the children of a directory by following the names:
`Chain children [n1, ..., nk] target` says that some child is named `n1`, is a directory
when `k > 1` with a child named `n2`, and so on down to `target`, named `nk`. -/
inductive Chain : List Node → List String → Node → Prop
  | here {children : List Node} {node : Node} {name : String} :
      node ∈ children → node.linkName = some name → Chain children [name] node
  | step {children : List Node} {name : String} {size : Nat} {cs : List Node}
      {rest : List String} {target : Node} :
      Node.dir name size cs ∈ children → Chain cs rest target →
        Chain children (name :: rest) target

/-- Sibling names are distinct in every directory of the tree. -/
inductive NamesDistinct : Node → Prop
  | file (name : String) (size : Nat) (bytes : Bytes) : NamesDistinct (Node.file name size bytes)
  | other (name : String) (size : Nat) : NamesDistinct (Node.other name size)
  | dir (name : String) (size : Nat) (children : List Node) :
      (children.filterMap Node.linkName).Nodup → (∀ x ∈ children, NamesDistinct x) →
        NamesDistinct (Node.dir name size children)

/-- Characters of the path of a chain of names: a `/` in front of each name. -/
def charsOfPath : List String → List Char
  | [] => []
  | name :: rest => '/' :: (name.data ++ charsOfPath rest)

/-- The path `"/" + n1 + "/" + ... + "/" + nk` of a chain of names. -/
def pathOf (names : List String) : String := String.mk (charsOfPath names)

/-- A file of `CHUNK_SIZE + 1` bytes, all `0x41`. -/
def bigBytes : Bytes := List.replicate (CHUNK_SIZE + 1) 65

/-- A directory with the file above under the name `big.bin`, in a subdirectory `a`. -/
def bigTree : Node :=
  Node.dir "root" 0 [Node.dir "a" 0 [Node.file "big.bin" bigBytes.length bigBytes]]

/-- A hash with collisions: every input has the empty digest. -/
def constHash : Bytes → Bytes := fun _ => []

/-- A directory with one one-byte file. -/
def oneFileTree : Node := Node.dir "root" 1 [Node.file "x" 1 [1]]

/-! ### Tags and the objects they describe -/

/-- The tag `dfshandleFile` writes for a child object: `blob` without links, `link` with. -/
def listTag (kid : Object) : Bytes := if kid.Links = [] then BLOB else LIST

/-- The tags of a sequence of children, one after the other. -/
def tagsOf {α : Type} (tag : α → Bytes) : List α → Bytes
  | [] => []
  | k :: ks => tag k ++ tagsOf tag ks

/-- The children a directory links: files and directories, in the iterator's order. -/
def entries (children : List Node) : List Node :=
  children.filter (fun n => n.linkName.isSome)

/-- The links and the data of `obj` describe the children `ks`: the hashes of the links are
the hashes of the encodings of the objects of the children, the data are their tags. -/
def Joined (c : Codec) (h : Bytes → Bytes) (obj : Object) {α : Type} (ks : List α)
    (objOf : α → Object) (tag : α → Bytes) : Prop :=
  obj.Links.map Link.Hash = ks.map (fun k => h (c.marshal (objOf k))) ∧ obj.Data = tagsOf tag ks

/-- Tag alignment of `obj` against the children `ks`: one link per child, four bytes of data
per link, and at every index the hash of the link is the hash of the encoding of the object
of the child and the aligned slice of the data is the tag of the child. -/
def TagsAt (c : Codec) (h : Bytes → Bytes) (obj : Object) {α : Type} (ks : List α)
    (objOf : α → Object) (tag : α → Bytes) : Prop :=
  obj.Links.length = ks.length ∧ obj.Data.length = 4 * obj.Links.length ∧
    ∀ (i : Nat) (hi : i < ks.length),
      (obj.Links.map Link.Hash)[i]? = some (h (c.marshal (objOf ks[i]))) ∧
        slice obj.Data (4 * i) (4 * i + 4) = tag ks[i]

/-- `Name()` of a source node. -/
def Node.name : Node → String
  | Node.file name _ _ => name
  | Node.dir name _ _ => name
  | Node.other name _ => name

/-- `Size()` of a source node. -/
def Node.size : Node → Nat
  | Node.file _ size _ => size
  | Node.dir _ size _ => size
  | Node.other _ size => size

/-- Number of integer divisions by `d` that take `n` to zero, with a bound on the number
of steps. -/
def divisions (d : Nat) : Nat → Nat → Nat
  | 0, _ => 0
  | fuel + 1, n => if n = 0 then 0 else divisions d fuel (n / d) + 1

/-- The height as the specification describes it: the number of times the chunk count
`ceil(size / CHUNK_SIZE)` is divided by `MAX_LISTLINE`, in integers, until it is zero. -/
def heightByDivision (size : Nat) : Nat :=
  divisions MAX_LISTLINE ((size + CHUNK_SIZE - 1) / CHUNK_SIZE + 1)
    ((size + CHUNK_SIZE - 1) / CHUNK_SIZE)

/-- The data of the requests made with type `BLOB`, in the order of the calls. -/
def blobsOf (rs : List Req) : List Bytes :=
  (rs.filter (fun r => decide (r.2 = BLOB))).map (fun r => r.1.Data)

/-- The pieces `blobs` are consecutive ranges of `bytes` from offset `s` to offset `e`: each
piece starts where the one before ends, holds between 1 and `CHUNK_SIZE` bytes, and holds
exactly `CHUNK_SIZE` bytes unless it ends at the end of `bytes`. -/
def Chunked (bytes : Bytes) : Nat → List Bytes → Nat → Prop
  | s, [], e => s = e
  | s, b :: rest, e =>
    b = slice bytes s (s + b.length) ∧ 1 ≤ b.length ∧ b.length ≤ CHUNK_SIZE ∧
      s + b.length ≤ bytes.length ∧ (b.length = CHUNK_SIZE ∨ s + b.length = bytes.length) ∧
      Chunked bytes (s + b.length) rest e

/-- Sum of the `Size` fields of the links. -/
def sizeSum (ls : List Link) : Nat := (ls.map Link.Size).sum

/-- The links, taken in order from the offset `s` of `bytes`, have empty names and cover
consecutive ranges: each link refers to an object from which retrieval reconstructs the
bytes from the current offset up to the offset plus the `Size` of the link, and the next
link goes on from there. -/
def LinksCover (c : Codec) (h : Bytes → Bytes) (recList : Object → Option Bytes) (store : Store)
    (bytes : Bytes) : List Link → Nat → Prop
  | [], _ => True
  | l :: ls, s =>
    l.Name = "" ∧ s + l.Size ≤ bytes.length ∧
      (∃ kid : Object, l.Hash = h (c.marshal kid) ∧
        childBytes c h recList store kid = some (slice bytes s (s + l.Size))) ∧
      LinksCover c h recList store bytes ls (s + l.Size)

/-- The links of a list built by `dfshandleFile` at the given height, taken in order from
the offset `s` of `bytes`: every link has the empty name and a `Size` of at least 1, and it
refers to a child that covers exactly the next `Size` bytes: at height 1 the blob of those
bytes, above height 1 the object that `dfshandleFile` returns one level lower at that
offset, with `Size` as its consumed count. The next link goes on where this one ends. -/
def LinksSpan (c : Codec) (h : Bytes → Bytes) (bytes : Bytes) (height : Nat) :
    List Link → Nat → Prop
  | [], _ => True
  | l :: ls, s =>
    l.Name = "" ∧ 1 ≤ l.Size ∧ s + l.Size ≤ bytes.length ∧
      (∃ kid : Object, l.Hash = h (c.marshal kid) ∧
        ((height = 1 ∧ kid = { Links := [], Data := slice bytes s (s + l.Size) }) ∨
          (2 ≤ height ∧ ∀ store, ∃ s2,
            dfshandleFile c h (height - 1) bytes store s = some (kid, l.Size, s2)))) ∧
      LinksSpan c h bytes height ls (s + l.Size)

/-! ## Basic facts -/

theorem persist_append (c : Codec) (h : Bytes → Bytes) (a b : List Req) (store : Store) :
    persist c h (a ++ b) store = persist c h b (persist c h a store) := by
  induction a generalizing store with
  | nil => rfl
  | cons r rs ih => simp [persist, ih]

theorem chunkLoop_eq (c : Codec) (h : Bytes → Bytes) (bytes : Bytes) (n : Nat) :
    ∀ (obj : Object) (lendata start : Nat) (store : Store),
      chunkLoop c h bytes n obj lendata start store =
        ((chunkReqs c h bytes n obj lendata start).1, (chunkReqs c h bytes n obj lendata start).2.1,
          persist c h (chunkReqs c h bytes n obj lendata start).2.2 store) := by
  induction n with
  | zero => intro obj lendata start store; rfl
  | succ n ih =>
    intro obj lendata start store
    simp only [chunkLoop, chunkReqs]
    split
    · simp [persist]
    · rw [ih]; simp [persist]

theorem levelLoop_eq (c : Codec) (h : Bytes → Bytes) (bytes : Bytes)
    (child : Store → Nat → Option (Object × Nat × Store))
    (childR : Nat → Option (Object × Nat × List Req))
    (hc : ∀ store start, child store start =
      (childR start).map (fun r => (r.1, r.2.1, persist c h r.2.2 store))) (n : Nat) :
    ∀ (obj : Object) (lendata start : Nat) (store : Store),
      levelLoop c h bytes child n obj lendata start store =
        (levelReqs c h bytes childR n obj lendata start).map
          (fun r => (r.1, r.2.1, persist c h r.2.2 store)) := by
  induction n with
  | zero => intro obj lendata start store; rfl
  | succ n ih =>
    intro obj lendata start store
    simp only [levelLoop, levelReqs]
    split
    · rfl
    · rw [hc]
      cases hch : childR start with
      | none => rfl
      | some r =>
        obtain ⟨o, m, rs⟩ := r
        simp only [Option.map_some']
        rw [ih]
        cases levelReqs c h bytes childR n _ (lendata + m) (start + m) with
        | none => rfl
        | some r2 => simp [persist_append]

theorem dfshandleFile_eq (c : Codec) (h : Bytes → Bytes) (height : Nat) :
    ∀ (bytes : Bytes) (store : Store) (start : Nat),
      dfshandleFile c h height bytes store start =
        (dfsReqs c h height bytes start).map (fun r => (r.1, r.2.1, persist c h r.2.2 store)) := by
  induction height using Nat.strong_induction_on with
  | _ height ih =>
    intro bytes store start
    match height with
    | 0 =>
      simp only [dfshandleFile, dfsReqs]
      split <;> simp [persist]
    | 1 =>
      simp only [dfshandleFile, dfsReqs]
      split
      · rfl
      · split
        · simp [persist]
        · rw [chunkLoop_eq]; simp [persist_append, persist]
    | k + 2 =>
      simp only [dfshandleFile, dfsReqs]
      rw [levelLoop_eq c h bytes _ (fun start => dfsReqs c h (k + 1) bytes start)
        (fun store start => ih (k + 1) (by omega) bytes store start)]
      cases levelReqs c h bytes (fun start => dfsReqs c h (k + 1) bytes start) MAX_LISTLINE
          emptyObject 0 start with
      | none => rfl
      | some r => simp [persist_append, persist]

theorem handleFile_eq (c : Codec) (h : Bytes → Bytes) (size : Nat) (bytes : Bytes) (store : Store) :
    handleFile c h size bytes store =
      (fileReqs c h size bytes).map (fun r => (r.1, persist c h r.2 store)) := by
  simp only [handleFile, fileReqs]
  split
  · cases computeHeight size with
    | none => rfl
    | some height =>
      simp only [dfshandleFile_eq]
      cases dfsReqs c h height bytes 0 with
      | none => rfl
      | some r => rfl
  · simp [persist]

/-- Induction over source trees: a directory is handled once all its children are. -/
theorem Node.induct {P : Node → Prop} (hfile : ∀ name size bytes, P (Node.file name size bytes))
    (hother : ∀ name size, P (Node.other name size))
    (hdir : ∀ name size children, (∀ x ∈ children, P x) → P (Node.dir name size children)) :
    ∀ node, P node := by
  intro node
  exact @Node.rec P (fun cs => ∀ x ∈ cs, P x) hfile (fun name size cs ih => hdir name size cs ih)
    hother (by simp) (fun x xs hx hxs y hy => by
      rcases List.mem_cons.1 hy with rfl | hy
      · exact hx
      · exact hxs y hy) node

theorem dirLoop_eq (c : Codec) (h : Bytes → Bytes) (children : List Node)
    (hch : ∀ x ∈ children, ∀ store, handleDir c h x store =
      (dirReqs c h x).map (fun r => (r.1, persist c h r.2 store))) :
    ∀ (treeObject : Object) (store : Store),
      dirLoop c h children treeObject store =
        (dirLoopReqs c h children treeObject).map (fun r => (r.1, persist c h r.2 store)) := by
  induction children with
  | nil => intro treeObject store; simp [dirLoop, dirLoopReqs, persist]
  | cons node rest ih =>
    intro treeObject store
    have ih2 := ih (fun x hx => hch x (List.mem_cons_of_mem _ hx))
    cases node with
    | file name size bytes =>
      simp only [dirLoop, dirLoopReqs, handleFile_eq]
      cases fileReqs c h size bytes with
      | none => rfl
      | some r =>
        simp only [Option.map_some', ih2]
        cases dirLoopReqs c h rest _ with
        | none => rfl
        | some r2 => simp [persist_append]
    | dir name size cs =>
      simp only [dirLoop, dirLoopReqs]
      rw [hch _ (List.mem_cons_self _ _)]
      cases dirReqs c h (Node.dir name size cs) with
      | none => rfl
      | some r =>
        simp only [Option.map_some', ih2]
        cases dirLoopReqs c h rest _ with
        | none => rfl
        | some r2 => simp [persist_append]
    | other name size =>
      simp only [dirLoop, dirLoopReqs]
      exact ih2 treeObject store

theorem handleDir_eq (c : Codec) (h : Bytes → Bytes) (node : Node) :
    ∀ store, handleDir c h node store =
      (dirReqs c h node).map (fun r => (r.1, persist c h r.2 store)) := by
  induction node using Node.induct with
  | hfile name size bytes => intro store; simp [handleDir, dirReqs]
  | hother name size => intro store; simp [handleDir, dirReqs]
  | hdir name size children ih =>
    intro store
    simp only [handleDir, dirReqs]
    rw [dirLoop_eq c h children ih]
    cases dirLoopReqs c h children emptyObject with
    | none => rfl
    | some r => simp [persist_append, persist]

theorem Add_eq (c : Codec) (h : Bytes → Bytes) (node : Node) (store : Store) :
    Add c store node h =
      (addReqs c h node).map (fun r => (computeHash (c.marshal r.1) h, persist c h r.2 store)) := by
  cases node with
  | file name size bytes =>
    simp only [Add, addReqs, handleFile_eq]
    cases fileReqs c h size bytes <;> rfl
  | dir name size cs =>
    simp only [Add, addReqs, handleDir_eq]
    cases dirReqs c h (Node.dir name size cs) <;> rfl
  | other name size => simp [Add, addReqs, persist]

/-! ## The store under `putObjInStore` -/

theorem lookup_put (store : Store) (key value k : Bytes) :
    (store.Put key value).lookup k = if k = key then some value else store.lookup k := by
  unfold Store.Put
  rw [List.lookup_cons]
  by_cases hk : k = key
  · simp [hk]
  · have : (k == key) = false := by simpa using hk
    simp [this, hk]

theorem has_put (store : Store) (key value k : Bytes) :
    (store.Put key value).Has k = (decide (k = key) || store.Has k) := by
  unfold Store.Has
  rw [lookup_put]
  by_cases hk : k = key <;> simp [hk]

theorem putObjInStore_of_has (c : Codec) (h : Bytes → Bytes) (obj : Object) (store : Store)
    (objType : Bytes) (hhas : store.Has (h (c.marshal obj)) = true) :
    putObjInStore c obj store h objType = store := by
  simp [putObjInStore, computeHash, hhas]

theorem putObjInStore_has (c : Codec) (h : Bytes → Bytes) (obj : Object) (store : Store)
    (objType : Bytes) : (putObjInStore c obj store h objType).Has (h (c.marshal obj)) = true := by
  unfold putObjInStore computeHash
  by_cases hhas : store.Has (h (c.marshal obj)) = true
  · simp [hhas]
  · by_cases ht : objType = BLOB <;> simp [hhas, ht, has_put]

theorem putObjInStore_lookup_mono (c : Codec) (h : Bytes → Bytes) (obj : Object) (store : Store)
    (objType k v : Bytes) (hk : store.lookup k = some v) :
    (putObjInStore c obj store h objType).lookup k = some v := by
  unfold putObjInStore computeHash
  by_cases hhas : store.Has (h (c.marshal obj)) = true
  · simp [hhas, hk]
  · have hne : k ≠ h (c.marshal obj) := by
      intro hkk
      apply hhas
      simp [Store.Has, ← hkk, hk]
    by_cases ht : objType = BLOB <;> simp [hhas, ht, lookup_put, hne, hk]

theorem persist_lookup_mono (c : Codec) (h : Bytes → Bytes) (reqs : List Req) :
    ∀ (store : Store) (k v : Bytes), store.lookup k = some v →
      (persist c h reqs store).lookup k = some v := by
  induction reqs with
  | nil => intro store k v hk; exact hk
  | cons r rs ih =>
    intro store k v hk
    exact ih _ k v (putObjInStore_lookup_mono c h r.1 store r.2 k v hk)

theorem has_iff_lookup (store : Store) (k : Bytes) :
    store.Has k = true ↔ ∃ v, store.lookup k = some v := by
  unfold Store.Has
  cases store.lookup k <;> simp

theorem persist_has_mono (c : Codec) (h : Bytes → Bytes) (reqs : List Req) (store : Store)
    (k : Bytes) (hk : store.Has k = true) : (persist c h reqs store).Has k = true := by
  obtain ⟨v, hv⟩ := (has_iff_lookup store k).1 hk
  exact (has_iff_lookup _ k).2 ⟨v, persist_lookup_mono c h reqs store k v hv⟩

theorem persist_has (c : Codec) (h : Bytes → Bytes) (reqs : List Req) :
    ∀ (store : Store), ∀ r ∈ reqs, (persist c h reqs store).Has (h (c.marshal r.1)) = true := by
  induction reqs with
  | nil => intro store r hr; simp at hr
  | cons a rs ih =>
    intro store r hr
    rcases List.mem_cons.1 hr with rfl | hr
    · exact persist_has_mono c h rs _ _ (putObjInStore_has c h r.1 store r.2)
    · exact ih _ r hr

theorem persist_of_has (c : Codec) (h : Bytes → Bytes) (reqs : List Req) :
    ∀ (store : Store), (∀ r ∈ reqs, store.Has (h (c.marshal r.1)) = true) →
      persist c h reqs store = store := by
  induction reqs with
  | nil => intro store _; rfl
  | cons a rs ih =>
    intro store hall
    simp only [persist]
    rw [putObjInStore_of_has c h a.1 store a.2 (hall a (List.mem_cons_self _ _))]
    exact ih store (fun r hr => hall r (List.mem_cons_of_mem _ hr))

theorem persist_idem (c : Codec) (h : Bytes → Bytes) (reqs : List Req) (store : Store) :
    persist c h reqs (persist c h reqs store) = persist c h reqs store :=
  persist_of_has c h reqs _ (persist_has c h reqs store)

/-- C3: the root hash that `Add` returns is a function of the node, the codec and the hash
alone: on any two stores `Add` returns the same root hash (and fails on one exactly when it
fails on the other). -/
theorem Add_root_deterministic (c : Codec) (h : Bytes → Bytes) (node : Node) (s1 s2 : Store) :
    (Add c s1 node h).map Prod.fst = (Add c s2 node h).map Prod.fst := by
  rw [Add_eq, Add_eq]
  cases addReqs c h node <;> rfl

/-- C4: when `Add` on store `s` returns root `r` and leaves store `s1`, running `Add` again
on `s1` returns the same root and leaves the store equal to `s1`: the write log has no new
entry, so no `Put` was performed. -/
theorem Add_rebuild_noop (c : Codec) (h : Bytes → Bytes) (node : Node) (s s1 : Store) (r : Bytes)
    (hadd : Add c s node h = some (r, s1)) : Add c s1 node h = some (r, s1) := by
  rw [Add_eq] at hadd ⊢
  cases hreq : addReqs c h node with
  | none => rw [hreq] at hadd; simp at hadd
  | some q =>
    rw [hreq] at hadd
    simp only [Option.map_some', Option.some.injEq, Prod.mk.injEq] at hadd ⊢
    obtain ⟨h1, h2⟩ := hadd
    refine ⟨h1, ?_⟩
    rw [← h2]
    exact persist_idem c h q.2 s

theorem Add_rebuild_noop_witness :
    ∃ r s1, Add lpCodec [] sampleTree id = some (r, s1) ∧
      Add lpCodec s1 sampleTree id = some (r, s1) := by
  have hsome : (Add lpCodec [] sampleTree id).isSome = true := by decide
  obtain ⟨⟨r, s1⟩, hrs⟩ := Option.isSome_iff_exists.1 hsome
  exact ⟨r, s1, hrs, Add_rebuild_noop lpCodec id sampleTree [] s1 r hrs⟩

set_option exponentiation.threshold 2000 in
/-- C8: on the sizes the height-correctness property names, the loop of `handleFile` returns
90, 91 and 91 where the least sufficient heights are 1, 1 and 2: the division in the loop is
a float64 division, so `tmp` reaches zero only by underflow. -/
theorem computeHeight_values :
    computeHeight (CHUNK_SIZE + 1) = some 90 ∧
      computeHeight (CHUNK_SIZE * MAX_LISTLINE) = some 91 ∧
        computeHeight (CHUNK_SIZE * MAX_LISTLINE + 1) = some 91 := by
  decide

/-! ## Fan-out -/

theorem chunkReqs_links_length (c : Codec) (h : Bytes → Bytes) (bytes : Bytes) (n : Nat) :
    ∀ (obj : Object) (lendata start : Nat),
      (chunkReqs c h bytes n obj lendata start).1.Links.length ≤ obj.Links.length + n := by
  induction n with
  | zero => intro obj lendata start; simp [chunkReqs]
  | succ n ih =>
    intro obj lendata start
    simp only [chunkReqs]
    split
    · simp
    · refine le_trans (ih _ _ _) ?_
      simp; omega

theorem chunkReqs_reqs (c : Codec) (h : Bytes → Bytes) (bytes : Bytes) (n : Nat) :
    ∀ (obj : Object) (lendata start : Nat),
      ∀ r ∈ (chunkReqs c h bytes n obj lendata start).2.2, r.1.Links = [] ∧ r.2 = BLOB := by
  induction n with
  | zero => intro obj lendata start r hr; simp [chunkReqs] at hr
  | succ n ih =>
    intro obj lendata start r hr
    simp only [chunkReqs] at hr
    split at hr
    · simp at hr; subst hr; exact ⟨rfl, rfl⟩
    · rcases List.mem_cons.1 hr with rfl | hr
      · exact ⟨rfl, rfl⟩
      · exact ih _ _ _ r hr

theorem levelReqs_links_length (c : Codec) (h : Bytes → Bytes) (bytes : Bytes)
    (child : Nat → Option (Object × Nat × List Req)) (n : Nat) :
    ∀ (obj : Object) (lendata start : Nat) (res : Object × Nat × List Req),
      levelReqs c h bytes child n obj lendata start = some res →
        res.1.Links.length ≤ obj.Links.length + n := by
  induction n with
  | zero =>
    intro obj lendata start res hres
    simp [levelReqs] at hres
    subst hres; simp
  | succ n ih =>
    intro obj lendata start res hres
    simp only [levelReqs] at hres
    split at hres
    · simp at hres; subst hres; simp
    · cases hch : child start with
      | none => simp [hch] at hres
      | some q =>
        obtain ⟨o, m, rs⟩ := q
        simp only [hch] at hres
        cases hrec : levelReqs c h bytes child n
            { Links := obj.Links ++ [{ Name := "", Hash := computeHash (c.marshal o) h, Size := m }],
              Data := if o.Links = [] then obj.Data ++ BLOB else obj.Data ++ LIST }
            (lendata + m) (start + m) with
        | none => simp [hrec] at hres
        | some q2 =>
          simp only [hrec, Option.some.injEq] at hres
          have := ih _ _ _ q2 hrec
          subst hres
          simp at this ⊢
          omega

/-- Every request of `levelLoop` is a request of one of the recursive calls. -/
theorem levelReqs_reqs (c : Codec) (h : Bytes → Bytes) (bytes : Bytes)
    (child : Nat → Option (Object × Nat × List Req)) (P : Req → Prop)
    (hchild : ∀ start res, child start = some res → ∀ r ∈ res.2.2, P r) (n : Nat) :
    ∀ (obj : Object) (lendata start : Nat) (res : Object × Nat × List Req),
      levelReqs c h bytes child n obj lendata start = some res → ∀ r ∈ res.2.2, P r := by
  induction n with
  | zero =>
    intro obj lendata start res hres r hr
    simp [levelReqs] at hres
    subst hres; simp at hr
  | succ n ih =>
    intro obj lendata start res hres r hr
    simp only [levelReqs] at hres
    split at hres
    · simp at hres; subst hres; simp at hr
    · cases hch : child start with
      | none => simp [hch] at hres
      | some q =>
        obtain ⟨o, m, rs⟩ := q
        simp only [hch] at hres
        cases hrec : levelReqs c h bytes child n
            { Links := obj.Links ++ [{ Name := "", Hash := computeHash (c.marshal o) h, Size := m }],
              Data := if o.Links = [] then obj.Data ++ BLOB else obj.Data ++ LIST }
            (lendata + m) (start + m) with
        | none => simp [hrec] at hres
        | some q2 =>
          simp only [hrec, Option.some.injEq] at hres
          subst hres
          rcases List.mem_append.1 hr with hr | hr
          · exact hchild start (o, m, rs) hch r hr
          · exact ih _ _ _ q2 hrec r hr

theorem dfsReqs_fanout (c : Codec) (h : Bytes → Bytes) (height : Nat) :
    ∀ (bytes : Bytes) (start : Nat) (res : Object × Nat × List Req),
      dfsReqs c h height bytes start = some res →
        ∀ r ∈ res.2.2, r.1.Links.length ≤ MAX_LISTLINE := by
  induction height using Nat.strong_induction_on with
  | _ height ih =>
    intro bytes start res hres r hr
    match height with
    | 0 =>
      simp only [dfsReqs] at hres
      split at hres
      · simp at hres; subst hres; simp at hr; subst hr; simp [emptyObject]
      · simp at hres
    | 1 =>
      simp only [dfsReqs] at hres
      split at hres
      · simp at hres
      · split at hres
        · simp at hres; subst hres; simp at hr; subst hr; simp
        · simp at hres; subst hres
          rcases List.mem_append.1 hr with hr | hr
          · rw [(chunkReqs_reqs c h bytes _ _ _ _ r hr).1]; simp
          · simp at hr; subst hr
            have := chunkReqs_links_length c h bytes MAX_LISTLINE emptyObject 0 start
            simpa [emptyObject] using this
    | k + 2 =>
      simp only [dfsReqs] at hres
      cases hl : levelReqs c h bytes (fun start => dfsReqs c h (k + 1) bytes start) MAX_LISTLINE
          emptyObject 0 start with
      | none => simp [hl] at hres
      | some q =>
        simp only [hl, Option.some.injEq] at hres
        subst hres
        rcases List.mem_append.1 hr with hr | hr
        · exact levelReqs_reqs c h bytes _ (fun r => r.1.Links.length ≤ MAX_LISTLINE)
            (fun s res hs => ih (k + 1) (by omega) bytes s res hs) _ _ _ _ q hl r hr
        · simp at hr; subst hr
          have := levelReqs_links_length c h bytes _ _ _ _ _ q hl
          simpa [emptyObject] using this

/-- The object `dfshandleFile` returns is the object of its last request. -/
theorem dfsReqs_last (c : Codec) (h : Bytes → Bytes) (height : Nat) (bytes : Bytes) (start : Nat)
    (res : Object × Nat × List Req) (hres : dfsReqs c h height bytes start = some res) :
    ∃ t, (res.1, t) ∈ res.2.2 := by
  match height with
  | 0 =>
    simp only [dfsReqs] at hres
    split at hres
    · simp at hres; subst hres; exact ⟨LIST, by simp⟩
    · simp at hres
  | 1 =>
    simp only [dfsReqs] at hres
    split at hres
    · simp at hres
    · split at hres
      · simp at hres; subst hres; exact ⟨BLOB, by simp⟩
      · simp at hres; subst hres; exact ⟨LIST, by simp⟩
  | k + 2 =>
    simp only [dfsReqs] at hres
    cases hl : levelReqs c h bytes (fun start => dfsReqs c h (k + 1) bytes start) MAX_LISTLINE
        emptyObject 0 start with
    | none => simp [hl] at hres
    | some q =>
      simp only [hl, Option.some.injEq] at hres
      subst hres; exact ⟨LIST, by simp⟩

/-- C10: when `dfshandleFile` returns, at any height, the object it returns has at
most `MAX_LISTLINE` links, and so has the object of every call of `putObjInStore` made
during the run (the store afterwards is the store before with exactly these calls applied). -/
theorem dfshandleFile_fanout (c : Codec) (h : Bytes → Bytes) (height : Nat) (bytes : Bytes)
    (store : Store) (start : Nat) (obj : Object) (n : Nat) (store1 : Store)
    (hrun : dfshandleFile c h height bytes store start = some (obj, n, store1)) :
    obj.Links.length ≤ MAX_LISTLINE ∧
      ∃ reqs, dfsReqs c h height bytes start = some (obj, n, reqs) ∧
        store1 = persist c h reqs store ∧ ∀ r ∈ reqs, r.1.Links.length ≤ MAX_LISTLINE := by
  rw [dfshandleFile_eq] at hrun
  cases hreq : dfsReqs c h height bytes start with
  | none => simp [hreq] at hrun
  | some q =>
    obtain ⟨o, m, rs⟩ := q
    simp only [hreq, Option.map_some', Option.some.injEq, Prod.mk.injEq] at hrun
    obtain ⟨rfl, rfl, rfl⟩ := hrun
    have hall := dfsReqs_fanout c h height bytes start _ hreq
    obtain ⟨t, ht⟩ := dfsReqs_last c h height bytes start _ hreq
    exact ⟨hall _ ht, rs, rfl, rfl, hall⟩

theorem dfshandleFile_fanout_witness :
    ({ Links := [{ Name := "", Hash := [0, 3, 1, 2, 3], Size := 3 }],
       Data := [98, 108, 111, 98] } : Object).Links.length = 1 ∧
      (({ Links := [{ Name := "", Hash := [0, 3, 1, 2, 3], Size := 3 }],
          Data := [98, 108, 111, 98] } : Object).Links.length ≤ MAX_LISTLINE ∧
        ∃ reqs, dfsReqs lpCodec id 2 [1, 2, 3] 0 =
            some ({ Links := [{ Name := "", Hash := [0, 3, 1, 2, 3], Size := 3 }],
                    Data := [98, 108, 111, 98] }, 3, reqs) ∧
          [(([1, 0, 5, 0, 3, 1, 2, 3, 3, 4, 98, 108, 111, 98] : Bytes),
              ([1, 0, 5, 0, 3, 1, 2, 3, 3, 4, 98, 108, 111, 98] : Bytes)),
            (([0, 3, 1, 2, 3] : Bytes), ([1, 2, 3] : Bytes))] = persist lpCodec id reqs [] ∧
            ∀ r ∈ reqs, r.1.Links.length ≤ MAX_LISTLINE) :=
  ⟨rfl, dfshandleFile_fanout lpCodec id 2 [1, 2, 3] [] 0 _ 3 _ (by decide)⟩

/-! ## Slices and the tag loop -/

theorem slice_eq (b : Bytes) (lo hi : Nat) : slice b lo hi = (b.drop lo).take (hi - lo) := by
  simp [slice, List.drop_take]

theorem slice_length (b : Bytes) (lo hi : Nat) (hhi : hi ≤ b.length) :
    (slice b lo hi).length = hi - lo := by
  simp [slice, List.length_take, Nat.min_eq_left hhi]

theorem slice_append_left (a b : Bytes) (lo hi : Nat) (hhi : hi ≤ a.length) :
    slice (a ++ b) lo hi = slice a lo hi := by
  simp [slice, List.take_append_of_le_length hhi]

theorem slice_append_right (a b : Bytes) : slice (a ++ b) a.length (a.length + b.length) = b := by
  simp [slice, List.take_append]

theorem slice_append_slice (b : Bytes) (i j k : Nat) (hij : i ≤ j) (hjk : j ≤ k) :
    slice b i j ++ slice b j k = slice b i k := by
  rw [slice_eq, slice_eq, slice_eq]
  have h1 : k - i = (j - i) + (k - j) := by omega
  have h2 : List.drop j b = List.drop (j - i) (List.drop i b) := by
    rw [List.drop_drop]; congr 1; omega
  rw [h1, List.take_add, h2]

theorem slice_all (b : Bytes) : slice b 0 b.length = b := by
  simp [slice]

theorem slice_self (b : Bytes) (i : Nat) : slice b i i = [] := by
  simp [slice_eq]

/-- What one more link adds to the bytes `listLoop` collects: the stored bytes under a
`BLOB` tag, the bytes of the recursive call otherwise. -/
theorem listLoop_snoc (c : Codec) (recList : Object → Option Bytes) (store : Store)
    (data tag : Bytes) (l : Link) (htag : tag.length = 4) (links : List Link) :
    ∀ (index : Nat) (ans r : Bytes), index + 4 * links.length = data.length →
      listLoop c recList store data links index ans = some r →
        listLoop c recList store (data ++ tag) (links ++ [l]) index ans =
          if tag = BLOB then some (r ++ store.Get l.Hash)
          else (recList (c.unmarshal (store.Get l.Hash))).map (fun tmp => r ++ tmp) := by
  induction links with
  | nil =>
    intro index ans r hidx hrun
    simp only [listLoop, Option.some.injEq] at hrun
    subst hrun
    simp only [List.length_nil, Nat.mul_zero, Nat.add_zero] at hidx
    subst hidx
    have hs : slice (data ++ tag) data.length (data.length + 4) = tag := by
      rw [← htag]; exact slice_append_right data tag
    simp only [List.nil_append, listLoop, List.length_append, htag, hs]
    by_cases hb : tag = BLOB
    · simp [hb]
    · simp only [hb, if_false]
      cases recList (c.unmarshal (store.Get l.Hash)) <;> simp
  | cons x xs ih =>
    intro index ans r hidx hrun
    simp only [List.length_cons] at hidx
    have hle : index + 4 ≤ data.length := by omega
    have hs : slice (data ++ tag) index (index + 4) = slice data index (index + 4) :=
      slice_append_left data tag index (index + 4) hle
    simp only [listLoop, List.cons_append, List.length_append, htag, hs] at hrun ⊢
    have h1 : ¬ index + 4 > data.length := by omega
    have h2 : ¬ index + 4 > data.length + 4 := by omega
    simp only [h1, h2, if_false] at hrun ⊢
    split
    · rename_i hb
      simp only [hb, if_true] at hrun
      exact ih (index + 4) _ r (by omega) hrun
    · rename_i hb
      simp only [hb, if_false] at hrun
      cases hrec : recList (c.unmarshal (store.Get x.Hash)) with
      | none => simp [hrec] at hrun
      | some tmp =>
        simp only [hrec] at hrun ⊢
        exact ih (index + 4) _ r (by omega) hrun
theorem CHUNK_SIZE_eq : CHUNK_SIZE = 262144 := rfl

theorem CHUNK_SIZE_pos : 0 < CHUNK_SIZE := by decide

theorem MAX_LISTLINE_eq : MAX_LISTLINE = 4096 := rfl

theorem Stored.get {c : Codec} {h : Bytes → Bytes} {store : Store} {o : Object}
    (hs : Stored c h store o) : store.Get (h (c.marshal o)) = storedValue c o := by
  unfold Stored at hs
  simp [Store.Get, hs]

theorem chunk_arith (len start C A lendata stop : Nat) (h1 : start + C < len)
    (hs : stop = start + C) :
    lendata + (stop - start) + min (len - (start + C)) A =
        lendata + min (len - start) (A + C) ∧
      start + C + min (len - (start + C)) A = start + min (len - start) (A + C) := by
  omega

theorem chunkReqs_spec (c : Codec) (h : Bytes → Bytes) (bytes : Bytes) (store : Store)
    (recList : Object → Option Bytes) (n : Nat) :
    ∀ (obj : Object) (lendata start : Nat) (pre : Bytes), start < bytes.length →
      obj.Data.length = 4 * obj.Links.length →
      listLoop c recList store obj.Data obj.Links 0 [] = some pre →
      (∀ r ∈ (chunkReqs c h bytes n obj lendata start).2.2,
        r.1 ≠ emptyObject → Stored c h store r.1) →
      (chunkReqs c h bytes n obj lendata start).2.1 =
          lendata + min (bytes.length - start) (n * CHUNK_SIZE) ∧
        (chunkReqs c h bytes n obj lendata start).1.Data.length =
          4 * (chunkReqs c h bytes n obj lendata start).1.Links.length ∧
        listLoop c recList store (chunkReqs c h bytes n obj lendata start).1.Data
            (chunkReqs c h bytes n obj lendata start).1.Links 0 [] =
          some (pre ++ slice bytes start (start + min (bytes.length - start) (n * CHUNK_SIZE))) := by
  induction n with
  | zero =>
    intro obj lendata start pre _ hal hrun _
    simp [chunkReqs, hal, hrun, slice_self]
  | succ n ih =>
    intro obj lendata start pre hlt hal hrun hst
    have hcs : 0 < CHUNK_SIZE := CHUNK_SIZE_pos
    have hmul : (n + 1) * CHUNK_SIZE = n * CHUNK_SIZE + CHUNK_SIZE := Nat.succ_mul n CHUNK_SIZE
    simp only [chunkReqs] at hst ⊢
    generalize hstop : (if start + CHUNK_SIZE > bytes.length then bytes.length
      else start + CHUNK_SIZE) = stop at hst ⊢
    have hstop1 : start < stop ∧ stop ≤ bytes.length ∧ stop ≤ start + CHUNK_SIZE ∧
        (start + CHUNK_SIZE ≤ bytes.length → stop = start + CHUNK_SIZE) ∧
        (bytes.length ≤ start + CHUNK_SIZE → stop = bytes.length) := by
      rw [← hstop]; split <;> omega
    have hlen : (slice bytes start stop).length = stop - start := slice_length _ _ _ hstop1.2.1
    have hne : ({ Links := [], Data := slice bytes start stop } : Object) ≠ emptyObject := by
      intro he
      have : (slice bytes start stop).length = 0 := by
        have := congrArg Object.Data he
        simp [emptyObject] at this
        simp [this]
      omega
    have hstored : Stored c h store { Links := [], Data := slice bytes start stop } := by
      refine hst ({ Links := [], Data := slice bytes start stop }, BLOB) ?_ hne
      split <;> simp
    have hget := hstored.get
    simp only [storedValue, if_true] at hget
    have hsnoc := listLoop_snoc c recList store obj.Data BLOB
      { Name := "", Hash := computeHash (c.marshal { Links := [], Data := slice bytes start stop }) h,
        Size := (slice bytes start stop).length } (by decide) obj.Links 0 [] pre (by omega) hrun
    simp only [if_true, computeHash, hget] at hsnoc
    by_cases hend : start + CHUNK_SIZE ≥ bytes.length
    · simp only [hend, if_true] at hst ⊢
      have hs := hstop1.2.2.2.2 hend
      have hmin : min (bytes.length - start) ((n + 1) * CHUNK_SIZE) = bytes.length - start := by
        omega
      rw [hmin]
      refine ⟨by rw [hlen]; omega, by simp [hal, BLOB]; omega, ?_⟩
      simp only [computeHash]
      rw [hsnoc]
      have : start + (bytes.length - start) = stop := by omega
      rw [this]
    · simp only [hend, if_false] at hst ⊢
      have hlt2 : start + CHUNK_SIZE < bytes.length := Nat.lt_of_not_le hend
      have hs := hstop1.2.2.2.1 (Nat.le_of_lt hlt2)
      obtain ⟨i1, i2, i3⟩ := ih _ (lendata + (slice bytes start stop).length) (start + CHUNK_SIZE)
        (pre ++ slice bytes start stop) hlt2
        (by rw [List.length_append, List.length_append, hal]; rfl)
        (by simpa [computeHash] using hsnoc) (fun r hr => hst r (List.mem_cons_of_mem _ hr))
      refine ⟨?_, i2, ?_⟩
      · rw [i1, hlen, hmul]
        exact (chunk_arith _ _ _ _ _ _ hlt2 hs).1
      · rw [i3, List.append_assoc, hs,
          slice_append_slice bytes start (start + CHUNK_SIZE) _ (Nat.le_add_right _ _)
            (Nat.le_add_right _ _), hmul,
          (chunk_arith _ _ _ _ 0 _ hlt2 rfl).2]

theorem level_arith (len start capc A lendata m : Nat) (hcap : 0 < capc) (hlt : start < len)
    (hm : m = min (len - start) capc) :
    lendata + m + min (len - (start + m)) A = lendata + min (len - start) (A + capc) ∧
      start + m + min (len - (start + m)) A = start + min (len - start) (A + capc) ∧
      0 < m ∧ start + m ≤ len := by
  omega

theorem levelReqs_total (c : Codec) (h : Bytes → Bytes) (bytes : Bytes)
    (child : Nat → Option (Object × Nat × List Req)) (capc : Nat) (hcap : 0 < capc)
    (hchild : ∀ s, s < bytes.length →
      ∃ o m rs, child s = some (o, m, rs) ∧ m = min (bytes.length - s) capc) (n : Nat) :
    ∀ (obj : Object) (lendata start : Nat), obj.Data.length = 4 * obj.Links.length →
      ∃ res, levelReqs c h bytes child n obj lendata start = some res ∧
        res.2.1 = lendata + min (bytes.length - start) (n * capc) ∧
        res.1.Data.length = 4 * res.1.Links.length ∧
        (obj.Links ≠ [] ∨ (0 < n ∧ start < bytes.length) → res.1.Links ≠ []) := by
  induction n with
  | zero =>
    intro obj lendata start hal
    refine ⟨(obj, lendata, []), rfl, by simp, hal, ?_⟩
    rintro (h1 | h1)
    · exact h1
    · omega
  | succ n ih =>
    intro obj lendata start hal
    simp only [levelReqs]
    by_cases hge : start ≥ bytes.length
    · simp only [hge, if_true]
      refine ⟨(obj, lendata, []), rfl, ?_, hal, ?_⟩
      · have : bytes.length - start = 0 := by omega
        simp [this]
      · rintro (h1 | h1)
        · exact h1
        · omega
    · simp only [hge, if_false]
      obtain ⟨o, m, rs, hch, hm⟩ := hchild start (by omega)
      simp only [hch]
      obtain ⟨res, hres, h1, h2, h3⟩ := ih
        { Links := obj.Links ++ [{ Name := "", Hash := computeHash (c.marshal o) h, Size := m }],
          Data := if o.Links = [] then obj.Data ++ BLOB else obj.Data ++ LIST }
        (lendata + m) (start + m) (by
          by_cases ho : o.Links = []
          · simp only [ho, if_true, List.length_append, hal]; rfl
          · simp only [ho, if_false, List.length_append, hal]; rfl)
      rw [hres]
      refine ⟨_, rfl, ?_, h2, fun _ => h3 (Or.inl (by simp))⟩
      rw [h1, Nat.succ_mul]
      exact (level_arith _ _ _ _ _ _ hcap (by omega) hm).1

theorem BLOB_ne_LIST : LIST ≠ BLOB := by decide

theorem levelReqs_spec (c : Codec) (h : Bytes → Bytes) (bytes : Bytes) (store : Store)
    (recList : Object → Option Bytes)
    (child : Nat → Option (Object × Nat × List Req)) (capc : Nat) (hcap : 0 < capc)
    (hchild : ∀ s, s < bytes.length →
      ∃ o m rs, child s = some (o, m, rs) ∧ m = min (bytes.length - s) capc ∧
        (GoodStore c h store rs →
          childBytes c h recList store o = some (slice bytes s (s + m)))) (n : Nat) :
    ∀ (obj : Object) (lendata start : Nat) (pre : Bytes) (res : Object × Nat × List Req),
      obj.Data.length = 4 * obj.Links.length →
      listLoop c recList store obj.Data obj.Links 0 [] = some pre →
      levelReqs c h bytes child n obj lendata start = some res →
      GoodStore c h store res.2.2 →
      listLoop c recList store res.1.Data res.1.Links 0 [] =
        some (pre ++ slice bytes start (start + min (bytes.length - start) (n * capc))) := by
  induction n with
  | zero =>
    intro obj lendata start pre res hal hrun hres _
    simp only [levelReqs, Option.some.injEq] at hres
    subst hres
    simp [hrun, slice_self]
  | succ n ih =>
    intro obj lendata start pre res hal hrun hres hgood
    simp only [levelReqs] at hres
    by_cases hge : start ≥ bytes.length
    · simp only [hge, if_true, Option.some.injEq] at hres
      subst hres
      have : bytes.length - start = 0 := by omega
      simp [hrun, this, slice_self]
    · simp only [hge, if_false] at hres
      obtain ⟨o, m, rs, hch, hm, hbytes⟩ := hchild start (by omega)
      simp only [hch] at hres
      cases hrec : levelReqs c h bytes child n
          { Links := obj.Links ++ [{ Name := "", Hash := computeHash (c.marshal o) h, Size := m }],
            Data := if o.Links = [] then obj.Data ++ BLOB else obj.Data ++ LIST }
          (lendata + m) (start + m) with
      | none => simp [hrec] at hres
      | some res2 =>
        simp only [hrec, Option.some.injEq] at hres
        subst hres
        have hg1 : GoodStore c h store rs := fun r hr => hgood r (List.mem_append_left _ hr)
        have hg2 : GoodStore c h store res2.2.2 := fun r hr => hgood r (List.mem_append_right _ hr)
        have hb := hbytes hg1
        have ar := level_arith bytes.length start capc (n * capc) 0 m hcap (by omega) hm
        have hstep : listLoop c recList store
            (if o.Links = [] then obj.Data ++ BLOB else obj.Data ++ LIST)
            (obj.Links ++ [{ Name := "", Hash := computeHash (c.marshal o) h, Size := m }]) 0 [] =
            some (pre ++ slice bytes start (start + m)) := by
          unfold childBytes at hb
          by_cases ho : o.Links = []
          · simp only [ho, if_true] at hb ⊢
            rw [listLoop_snoc c recList store obj.Data BLOB _ (by decide) obj.Links 0 [] pre
              (by omega) hrun]
            simp only [if_true, computeHash]
            simp only [Option.some.injEq] at hb
            rw [hb]
          · simp only [ho, if_false] at hb ⊢
            rw [listLoop_snoc c recList store obj.Data LIST _ (by decide) obj.Links 0 [] pre
              (by omega) hrun]
            simp only [BLOB_ne_LIST, if_false, computeHash, hb, Option.map_some']
        have hal2 : (if o.Links = [] then obj.Data ++ BLOB else obj.Data ++ LIST).length =
            4 * (obj.Links ++ [({ Name := "", Hash := computeHash (c.marshal o) h, Size := m } : Link)]).length := by
          by_cases ho : o.Links = []
          · simp only [ho, if_true, List.length_append, hal]; rfl
          · simp only [ho, if_false, List.length_append, hal]; rfl
        have := ih _ (lendata + m) (start + m) _ res2 hal2 hstep hrec hg2
        rw [this, List.append_assoc,
          slice_append_slice bytes start (start + m) _ (Nat.le_add_right _ _) (Nat.le_add_right _ _),
          Nat.succ_mul, ar.2.1]

theorem cap_succ (k : Nat) : cap (k + 1) = MAX_LISTLINE * cap k := by
  unfold cap
  rw [pow_succ]
  ring

theorem cap_pos (k : Nat) : 0 < cap k := by
  unfold cap
  exact Nat.mul_pos (pow_pos (by decide) _) CHUNK_SIZE_pos

theorem cap_one : cap 1 = MAX_LISTLINE * CHUNK_SIZE := by
  simp [cap]

theorem blob_arith (len start C M : Nat) (hsmall : len - start < C) (hMC : C ≤ M * C) :
    len - start = min (len - start) (M * C) := by
  omega

theorem chunk_arith2 (len start C A lendata stop : Nat) (hlt : start < len)
    (h1 : len ≤ start + C) (hs : stop = len) :
    lendata + (stop - start) = lendata + min (len - start) (A + C) := by
  omega

theorem chunkReqs_basic (c : Codec) (h : Bytes → Bytes) (bytes : Bytes) (n : Nat) :
    ∀ (obj : Object) (lendata start : Nat), start < bytes.length →
      obj.Data.length = 4 * obj.Links.length →
      (chunkReqs c h bytes n obj lendata start).2.1 =
          lendata + min (bytes.length - start) (n * CHUNK_SIZE) ∧
        (chunkReqs c h bytes n obj lendata start).1.Data.length =
          4 * (chunkReqs c h bytes n obj lendata start).1.Links.length ∧
        (obj.Links ≠ [] ∨ 0 < n → (chunkReqs c h bytes n obj lendata start).1.Links ≠ []) := by
  induction n with
  | zero =>
    intro obj lendata start _ hal
    refine ⟨by simp [chunkReqs], by simpa [chunkReqs] using hal, ?_⟩
    rintro (h1 | h1)
    · simpa [chunkReqs] using h1
    · omega
  | succ n ih =>
    intro obj lendata start hlt hal
    have hmul : (n + 1) * CHUNK_SIZE = n * CHUNK_SIZE + CHUNK_SIZE := Nat.succ_mul n CHUNK_SIZE
    simp only [chunkReqs]
    generalize hstop : (if start + CHUNK_SIZE > bytes.length then bytes.length
      else start + CHUNK_SIZE) = stop
    have hstop1 : stop ≤ bytes.length ∧
        (start + CHUNK_SIZE ≤ bytes.length → stop = start + CHUNK_SIZE) ∧
        (bytes.length ≤ start + CHUNK_SIZE → stop = bytes.length) := by
      rw [← hstop]; split <;> omega
    have hlen : (slice bytes start stop).length = stop - start := slice_length _ _ _ hstop1.1
    by_cases hend : start + CHUNK_SIZE ≥ bytes.length
    · simp only [hend, if_true]
      refine ⟨?_, ?_, fun _ => by simp⟩
      · rw [hlen, hmul]
        exact chunk_arith2 _ _ _ _ _ _ hlt hend (hstop1.2.2 hend)
      · rw [List.length_append, List.length_append, hal]; rfl
    · simp only [hend, if_false]
      have hlt2 : start + CHUNK_SIZE < bytes.length := Nat.lt_of_not_le hend
      have hs := hstop1.2.1 (Nat.le_of_lt hlt2)
      obtain ⟨i1, i2, i3⟩ := ih
        { Links := obj.Links ++ [{ Name := "", Hash := computeHash (c.marshal { Links := [], Data := slice bytes start stop }) h, Size := (slice bytes start stop).length }],
          Data := obj.Data ++ BLOB }
        (lendata + (slice bytes start stop).length) (start + CHUNK_SIZE) hlt2
        (by rw [List.length_append, List.length_append, hal]; rfl)
      refine ⟨?_, i2, fun _ => i3 (Or.inl (by simp))⟩
      rw [i1, hlen, hmul]
      exact (chunk_arith _ _ _ _ _ _ hlt2 hs).1

/-- `dfshandleFile` returns for a height of at least 1 and a start inside the file; it
covers `min (len - start) (cap height)` bytes, and the object is either a blob holding
exactly these bytes or carries one tag per link. -/
theorem dfsReqs_total (c : Codec) (h : Bytes → Bytes) (bytes : Bytes) (height : Nat) :
    ∀ (start : Nat), 1 ≤ height → start < bytes.length →
      ∃ o m rs, dfsReqs c h height bytes start = some (o, m, rs) ∧
        m = min (bytes.length - start) (cap height) ∧
        (o.Links ≠ [] → o.Data.length = 4 * o.Links.length) ∧
        (o.Links = [] → o.Data = slice bytes start (start + m)) ∧
        (2 ≤ height ∨ CHUNK_SIZE ≤ bytes.length - start → o.Links ≠ []) := by
  induction height using Nat.strong_induction_on with
  | _ height ih =>
    intro start hh hlt
    match height, hh with
    | 1, _ =>
      simp only [dfsReqs]
      have h1 : ¬ start > bytes.length := by omega
      simp only [h1, if_false]
      by_cases hsmall : bytes.length - start < CHUNK_SIZE
      · simp only [hsmall, if_true]
        refine ⟨_, _, _, rfl, ?_, ?_, ?_, ?_⟩
        · rw [slice_length _ _ _ (le_refl _), cap_one]
          exact blob_arith _ _ _ _ hsmall (Nat.le_mul_of_pos_left _ (by decide))
        · intro hl; exact absurd rfl hl
        · intro _
          rw [slice_length _ _ _ (le_refl _)]
          have : start + (bytes.length - start) = bytes.length := by omega
          rw [this]
        · rintro (h2 | h2)
          · omega
          · exact absurd hsmall (Nat.not_lt.2 h2)
      · simp only [hsmall, if_false]
        obtain ⟨i1, i2, i3⟩ := chunkReqs_basic c h bytes MAX_LISTLINE emptyObject 0 start hlt rfl
        refine ⟨_, _, _, rfl, ?_, fun _ => i2, ?_, fun _ => i3 (Or.inr (by decide))⟩
        · rw [i1, cap_one, Nat.zero_add]
        · intro hl
          exact absurd hl (i3 (Or.inr (by decide)))
    | k + 2, _ =>
      simp only [dfsReqs]
      obtain ⟨res, hres, h1, h2, h3⟩ := levelReqs_total c h bytes
        (fun start => dfsReqs c h (k + 1) bytes start) (cap (k + 1)) (cap_pos _)
        (fun s hs => by
          obtain ⟨o, m, rs, e1, e2, _⟩ := ih (k + 1) (by omega) s (by omega) hs
          exact ⟨o, m, rs, e1, e2⟩) MAX_LISTLINE emptyObject 0 start rfl
      rw [hres]
      have hne := h3 (Or.inr ⟨by decide, hlt⟩)
      refine ⟨_, _, _, rfl, ?_, fun _ => h2, fun hl => absurd hl hne, fun _ => hne⟩
      rw [h1, cap_succ (k + 1), Nat.zero_add]

theorem min_pos_arith (len start capc m : Nat) (hlt : start < len) (hcap : 0 < capc)
    (hm : m = min (len - start) capc) : 0 < m ∧ start + m ≤ len := by
  omega

/-- Retrieval of what `dfshandleFile` built: in a store that holds the requests of the run,
a link to the returned object yields exactly the bytes the object covers, and when the
object is a list `getFileByList` on it returns them. -/
theorem dfsReqs_spec (c : Codec) (h : Bytes → Bytes) (bytes : Bytes) (store : Store)
    (hrt : ∀ o, c.unmarshal (c.marshal o) = o) (height : Nat) :
    ∀ (start : Nat) (o : Object) (m : Nat) (rs : List Req), 1 ≤ height → start < bytes.length →
      dfsReqs c h height bytes start = some (o, m, rs) → GoodStore c h store rs →
      ∀ fuel, height ≤ fuel →
        childBytes c h (fun x => getFileByList c fuel x store) store o =
            some (slice bytes start (start + m)) ∧
          (o.Links ≠ [] → getFileByList c fuel o store = some (slice bytes start (start + m))) := by
  induction height using Nat.strong_induction_on with
  | _ height ih =>
    intro start o m rs hh hlt hrun hgood fuel hfuel
    obtain ⟨o2, m2, rs2, e1, e2, e3, e4, _⟩ := dfsReqs_total c h bytes height start hh hlt
    rw [hrun] at e1
    simp only [Option.some.injEq, Prod.mk.injEq] at e1
    obtain ⟨rfl, rfl, rfl⟩ := e1
    obtain ⟨t, ht⟩ := dfsReqs_last c h height bytes start _ hrun
    have hmpos := min_pos_arith _ _ _ _ hlt (cap_pos height) e2
    -- the list case
    have hlist : o.Links ≠ [] →
        getFileByList c fuel o store = some (slice bytes start (start + m)) := by
      intro hne
      obtain ⟨f, rfl⟩ : ∃ f, fuel = f + 1 := ⟨fuel - 1, by omega⟩
      simp only [getFileByList]
      match height, hh with
      | 1, _ =>
        simp only [dfsReqs] at hrun
        have h1 : ¬ start > bytes.length := by omega
        simp only [h1, if_false] at hrun
        by_cases hsmall : bytes.length - start < CHUNK_SIZE
        · simp only [hsmall, if_true, Option.some.injEq, Prod.mk.injEq] at hrun
          obtain ⟨rfl, _, _⟩ := hrun
          exact absurd rfl hne
        · simp only [hsmall, if_false, Option.some.injEq, Prod.mk.injEq] at hrun
          obtain ⟨rfl, rfl, rfl⟩ := hrun
          have hsp := chunkReqs_spec c h bytes store (fun x => getFileByList c f x store)
            MAX_LISTLINE emptyObject 0 start [] hlt rfl rfl
            (fun r hr => hgood r (List.mem_append_left _ hr))
          rw [hsp.2.2, hsp.1, Nat.zero_add, List.nil_append]
      | k + 2, _ =>
        simp only [dfsReqs] at hrun
        cases hl : levelReqs c h bytes (fun start => dfsReqs c h (k + 1) bytes start) MAX_LISTLINE
            emptyObject 0 start with
        | none => simp [hl] at hrun
        | some q =>
          simp only [hl, Option.some.injEq, Prod.mk.injEq] at hrun
          obtain ⟨rfl, rfl, rfl⟩ := hrun
          have hsp := levelReqs_spec c h bytes store (fun x => getFileByList c f x store)
            (fun start => dfsReqs c h (k + 1) bytes start) (cap (k + 1)) (cap_pos _)
            (fun s hs => by
              obtain ⟨o3, m3, rs3, d1, d2, _⟩ := dfsReqs_total c h bytes (k + 1) s (by omega) hs
              refine ⟨o3, m3, rs3, d1, d2, fun hg => ?_⟩
              exact (ih (k + 1) (by omega) s o3 m3 rs3 (by omega) hs d1 hg f (by omega)).1)
            MAX_LISTLINE emptyObject 0 start [] q rfl rfl hl
            (fun r hr => hgood r (List.mem_append_left _ hr))
          rw [hsp, List.nil_append, e2, cap_succ (k + 1)]
    refine ⟨?_, hlist⟩
    unfold childBytes
    by_cases hl : o.Links = []
    · simp only [hl, if_true, Option.some.injEq]
      have hd := e4 hl
      have hne : o ≠ emptyObject := by
        intro he
        have h0 : o.Data.length = 0 := by rw [he]; rfl
        rw [hd, slice_length _ _ _ hmpos.2] at h0
        omega
      have hs := (hgood _ ht hne).get
      rw [hs]
      simp only [storedValue, hl, if_true]
      exact hd
    · simp only [hl, if_false]
      have hne : o ≠ emptyObject := by
        intro he
        exact hl (by rw [he]; rfl)
      have hs := (hgood _ ht hne).get
      rw [hs]
      simp only [storedValue, hl, if_false, hrt]
      exact hlist hl

/-! ## The height computed by `handleFile` -/

theorem roundHalfEven_ge (n d : Nat) : n / d ≤ roundHalfEven n d := by
  unfold roundHalfEven
  simp only
  split
  · exact le_refl _
  · split
    · exact Nat.le_succ _
    · split
      · exact le_refl _
      · exact Nat.le_succ _

theorem roundHalfEven_4096 (x : Nat) :
    (roundHalfEven x 4096 = 0 → x < 4096) ∧ (0 < x → roundHalfEven x 4096 < x) ∧
      x < 4096 * (roundHalfEven x 4096 + 1) := by
  unfold roundHalfEven
  simp only
  split
  · omega
  · split
    · omega
    · split <;> omega

theorem heightLoop_total (fuel : Nat) :
    ∀ (k x : Nat), x < fuel →
      ∃ H, heightLoop fuel k x = some H ∧ k < H ∧ x < MAX_LISTLINE ^ (H - k) := by
  induction fuel with
  | zero => intro k x hx; omega
  | succ fuel ih =>
    intro k x hx
    obtain ⟨r1, r2, r3⟩ := roundHalfEven_4096 x
    simp only [heightLoop, F64.divPow2, MAX_LISTLINE_eq]
    by_cases hz : roundHalfEven x 4096 = 0
    · simp only [hz, if_true]
      refine ⟨k + 1, rfl, by omega, ?_⟩
      have : k + 1 - k = 1 := by omega
      rw [this, pow_one]
      exact r1 hz
    · simp only [hz, if_false]
      have hxpos : 0 < x := by
        rcases Nat.eq_zero_or_pos x with h0 | h0
        · subst h0; exact absurd (by decide) hz
        · exact h0
      obtain ⟨H, e1, e2, e3⟩ := ih (k + 1) (roundHalfEven x 4096) (by have := r2 hxpos; omega)
      rw [MAX_LISTLINE_eq] at e3
      refine ⟨H, e1, by omega, ?_⟩
      have hH : H - k = (H - (k + 1)) + 1 := by omega
      rw [hH, pow_succ]
      calc x < 4096 * (roundHalfEven x 4096 + 1) := r3
        _ ≤ 4096 * 4096 ^ (H - (k + 1)) := Nat.mul_le_mul_left _ e3
        _ = 4096 ^ (H - (k + 1)) * 4096 := Nat.mul_comm _ _

theorem float64OfNat_ge (n : Nat) : n ≤ 2 * float64OfNat n := by
  unfold float64OfNat
  split
  · omega
  · rename_i hbig
    simp only
    have hn0 : n ≠ 0 := by
      intro h0; subst h0; exact hbig (by positivity)
    have hD : 2 ^ (Nat.log2 n - 52) ≤ n :=
      le_trans (Nat.pow_le_pow_right (by decide) (Nat.sub_le _ _)) (Nat.log2_self_le hn0)
    have hDpos : 0 < 2 ^ (Nat.log2 n - 52) := pow_pos (by decide) _
    generalize 2 ^ (Nat.log2 n - 52) = D at hD hDpos ⊢
    have h1 := roundHalfEven_ge n D
    have h2 := Nat.div_add_mod n D
    have h3 := Nat.mod_lt n hDpos
    have h4 : 1 ≤ n / D := (Nat.one_le_div_iff hDpos).2 hD
    have h5 : n / D * D ≤ roundHalfEven n D * D := Nat.mul_le_mul_right _ h1
    have h6 : D ≤ n / D * D := by
      calc D = 1 * D := (Nat.one_mul D).symm
        _ ≤ n / D * D := Nat.mul_le_mul_right _ h4
    have h7 : D * (n / D) = n / D * D := Nat.mul_comm _ _
    omega

theorem ceil_ge (x one : Nat) (hpos : 0 < one) : x ≤ (x + (one - 1)) / one * one := by
  have h2 := Nat.div_add_mod (x + (one - 1)) one
  have h3 := Nat.mod_lt (x + (one - 1)) hpos
  generalize (x + (one - 1)) / one = q at h2 ⊢
  generalize (x + (one - 1)) % one = r at h2 h3
  have h7 : one * q = q * one := Nat.mul_comm _ _
  generalize one * q = A at h2 h7
  generalize q * one = B at h7 ⊢
  omega

theorem F64_one_pos : 0 < F64.one := by
  unfold F64.one
  exact pow_pos (by decide) _

theorem F64_le_ceil (x : Nat) : x ≤ F64.ceil x := by
  unfold F64.ceil
  exact ceil_ge x F64.one F64_one_pos

set_option exponentiation.threshold 2000 in
theorem numChunks_ge (size : Nat) : float64OfNat size ≤ numChunks size := by
  unfold numChunks
  refine le_trans ?_ (F64_le_ceil _)
  unfold F64.divPow2
  refine le_trans ?_ (roundHalfEven_ge _ _)
  rw [Nat.le_div_iff_mul_le CHUNK_SIZE_pos]
  apply Nat.mul_le_mul_left
  have h18 : CHUNK_SIZE = 2 ^ 18 := by decide
  rw [h18]
  unfold F64.one
  exact Nat.pow_le_pow_right (by decide) (by decide)

/-- The height loop of `handleFile` exits, with a height of at least 1 whose capacity
covers the file. -/
theorem computeHeight_total (size : Nat) :
    ∃ H, computeHeight size = some H ∧ 1 ≤ H ∧ size ≤ cap H := by
  unfold computeHeight
  obtain ⟨H, e1, e2, e3⟩ := heightLoop_total (numChunks size + 1) 0 (numChunks size) (Nat.lt_succ_self _)
  refine ⟨H, e1, e2, ?_⟩
  have h1 := float64OfNat_ge size
  have h2 := numChunks_ge size
  rw [Nat.sub_zero] at e3
  unfold cap
  have h3 : 2 ≤ CHUNK_SIZE := by decide
  have h4 : MAX_LISTLINE ^ H * 2 ≤ MAX_LISTLINE ^ H * CHUNK_SIZE := Nat.mul_le_mul_left _ h3
  generalize MAX_LISTLINE ^ H * CHUNK_SIZE = B at h4 ⊢
  generalize MAX_LISTLINE ^ H = A at e3 h4
  generalize numChunks size = N at e3 h2
  generalize float64OfNat size = f at h1 h2
  omega
theorem levelReqs_of_ge (c : Codec) (h : Bytes → Bytes) (bytes : Bytes)
    (child : Nat → Option (Object × Nat × List Req)) (n : Nat) (obj : Object)
    (lendata start : Nat) (hge : start ≥ bytes.length) :
    levelReqs c h bytes child n obj lendata start = some (obj, lendata, []) := by
  cases n with
  | zero => rfl
  | succ n => simp only [levelReqs, hge, if_true]

/-- `dfshandleFile` returns for every height of at least 1 and every start up to the end
of the file. -/
theorem dfsReqs_isSome (c : Codec) (h : Bytes → Bytes) (bytes : Bytes) (height start : Nat)
    (hh : 1 ≤ height) (hle : start ≤ bytes.length) :
    ∃ res, dfsReqs c h height bytes start = some res := by
  rcases Nat.lt_or_ge start bytes.length with hlt | hge
  · obtain ⟨o, m, rs, e, _⟩ := dfsReqs_total c h bytes height start hh hlt
    exact ⟨_, e⟩
  · match height, hh with
    | 1, _ =>
      simp only [dfsReqs]
      have h1 : ¬ start > bytes.length := by omega
      simp only [h1, if_false]
      split <;> exact ⟨_, rfl⟩
    | k + 2, _ =>
      simp only [dfsReqs, levelReqs_of_ge _ _ _ _ _ _ _ _ hge]
      exact ⟨_, rfl⟩

/-- `handleFile` returns on every file. -/
theorem fileReqs_isSome (c : Codec) (h : Bytes → Bytes) (size : Nat) (bytes : Bytes) :
    ∃ res, fileReqs c h size bytes = some res := by
  unfold fileReqs
  split
  · obtain ⟨H, e1, e2, _⟩ := computeHeight_total size
    obtain ⟨res, e3⟩ := dfsReqs_isSome c h bytes H 0 e2 (Nat.zero_le _)
    simp only [e1, e3]
    exact ⟨_, rfl⟩
  · exact ⟨_, rfl⟩

theorem fileReqs_small (c : Codec) (h : Bytes → Bytes) (size : Nat) (bytes : Bytes)
    (hsmall : size ≤ CHUNK_SIZE) :
    fileReqs c h size bytes =
      some ({ Links := [], Data := bytes }, [({ Links := [], Data := bytes }, BLOB)]) := by
  unfold fileReqs
  have : ¬ size > CHUNK_SIZE := by omega
  simp only [this, if_false]

/-- A file above the chunk size, whose size is the length of its bytes: `handleFile` returns
a list object, and `getFileByList` on it returns the bytes of the file in a store that holds
the requests of the run. -/
theorem fileReqs_large (c : Codec) (h : Bytes → Bytes) (bytes : Bytes) (store : Store)
    (hrt : ∀ o, c.unmarshal (c.marshal o) = o) (hbig : CHUNK_SIZE < bytes.length) :
    ∃ o rs H, fileReqs c h bytes.length bytes = some (o, rs) ∧ o.Links ≠ [] ∧
      o.Data.length = 4 * o.Links.length ∧ (∃ t, (o, t) ∈ rs) ∧
      (GoodStore c h store rs → ∀ fuel, H ≤ fuel → getFileByList c fuel o store = some bytes) := by
  unfold fileReqs
  have hgt : bytes.length > CHUNK_SIZE := hbig
  simp only [hgt, if_true]
  obtain ⟨H, e1, e2, e3⟩ := computeHeight_total bytes.length
  have hlt : 0 < bytes.length := by omega
  obtain ⟨o, m, rs, d1, d2, d3, d4, d5⟩ := dfsReqs_total c h bytes H 0 e2 hlt
  have hm : m = bytes.length := by
    rw [d2, Nat.sub_zero]
    exact Nat.min_eq_left e3
  have hne : o.Links ≠ [] := d5 (Or.inr (by omega))
  simp only [e1, d1]
  refine ⟨o, rs, H, rfl, hne, d3 hne, ?_, ?_⟩
  · obtain ⟨t, ht⟩ := dfsReqs_last c h H bytes 0 _ d1
    exact ⟨t, ht⟩
  · intro hgood fuel hfuel
    have := (dfsReqs_spec c h bytes store hrt H 0 o m rs e2 hlt d1 hgood fuel hfuel).2 hne
    rw [this, hm, Nat.zero_add, slice_all]

/-! ## Shape of the persist requests -/

theorem levelReqs_aligned (c : Codec) (h : Bytes → Bytes) (bytes : Bytes)
    (child : Nat → Option (Object × Nat × List Req)) (n : Nat) :
    ∀ (obj : Object) (lendata start : Nat) (res : Object × Nat × List Req),
      levelReqs c h bytes child n obj lendata start = some res →
        obj.Data.length = 4 * obj.Links.length → res.1.Data.length = 4 * res.1.Links.length := by
  induction n with
  | zero =>
    intro obj lendata start res hres hal
    simp only [levelReqs, Option.some.injEq] at hres
    subst hres; exact hal
  | succ n ih =>
    intro obj lendata start res hres hal
    simp only [levelReqs] at hres
    split at hres
    · simp only [Option.some.injEq] at hres
      subst hres; exact hal
    · cases hch : child start with
      | none => simp [hch] at hres
      | some q =>
        obtain ⟨o, m, rs⟩ := q
        simp only [hch] at hres
        cases hrec : levelReqs c h bytes child n
            { Links := obj.Links ++ [{ Name := "", Hash := computeHash (c.marshal o) h, Size := m }],
              Data := if o.Links = [] then obj.Data ++ BLOB else obj.Data ++ LIST }
            (lendata + m) (start + m) with
        | none => simp [hrec] at hres
        | some q2 =>
          simp only [hrec, Option.some.injEq] at hres
          subst hres
          refine ih _ _ _ q2 hrec ?_
          by_cases ho : o.Links = []
          · simp only [ho, if_true, List.length_append, hal]; rfl
          · simp only [ho, if_false, List.length_append, hal]; rfl

theorem dfsReqs_shape (c : Codec) (h : Bytes → Bytes) (height : Nat) :
    ∀ (bytes : Bytes) (start : Nat) (res : Object × Nat × List Req),
      dfsReqs c h height bytes start = some res → ∀ r ∈ res.2.2, ReqShape r := by
  induction height using Nat.strong_induction_on with
  | _ height ih =>
    intro bytes start res hres r hr
    match height with
    | 0 =>
      simp only [dfsReqs] at hres
      split at hres
      · simp at hres; subst hres; simp at hr; subst hr
        exact Or.inr ⟨rfl, rfl⟩
      · simp at hres
    | 1 =>
      simp only [dfsReqs] at hres
      split at hres
      · simp at hres
      · split at hres
        · simp at hres; subst hres; simp at hr; subst hr
          exact Or.inl ⟨rfl, rfl⟩
        · rename_i h1 h2
          simp at hres; subst hres
          rcases List.mem_append.1 hr with hr | hr
          · obtain ⟨a, b⟩ := chunkReqs_reqs c h bytes _ _ _ _ r hr
            exact Or.inl ⟨b, a⟩
          · simp at hr; subst hr
            have hlt : start < bytes.length := by
              have := CHUNK_SIZE_pos
              omega
            exact Or.inr ⟨rfl, (chunkReqs_basic c h bytes MAX_LISTLINE emptyObject 0 start hlt rfl).2.1⟩
    | k + 2 =>
      simp only [dfsReqs] at hres
      cases hl : levelReqs c h bytes (fun start => dfsReqs c h (k + 1) bytes start) MAX_LISTLINE
          emptyObject 0 start with
      | none => simp [hl] at hres
      | some q =>
        simp only [hl, Option.some.injEq] at hres
        subst hres
        rcases List.mem_append.1 hr with hr | hr
        · exact levelReqs_reqs c h bytes _ ReqShape
            (fun s res hs => ih (k + 1) (by omega) bytes s res hs) _ _ _ _ q hl r hr
        · simp at hr; subst hr
          exact Or.inr ⟨rfl, levelReqs_aligned c h bytes _ _ _ _ _ q hl rfl⟩

theorem fileReqs_shape (c : Codec) (h : Bytes → Bytes) (size : Nat) (bytes : Bytes)
    (res : Object × List Req) (hres : fileReqs c h size bytes = some res) :
    ∀ r ∈ res.2, ReqShape r := by
  unfold fileReqs at hres
  split at hres
  · cases hH : computeHeight size with
    | none => simp [hH] at hres
    | some H =>
      simp only [hH] at hres
      cases hd : dfsReqs c h H bytes 0 with
      | none => simp [hd] at hres
      | some q =>
        simp only [hd, Option.some.injEq] at hres
        subst hres
        exact dfsReqs_shape c h H bytes 0 q hd
  · simp only [Option.some.injEq] at hres
    subst hres
    intro r hr
    simp at hr; subst hr
    exact Or.inl ⟨rfl, rfl⟩

/-! ## Directories -/

theorem dirLoopReqs_eq (c : Codec) (h : Bytes → Bytes) (children : List Node)
    (hch : ∀ x ∈ children, ∃ res, addReqs c h x = some res) :
    ∀ (acc : Object), dirLoopReqs c h children acc =
      some ({ Links := acc.Links ++ treeLinks c h children,
              Data := acc.Data ++ treeData c h children }, treeReqs c h children) := by
  induction children with
  | nil => intro acc; simp [dirLoopReqs, treeLinks, treeData, treeReqs]
  | cons node rest ih =>
    intro acc
    have ih2 := ih (fun x hx => hch x (List.mem_cons_of_mem _ hx))
    obtain ⟨res, hres⟩ := hch node (List.mem_cons_self _ _)
    cases node with
    | file name size bytes =>
      simp only [addReqs] at hres
      simp only [dirLoopReqs, hres, ih2, treeLinks, treeData, treeReqs, nodeLink, nodeTag,
        nodeObj, nodeReqs, addReqs, Option.map_some', Option.getD_some, computeHash]
      by_cases hl : res.1.Links = [] <;> simp [hl]
    | dir name size cs =>
      simp only [addReqs] at hres
      simp only [dirLoopReqs, hres, ih2, treeLinks, treeData, treeReqs, nodeLink, nodeTag,
        nodeObj, nodeReqs, addReqs, Option.map_some', Option.getD_some, computeHash]
      simp
    | other name size =>
      simp only [dirLoopReqs, ih2, treeLinks, treeData, treeReqs, nodeReqs, addReqs,
        Option.map_some', Option.getD_some, List.nil_append]

/-- `Add` returns on every node. -/
theorem addReqs_isSome (c : Codec) (h : Bytes → Bytes) (node : Node) :
    ∃ res, addReqs c h node = some res := by
  induction node using Node.induct with
  | hfile name size bytes => exact fileReqs_isSome c h size bytes
  | hother name size => exact ⟨_, rfl⟩
  | hdir name size children ih =>
    simp only [addReqs, dirReqs, dirLoopReqs_eq c h children ih]
    exact ⟨_, rfl⟩

theorem dirReqs_eq (c : Codec) (h : Bytes → Bytes) (name : String) (size : Nat)
    (children : List Node) :
    dirReqs c h (Node.dir name size children) =
      some (treeObj c h children, treeReqs c h children ++ [(treeObj c h children, LIST)]) := by
  simp only [dirReqs, dirLoopReqs_eq c h children (fun x _ => addReqs_isSome c h x), treeObj,
    emptyObject, List.nil_append]

theorem nodeObj_dir (c : Codec) (h : Bytes → Bytes) (name : String) (size : Nat)
    (children : List Node) : nodeObj c h (Node.dir name size children) = treeObj c h children := by
  simp [nodeObj, addReqs, dirReqs_eq]

theorem nodeReqs_dir (c : Codec) (h : Bytes → Bytes) (name : String) (size : Nat)
    (children : List Node) :
    nodeReqs c h (Node.dir name size children) =
      treeReqs c h children ++ [(treeObj c h children, LIST)] := by
  simp [nodeReqs, addReqs, dirReqs_eq]

theorem addReqs_eq (c : Codec) (h : Bytes → Bytes) (node : Node) :
    addReqs c h node = some (nodeObj c h node, nodeReqs c h node) := by
  obtain ⟨res, hres⟩ := addReqs_isSome c h node
  simp [nodeObj, nodeReqs, hres]

/-- `Add` returns on every node: the root hash is the hash of the encoding of the object
of the node, the store is the store before with the requests of the node applied. -/
theorem Add_total (c : Codec) (h : Bytes → Bytes) (node : Node) (store : Store) :
    Add c store node h =
      some (h (c.marshal (nodeObj c h node)), persist c h (nodeReqs c h node) store) := by
  rw [Add_eq, addReqs_eq]
  rfl

theorem nodeTag_length (c : Codec) (h : Bytes → Bytes) (node : Node)
    (hn : ∀ name size, node ≠ Node.other name size) : (nodeTag c h node).length = 4 := by
  cases node with
  | file name size bytes =>
    simp only [nodeTag]
    split <;> rfl
  | dir name size cs => rfl
  | other name size => exact absurd rfl (hn name size)

theorem treeData_length (c : Codec) (h : Bytes → Bytes) (children : List Node) :
    (treeData c h children).length = 4 * (treeLinks c h children).length := by
  induction children with
  | nil => rfl
  | cons node rest ih =>
    cases node with
    | file name size bytes =>
      simp only [treeData, treeLinks, List.length_append, List.length_cons, ih,
        nodeTag_length c h (Node.file name size bytes) (fun _ _ hh => by cases hh)]
      omega
    | dir name size cs =>
      simp only [treeData, treeLinks, List.length_append, List.length_cons, ih,
        nodeTag_length c h (Node.dir name size cs) (fun _ _ hh => by cases hh)]
      omega
    | other name size => simpa only [treeData, treeLinks] using ih

theorem treeReqs_mem (c : Codec) (h : Bytes → Bytes) (children : List Node) (r : Req) :
    r ∈ treeReqs c h children ↔ ∃ x ∈ children, r ∈ nodeReqs c h x := by
  induction children with
  | nil => simp [treeReqs]
  | cons node rest ih => simp [treeReqs, ih]

theorem nodeReqs_shape (c : Codec) (h : Bytes → Bytes) (node : Node) :
    ∀ r ∈ nodeReqs c h node, ReqShape r := by
  induction node using Node.induct with
  | hfile name size bytes =>
    intro r hr
    obtain ⟨res, hres⟩ := fileReqs_isSome c h size bytes
    have := fileReqs_shape c h size bytes res hres
    simp only [nodeReqs, addReqs, hres, Option.map_some', Option.getD_some] at hr
    exact this r hr
  | hother name size => intro r hr; simp [nodeReqs, addReqs] at hr
  | hdir name size children ih =>
    intro r hr
    rw [nodeReqs_dir] at hr
    rcases List.mem_append.1 hr with hr | hr
    · obtain ⟨x, hx, hrx⟩ := (treeReqs_mem c h children r).1 hr
      exact ih x hx r hrx
    · simp at hr; subst hr
      exact Or.inr ⟨rfl, treeData_length c h children⟩

/-! ## The store after a build from the empty store -/

theorem putObjInStore_inv (c : Codec) (h : Bytes → Bytes)
    (hinj : ∀ a b, h (c.marshal a) = h (c.marshal b) → a = b) (r : Req) (hr : ReqShape r)
    (store : Store)
    (hinv : ∀ o v, store.lookup (h (c.marshal o)) = some v → o ≠ emptyObject →
      v = storedValue c o) :
    ∀ o v, (putObjInStore c r.1 store h r.2).lookup (h (c.marshal o)) = some v →
      o ≠ emptyObject → v = storedValue c o := by
  obtain ⟨ro, rt⟩ := r
  intro o v hv hne
  unfold putObjInStore computeHash at hv
  simp only at hv hr
  by_cases hhas : store.Has (h (c.marshal ro)) = true
  · simp only [hhas, if_true] at hv
    exact hinv o v hv hne
  · simp only [hhas] at hv
    by_cases hk : h (c.marshal o) = h (c.marshal ro)
    · have ho := hinj _ _ hk
      subst ho
      rcases hr with ⟨hb, hl⟩ | ⟨hb, hal⟩
      · simp only at hb hl
        simp [hb, lookup_put] at hv
        simp [storedValue, hl, hv]
      · simp only at hb hal
        have hl : o.Links ≠ [] := by
          intro hl
          apply hne
          rw [hl] at hal
          have hd : o.Data = [] := List.length_eq_zero.1 (by simpa using hal)
          cases o
          simp_all [emptyObject]
        have hLB : ¬ (rt = BLOB) := by rw [hb]; exact BLOB_ne_LIST
        simp [hLB, lookup_put] at hv
        simp [storedValue, hl, hv]
    · by_cases ht : rt = BLOB
      · simp [ht, lookup_put, hk] at hv
        exact hinv o v hv hne
      · simp [ht, lookup_put, hk] at hv
        exact hinv o v hv hne

theorem persist_inv (c : Codec) (h : Bytes → Bytes)
    (hinj : ∀ a b, h (c.marshal a) = h (c.marshal b) → a = b) (reqs : List Req) :
    ∀ (store : Store), (∀ r ∈ reqs, ReqShape r) →
      (∀ o v, store.lookup (h (c.marshal o)) = some v → o ≠ emptyObject →
        v = storedValue c o) →
      ∀ o v, (persist c h reqs store).lookup (h (c.marshal o)) = some v →
        o ≠ emptyObject → v = storedValue c o := by
  induction reqs with
  | nil => intro store _ hinv; exact hinv
  | cons r rs ih =>
    intro store hsh hinv
    exact ih _ (fun x hx => hsh x (List.mem_cons_of_mem _ hx))
      (putObjInStore_inv c h hinj r (hsh r (List.mem_cons_self _ _)) store hinv)

/-- After a build into the empty store, with a collision-free hash of the encoding, every
non-zero object that was requested is in the store with its `storedValue`. -/
theorem persist_good (c : Codec) (h : Bytes → Bytes)
    (hinj : ∀ a b, h (c.marshal a) = h (c.marshal b) → a = b) (reqs : List Req)
    (hsh : ∀ r ∈ reqs, ReqShape r) : GoodStore c h (persist c h reqs []) reqs := by
  intro r hr hne
  have hhas := persist_has c h reqs [] r hr
  obtain ⟨v, hv⟩ := (has_iff_lookup _ _).1 hhas
  have := persist_inv c h hinj reqs [] hsh (fun o v hv _ => by simp at hv) r.1 v hv hne
  unfold Stored
  rw [hv, this]

/-! ## Paths -/

theorem splitChars_ne_nil (s : List Char) : splitChars s ≠ [] := by
  cases s with
  | nil => simp [splitChars]
  | cons ch rest =>
    simp only [splitChars]
    split
    · simp
    · split <;> simp

theorem splitChars_append (a r : List Char) (ha : '/' ∉ a) (x : List (List Char))
    (hr : splitChars r = [] :: x) : splitChars (a ++ r) = a :: x := by
  induction a with
  | nil => simpa using hr
  | cons ch rest ih =>
    have hch : ch ≠ '/' := fun hh => ha (by simp [hh])
    have hrest : '/' ∉ rest := fun hh => ha (List.mem_cons_of_mem _ hh)
    have e : splitChars (rest.append r) = rest :: x := ih hrest
    simp only [List.cons_append, splitChars, hch, if_false]
    rw [e]

theorem splitChars_charsOfPath (names : List String) (hn : ∀ n ∈ names, '/' ∉ n.data) :
    splitChars (charsOfPath names) = [] :: names.map String.data := by
  induction names with
  | nil => rfl
  | cons name rest ih =>
    have ih2 := ih (fun n hn2 => hn n (List.mem_cons_of_mem _ hn2))
    simp only [charsOfPath, splitChars, if_true, List.map_cons]
    rw [splitChars_append _ _ (hn name (List.mem_cons_self _ _)) _ ih2]

theorem Split_pathOf (names : List String) (hn : ∀ n ∈ names, '/' ∉ n.data) :
    Split (pathOf names) = "" :: names := by
  unfold Split pathOf
  rw [splitChars_charsOfPath names hn]
  simp only [List.map_cons, List.map_map]
  congr 1
  conv_rhs => rw [← List.map_id names]
  apply List.map_congr_left
  intro n _
  rfl

/-! ## The directory scan on a tree object -/

theorem slice_mid (d0 tag d1 : Bytes) :
    slice (d0 ++ (tag ++ d1)) d0.length (d0.length + tag.length) = tag := by
  rw [slice_eq]
  simp

theorem dirScan_step (c : Codec) (recDir recList : Object → Option Bytes) (store : Store)
    (d0 tag d1 : Bytes) (htag : tag.length = 4) (seg : String) (l : Link) (rest : List Link) :
    dirScan c recDir recList store (d0 ++ (tag ++ d1)) seg (l :: rest) d0.length =
      if l.Name ≠ seg then
        dirScan c recDir recList store (d0 ++ (tag ++ d1)) seg rest (d0.length + 4)
      else if tag = TREE then
        match recDir (c.unmarshal (store.Get l.Hash)) with
        | none => none
        | some ans =>
          if ans ≠ [] then some ans
          else dirScan c recDir recList store (d0 ++ (tag ++ d1)) seg rest (d0.length + 4)
      else if tag = BLOB then some (store.Get l.Hash)
      else if tag = LIST then recList (c.unmarshal (store.Get l.Hash))
      else dirScan c recDir recList store (d0 ++ (tag ++ d1)) seg rest (d0.length + 4) := by
  have hs : slice (d0 ++ (tag ++ d1)) d0.length (d0.length + 4) = tag := by
    rw [← htag]; exact slice_mid d0 tag d1
  have hb : ¬ d0.length + 4 > (d0 ++ (tag ++ d1)).length := by
    simp only [List.length_append, htag]; omega
  rw [dirScan]
  simp only [hb, if_false, hs]
  try rfl

theorem treeData_append (c : Codec) (h : Bytes → Bytes) (a b : List Node) :
    treeData c h (a ++ b) = treeData c h a ++ treeData c h b := by
  induction a with
  | nil => rfl
  | cons node rest ih =>
    cases node <;> simp [treeData, ih]

theorem treeLinks_append (c : Codec) (h : Bytes → Bytes) (a b : List Node) :
    treeLinks c h (a ++ b) = treeLinks c h a ++ treeLinks c h b := by
  induction a with
  | nil => rfl
  | cons node rest ih =>
    cases node <;> simp [treeLinks, ih]

theorem nodeLink_name (c : Codec) (h : Bytes → Bytes) (node : Node) (name : String)
    (hn : node.linkName = some name) : (nodeLink c h node).Name = name := by
  cases node <;> simp_all [Node.linkName, nodeLink]

/-- The scan passes over the children in front whose name differs from the segment. -/
theorem dirScan_pre (c : Codec) (h : Bytes → Bytes) (recDir recList : Object → Option Bytes)
    (store : Store) (seg : String) (tail : List Node) (pre : List Node) :
    ∀ (d0 : Bytes), (∀ x ∈ pre, x.linkName ≠ some seg) →
      dirScan c recDir recList store (d0 ++ treeData c h (pre ++ tail)) seg
          (treeLinks c h (pre ++ tail)) d0.length =
        dirScan c recDir recList store ((d0 ++ treeData c h pre) ++ treeData c h tail) seg
          (treeLinks c h tail) (d0 ++ treeData c h pre).length := by
  induction pre with
  | nil => intro d0 _; simp [treeData]
  | cons node rest ih =>
    intro d0 hpre
    have hrest : ∀ x ∈ rest, x.linkName ≠ some seg := fun x hx => hpre x (List.mem_cons_of_mem _ hx)
    have hnode := hpre node (List.mem_cons_self _ _)
    have key : ∀ (nd : Node), (∀ name size, nd ≠ Node.other name size) →
        nd.linkName ≠ some seg →
        dirScan c recDir recList store
            (d0 ++ (nodeTag c h nd ++ treeData c h (rest ++ tail))) seg
            (nodeLink c h nd :: treeLinks c h (rest ++ tail)) d0.length =
          dirScan c recDir recList store
            ((d0 ++ (nodeTag c h nd ++ treeData c h rest)) ++ treeData c h tail) seg
            (treeLinks c h tail) (d0 ++ (nodeTag c h nd ++ treeData c h rest)).length := by
      intro nd hno hname
      have htl := nodeTag_length c h nd hno
      rw [dirScan_step c recDir recList store d0 _ _ htl]
      have hne : (nodeLink c h nd).Name ≠ seg := by
        cases nd with
        | file n s b => simpa [Node.linkName, nodeLink] using hname
        | dir n s cs => simpa [Node.linkName, nodeLink] using hname
        | other n s => exact absurd rfl (hno n s)
      simp only [hne, ne_eq, not_false_eq_true, if_true]
      have := ih (d0 ++ nodeTag c h nd) hrest
      simp only [List.length_append, htl, List.append_assoc] at this ⊢
      exact this
    cases node with
    | file n s b =>
      simp only [List.cons_append, treeData, treeLinks]
      exact key _ (fun _ _ hh => by cases hh) hnode
    | dir n s cs =>
      simp only [List.cons_append, treeData, treeLinks]
      exact key _ (fun _ _ hh => by cases hh) hnode
    | other n s =>
      simp only [List.cons_append, treeData, treeLinks]
      exact ih d0 hrest

theorem split_of_nodup (children : List Node) (node : Node) (name : String)
    (hmem : node ∈ children) (hnd : (children.filterMap Node.linkName).Nodup)
    (hname : node.linkName = some name) :
    ∃ pre post, children = pre ++ node :: post ∧ ∀ x ∈ pre, x.linkName ≠ some name := by
  obtain ⟨pre, post, rfl⟩ := List.append_of_mem hmem
  refine ⟨pre, post, rfl, ?_⟩
  intro x hx hxn
  rw [List.filterMap_append, List.filterMap_cons_some hname] at hnd
  have hdis := (List.nodup_append.1 hnd).2.2
  have h1 : name ∈ List.filterMap Node.linkName pre := List.mem_filterMap.2 ⟨x, hx, hxn⟩
  exact hdis h1 (List.mem_cons_self _ _)

theorem treeLinks_ne_nil (c : Codec) (h : Bytes → Bytes) (children : List Node) (node : Node)
    (name : String) (hmem : node ∈ children) (hname : node.linkName = some name) :
    treeLinks c h children ≠ [] := by
  obtain ⟨pre, post, rfl⟩ := List.append_of_mem hmem
  rw [treeLinks_append]
  cases node with
  | file n s b => simp [treeLinks]
  | dir n s cs => simp [treeLinks]
  | other n s => simp [Node.linkName] at hname

theorem Chain.links_ne_nil (c : Codec) (h : Bytes → Bytes) {children : List Node}
    {names : List String} {target : Node} (hc : Chain children names target) :
    treeLinks c h children ≠ [] := by
  cases hc with
  | here hmem hname => exact treeLinks_ne_nil c h _ _ _ hmem hname
  | step hmem _ => exact treeLinks_ne_nil c h _ _ _ hmem rfl

theorem treeObj_ne_empty (c : Codec) (h : Bytes → Bytes) (children : List Node)
    (hl : treeLinks c h children ≠ []) : treeObj c h children ≠ emptyObject := by
  intro he
  apply hl
  have := congrArg Object.Links he
  simpa [treeObj, emptyObject] using this

theorem getD_append_cons (done : List String) (name : String) (rest : List String) :
    (done ++ name :: rest).getD done.length "" = name := by
  induction done with
  | nil => rfl
  | cons d ds ih => simpa using ih

/-- The scan of the tree object of a directory arrives at the first child with the name of
the segment. -/
theorem dirScan_at (c : Codec) (h : Bytes → Bytes) (recDir recList : Object → Option Bytes)
    (store : Store) (seg : String) (pre post : List Node) (node : Node)
    (hno : ∀ name size, node ≠ Node.other name size)
    (hpre : ∀ x ∈ pre, x.linkName ≠ some seg) :
    dirScan c recDir recList store (treeObj c h (pre ++ node :: post)).Data seg
        (treeObj c h (pre ++ node :: post)).Links 0 =
      dirScan c recDir recList store
        (treeData c h pre ++ (nodeTag c h node ++ treeData c h post)) seg
        (nodeLink c h node :: treeLinks c h post) (treeData c h pre).length := by
  have := dirScan_pre c h recDir recList store seg (node :: post) pre [] hpre
  simp only [List.nil_append, List.length_nil] at this
  unfold treeObj
  simp only
  rw [this]
  cases node with
  | file n s b => simp only [treeData, treeLinks]
  | dir n s cs => simp only [treeData, treeLinks]
  | other n s => exact absurd rfl (hno n s)

theorem nodeReqs_sub (c : Codec) (h : Bytes → Bytes) (store : Store) (children : List Node)
    (x : Node) (hx : x ∈ children) (hg : GoodStore c h store (treeReqs c h children)) :
    GoodStore c h store (nodeReqs c h x) :=
  fun r hr => hg r ((treeReqs_mem c h children r).2 ⟨x, hx, hr⟩)

/-- A link to a non-empty file whose size is the length of its bytes: the scan returns the
bytes of the file when it arrives at the link. -/
theorem dirScan_file (c : Codec) (h : Bytes → Bytes) (store : Store)
    (hrt : ∀ o, c.unmarshal (c.marshal o) = o) (fname : String) (bytes : Bytes)
    (hne : bytes ≠ [])
    (hg : GoodStore c h store (nodeReqs c h (Node.file fname bytes.length bytes))) :
    ∃ H, ∀ f, H ≤ f → ∀ (recDir : Object → Option Bytes) (d0 d1 : Bytes) (rest : List Link),
      dirScan c recDir (fun o => getFileByList c f o store) store
          (d0 ++ (nodeTag c h (Node.file fname bytes.length bytes) ++ d1)) fname
          (nodeLink c h (Node.file fname bytes.length bytes) :: rest) d0.length = some bytes := by
  by_cases hsmall : bytes.length ≤ CHUNK_SIZE
  · refine ⟨0, fun f _ recDir d0 d1 rest => ?_⟩
    have hreq := fileReqs_small c h bytes.length bytes hsmall
    have hobj : nodeObj c h (Node.file fname bytes.length bytes) = { Links := [], Data := bytes } := by
      simp [nodeObj, addReqs, hreq]
    have hrs : nodeReqs c h (Node.file fname bytes.length bytes) =
        [({ Links := [], Data := bytes }, BLOB)] := by
      simp [nodeReqs, addReqs, hreq]
    have htag : nodeTag c h (Node.file fname bytes.length bytes) = BLOB := by
      simp [nodeTag, hobj]
    have hstored : Stored c h store { Links := [], Data := bytes } := by
      refine hg ({ Links := [], Data := bytes }, BLOB) (by rw [hrs]; simp) ?_
      intro he
      exact hne (by simpa [emptyObject] using congrArg Object.Data he)
    rw [htag, dirScan_step c recDir _ store d0 BLOB d1 (by decide)]
    have hname : (nodeLink c h (Node.file fname bytes.length bytes)).Name = fname := rfl
    have hBT : BLOB ≠ TREE := by decide
    simp only [hname, ne_eq, not_true_eq_false, if_false, hBT, if_true]
    simp only [nodeLink, hobj, hstored.get, storedValue, if_true]
  · have hbig : CHUNK_SIZE < bytes.length := by omega
    obtain ⟨o, rs, H, e1, e2, e3, ⟨t, ht⟩, e5⟩ := fileReqs_large c h bytes store hrt hbig
    have hobj : nodeObj c h (Node.file fname bytes.length bytes) = o := by
      simp [nodeObj, addReqs, e1]
    have hrs : nodeReqs c h (Node.file fname bytes.length bytes) = rs := by
      simp [nodeReqs, addReqs, e1]
    rw [hrs] at hg
    refine ⟨H, fun f hf recDir d0 d1 rest => ?_⟩
    have htag : nodeTag c h (Node.file fname bytes.length bytes) = LIST := by
      simp [nodeTag, hobj, e2]
    have hoe : o ≠ emptyObject := fun he => e2 (by rw [he]; rfl)
    have hstored : Stored c h store o := hg (o, t) ht hoe
    rw [htag, dirScan_step c recDir _ store d0 LIST d1 (by decide)]
    have hname : (nodeLink c h (Node.file fname bytes.length bytes)).Name = fname := rfl
    have hLT : LIST ≠ TREE := by decide
    simp only [hname, ne_eq, not_true_eq_false, if_false, hLT, BLOB_ne_LIST, if_true]
    simp only [nodeLink, hobj, hstored.get, storedValue, e2, if_false, hrt]
    exact e5 hg f hf

/-- Retrieval along a chain of names: in a store that holds the requests of the children,
`getFileByDir` on the tree object, with the cursor at the first name of the chain, returns the
bytes of the non-empty file the chain reaches. -/
theorem getFileByDir_chain (c : Codec) (h : Bytes → Bytes) (store : Store)
    (hrt : ∀ o, c.unmarshal (c.marshal o) = o) {children : List Node} {names : List String}
    {target : Node} (hc : Chain children names target) :
    ∀ (fname : String) (bytes : Bytes), target = Node.file fname bytes.length bytes →
      bytes ≠ [] → (children.filterMap Node.linkName).Nodup →
      (∀ x ∈ children, NamesDistinct x) → GoodStore c h store (treeReqs c h children) →
      ∃ n0, ∀ fuel, n0 ≤ fuel → ∀ done : List String,
        getFileByDir c fuel (treeObj c h children) (done ++ names) done.length store =
          some bytes := by
  induction hc with
  | @here children node name hmem hname =>
    intro fname bytes htarget hne hnd _ hg
    subst htarget
    have hfn : fname = name := by simpa [Node.linkName] using hname
    subst hfn
    obtain ⟨pre, post, rfl, hpre⟩ := split_of_nodup _ _ _ hmem hnd hname
    obtain ⟨H, hH⟩ := dirScan_file c h store hrt fname bytes hne
      (nodeReqs_sub c h store _ _ hmem hg)
    refine ⟨H + 1, fun fuel hfuel done => ?_⟩
    obtain ⟨f, rfl⟩ : ∃ f, fuel = f + 1 := ⟨fuel - 1, by omega⟩
    have hcur : ¬ done.length ≥ (done ++ [fname]).length := by simp
    rw [getFileByDir]
    simp only [hcur, if_false, getD_append_cons]
    rw [dirScan_at c h _ _ store fname pre post _ (fun _ _ hh => by cases hh) hpre]
    exact hH f (by omega) _ _ _ _
  | @step children name size cs rest target hmem hsub ih =>
    intro fname bytes htarget hne hnd hdist hg
    have hd := hdist _ hmem
    obtain ⟨pre, post, rfl, hpre⟩ := split_of_nodup _ _ name hmem hnd rfl
    have hgdir := nodeReqs_sub c h store _ _ hmem hg
    rw [nodeReqs_dir] at hgdir
    cases hd with
    | dir _ _ _ hnd2 hdist2 =>
      obtain ⟨n1, hn1⟩ := ih fname bytes htarget hne hnd2 hdist2
        (fun r hr => hgdir r (List.mem_append_left _ hr))
      refine ⟨n1 + 1, fun fuel hfuel done => ?_⟩
      obtain ⟨f, rfl⟩ : ∃ f, fuel = f + 1 := ⟨fuel - 1, by omega⟩
      have hcur : ¬ done.length ≥ (done ++ name :: rest).length := by simp
      rw [getFileByDir]
      simp only [hcur, if_false, getD_append_cons]
      rw [dirScan_at c h _ _ store name pre post _ (fun _ _ hh => by cases hh) hpre]
      have hlinks := hsub.links_ne_nil c h
      have hstored : Stored c h store (treeObj c h cs) :=
        hgdir (treeObj c h cs, LIST) (by simp) (treeObj_ne_empty c h cs hlinks)
      have hget := hstored.get
      have hsv : storedValue c (treeObj c h cs) = c.marshal (treeObj c h cs) := by
        unfold storedValue
        have : (treeObj c h cs).Links ≠ [] := hlinks
        simp only [this, if_false]
      rw [hsv] at hget
      have hrec := hn1 f (by omega) (done ++ [name])
      simp only [List.append_assoc, List.singleton_append, List.length_append,
        List.length_singleton] at hrec
      rw [dirScan_step c _ _ store _ (nodeTag c h (Node.dir name size cs)) _ rfl]
      have hname : (nodeLink c h (Node.dir name size cs)).Name = name := rfl
      have htag : nodeTag c h (Node.dir name size cs) = TREE := rfl
      simp only [hname, ne_eq, not_true_eq_false, if_false, htag, if_true]
      simp only [nodeLink, nodeObj_dir, hget, hrt, hrec]
      simp [hne]

/-! ## The length-prefixed codec decodes what it encodes -/

theorem decBytes_encBytes (b rest : Bytes) : decBytes (encBytes b ++ rest) = (b, rest) := by
  simp [decBytes, encBytes]

theorem decLink_encLink (l : Link) (rest : Bytes) : decLink (encLink l ++ rest) = (l, rest) := by
  unfold decLink encLink
  simp only [List.append_assoc, decBytes_encBytes]
  have hname : String.mk (List.map Char.ofNat (List.map Char.toNat l.Name.data)) = l.Name := by
    have : List.map Char.ofNat (List.map Char.toNat l.Name.data) = l.Name.data := by
      rw [List.map_map]
      conv_rhs => rw [← List.map_id l.Name.data]
      apply List.map_congr_left
      intro ch _
      simp [Char.ofNat_toNat]
    rw [this]
  cases l
  simp_all

theorem decLinks_encLinks (ls : List Link) (rest : Bytes) :
    decLinks ls.length (encLinks ls ++ rest) = (ls, rest) := by
  induction ls with
  | nil => rfl
  | cons l ls ih =>
    simp only [List.length_cons, decLinks, encLinks, List.append_assoc, decLink_encLink, ih]

theorem lpCodec_roundtrip (o : Object) : lpCodec.unmarshal (lpCodec.marshal o) = o := by
  have h1 := decBytes_encBytes o.Data []
  simp only [List.append_nil] at h1
  show ({ Links := (decLinks o.Links.length (encLinks o.Links ++ encBytes o.Data)).1,
          Data := (decBytes (decLinks o.Links.length (encLinks o.Links ++ encBytes o.Data)).2).1 } : Object) = o
  rw [decLinks_encLinks, h1]

theorem lpCodec_inj (a b : Object) (hab : id (lpCodec.marshal a) = id (lpCodec.marshal b)) :
    a = b := by
  have := congrArg lpCodec.unmarshal hab
  simpa [lpCodec_roundtrip] using this

/-! ## Round trip -/

/-- The store after `Add` into the empty store holds every non-zero object of the build. -/
theorem Add_good (c : Codec) (h : Bytes → Bytes)
    (hinj : ∀ a b, h (c.marshal a) = h (c.marshal b) → a = b) (node : Node) :
    GoodStore c h (persist c h (nodeReqs c h node) []) (nodeReqs c h node) :=
  persist_good c h hinj _ (nodeReqs_shape c h node)

/-- Round trip of a non-empty file: `Hash2File` on the root hash of a directory built into
the empty store and the path of a chain of names returns the bytes of the file reached. -/
theorem roundtrip_nonempty (c : Codec) (h : Bytes → Bytes)
    (hrt : ∀ o, c.unmarshal (c.marshal o) = o)
    (hinj : ∀ a b, h (c.marshal a) = h (c.marshal b) → a = b)
    (rname : String) (rsize : Nat) (children : List Node) (names : List String)
    (fname : String) (bytes : Bytes)
    (hdist : NamesDistinct (Node.dir rname rsize children))
    (hchain : Chain children names (Node.file fname bytes.length bytes))
    (hslash : ∀ n ∈ names, '/' ∉ n.data) (hne : bytes ≠ []) :
    ∃ r s, Add c [] (Node.dir rname rsize children) h = some (r, s) ∧
      ∃ n0, ∀ fuel, n0 ≤ fuel → Hash2File c fuel s r (pathOf names) = some bytes := by
  refine ⟨_, _, Add_total c h _ [], ?_⟩
  have hg := Add_good c h hinj (Node.dir rname rsize children)
  rw [nodeObj_dir]
  generalize hs : persist c h (nodeReqs c h (Node.dir rname rsize children)) [] = s at hg ⊢
  rw [nodeReqs_dir] at hg hs
  have hlinks := hchain.links_ne_nil c h
  have hstored : Stored c h s (treeObj c h children) :=
    hg (treeObj c h children, LIST) (by simp) (treeObj_ne_empty c h children hlinks)
  have hget := hstored.get
  have hsv : storedValue c (treeObj c h children) = c.marshal (treeObj c h children) := by
    unfold storedValue
    have : (treeObj c h children).Links ≠ [] := hlinks
    simp only [this, if_false]
  rw [hsv] at hget
  have hhas : s.Has (h (c.marshal (treeObj c h children))) = true :=
    (has_iff_lookup _ _).2 ⟨_, hstored⟩
  cases hdist with
  | dir _ _ _ hnd hd =>
    obtain ⟨n0, hn0⟩ := getFileByDir_chain c h s hrt hchain fname bytes rfl hne hnd hd
      (fun r hr => hg r (List.mem_append_left _ hr))
    refine ⟨n0, fun fuel hfuel => ?_⟩
    unfold Hash2File
    simp only [hhas, if_true, hget, hrt, Split_pathOf names hslash]
    exact hn0 fuel hfuel [""]

/-- C2, amended: a file above the chunk size, whose `Size()` is the length of its bytes,
reached by a chain of names (valid UTF-8, as every name of the model, and none containing
`/`) in a directory tree with distinct sibling names: `Add` into the empty store returns a
root hash, and `Hash2File` on that hash and the path of the chain returns exactly the bytes
of the file, for every recursion bound from some bound on; the encoding is decodable and
the hash of the encoding is collision-free. -/
theorem roundtrip_large (c : Codec) (h : Bytes → Bytes)
    (hrt : ∀ o, c.unmarshal (c.marshal o) = o)
    (hinj : ∀ a b, h (c.marshal a) = h (c.marshal b) → a = b)
    (rname : String) (rsize : Nat) (children : List Node) (names : List String)
    (fname : String) (bytes : Bytes)
    (hdist : NamesDistinct (Node.dir rname rsize children))
    (hchain : Chain children names (Node.file fname bytes.length bytes))
    (hslash : ∀ n ∈ names, '/' ∉ n.data) (hbig : CHUNK_SIZE < bytes.length) :
    ∃ r s, Add c [] (Node.dir rname rsize children) h = some (r, s) ∧
      ∃ n0, ∀ fuel, n0 ≤ fuel → Hash2File c fuel s r (pathOf names) = some bytes := by
  have hne : bytes ≠ [] := by
    intro he
    rw [he] at hbig
    exact Nat.not_lt_zero _ hbig
  exact roundtrip_nonempty c h hrt hinj rname rsize children names fname bytes hdist hchain
    hslash hne

theorem bigBytes_length : CHUNK_SIZE < bigBytes.length := by
  unfold bigBytes
  rw [List.length_replicate]
  exact Nat.lt_succ_self _

theorem roundtrip_large_witness :
    ∃ r s, Add lpCodec [] bigTree id = some (r, s) ∧
      ∃ n0, ∀ fuel, n0 ≤ fuel → Hash2File lpCodec fuel s r (pathOf ["a", "big.bin"]) = some bigBytes :=
  roundtrip_large lpCodec id lpCodec_roundtrip lpCodec_inj "root" 0
    [Node.dir "a" 0 [Node.file "big.bin" bigBytes.length bigBytes]] ["a", "big.bin"] "big.bin"
    bigBytes
    (NamesDistinct.dir _ _ _ (by simp [Node.linkName]) (fun x hx => by
      simp only [List.mem_singleton] at hx
      subst hx
      exact NamesDistinct.dir _ _ _ (by simp [Node.linkName]) (fun y hy => by
        simp only [List.mem_singleton] at hy
        subst hy
        exact NamesDistinct.file _ _ _)))
    (Chain.step (List.mem_singleton.2 rfl) (Chain.here (List.mem_singleton.2 rfl) rfl))
    (by decide) bigBytes_length

/-! ## A larger recursion bound does not change a result -/

theorem listLoop_mono (c : Codec) (rec1 rec2 : Object → Option Bytes) (store : Store)
    (data : Bytes) (hrec : ∀ o r, rec1 o = some r → rec2 o = some r) (links : List Link) :
    ∀ (index : Nat) (ans r : Bytes), listLoop c rec1 store data links index ans = some r →
      listLoop c rec2 store data links index ans = some r := by
  induction links with
  | nil => intro index ans r hr; simpa [listLoop] using hr
  | cons l rest ih =>
    intro index ans r hr
    simp only [listLoop] at hr ⊢
    split at hr
    · simp at hr
    · rename_i hb
      simp only [hb, if_false]
      split at hr
      · rename_i ht
        simp only [ht, if_true]
        exact ih _ _ _ hr
      · rename_i ht
        simp only [ht, if_false]
        cases h1 : rec1 (c.unmarshal (store.Get l.Hash)) with
        | none => simp [h1] at hr
        | some tmp =>
          simp only [h1] at hr
          simp only [hrec _ _ h1]
          exact ih _ _ _ hr

theorem getFileByList_succ (c : Codec) (store : Store) (n : Nat) :
    ∀ (o : Object) (r : Bytes), getFileByList c n o store = some r →
      getFileByList c (n + 1) o store = some r := by
  induction n with
  | zero => intro o r hr; simp [getFileByList] at hr
  | succ n ih =>
    intro o r hr
    rw [getFileByList] at hr ⊢
    exact listLoop_mono c _ _ store o.Data (fun x y hxy => ih x y hxy) o.Links 0 [] r hr

theorem getFileByList_mono (c : Codec) (store : Store) (n m : Nat) (hnm : n ≤ m) (o : Object)
    (r : Bytes) (hr : getFileByList c n o store = some r) :
    getFileByList c m o store = some r := by
  induction hnm with
  | refl => exact hr
  | step _ ih => exact getFileByList_succ c store _ o r ih

theorem dirScan_mono (c : Codec) (recDir1 recDir2 recList1 recList2 : Object → Option Bytes)
    (store : Store) (data : Bytes) (seg : String)
    (hd : ∀ o r, recDir1 o = some r → recDir2 o = some r)
    (hl : ∀ o r, recList1 o = some r → recList2 o = some r) (links : List Link) :
    ∀ (index : Nat) (r : Bytes), dirScan c recDir1 recList1 store data seg links index = some r →
      dirScan c recDir2 recList2 store data seg links index = some r := by
  induction links with
  | nil => intro index r hr; simpa [dirScan] using hr
  | cons l rest ih =>
    intro index r hr
    rw [dirScan] at hr ⊢
    by_cases hb : index + 4 > data.length
    · rw [if_pos hb] at hr; simp at hr
    · rw [if_neg hb] at hr ⊢
      simp only at hr ⊢
      by_cases hn : l.Name ≠ seg
      · rw [if_pos hn] at hr ⊢
        exact ih _ _ hr
      · rw [if_neg hn] at hr ⊢
        by_cases ht : slice data index (index + 4) = TREE
        · rw [if_pos ht] at hr ⊢
          cases h1 : recDir1 (c.unmarshal (store.Get l.Hash)) with
          | none => simp [h1] at hr
          | some ans =>
            simp only [h1] at hr
            simp only [hd _ _ h1]
            by_cases ha : ans ≠ []
            · rw [if_pos ha] at hr ⊢
              exact hr
            · rw [if_neg ha] at hr ⊢
              exact ih _ _ hr
        · rw [if_neg ht] at hr ⊢
          by_cases hb2 : slice data index (index + 4) = BLOB
          · rw [if_pos hb2] at hr ⊢
            exact hr
          · rw [if_neg hb2] at hr ⊢
            by_cases hl2 : slice data index (index + 4) = LIST
            · rw [if_pos hl2] at hr ⊢
              exact hl _ _ hr
            · rw [if_neg hl2] at hr ⊢
              exact ih _ _ hr

theorem getFileByDir_succ (c : Codec) (store : Store) (pathArr : List String) (n : Nat) :
    ∀ (o : Object) (cur : Nat) (r : Bytes), getFileByDir c n o pathArr cur store = some r →
      getFileByDir c (n + 1) o pathArr cur store = some r := by
  induction n with
  | zero => intro o cur r hr; simp [getFileByDir] at hr
  | succ n ih =>
    intro o cur r hr
    rw [getFileByDir] at hr ⊢
    split at hr
    · rename_i hc
      simp only [hc, if_true]
      exact hr
    · rename_i hc
      simp only [hc, if_false]
      exact dirScan_mono c _ _ _ _ store o.Data _ (fun x y hxy => ih x (cur + 1) y hxy)
        (fun x y hxy => getFileByList_succ c store n x y hxy) o.Links 0 r hr

theorem getFileByDir_mono (c : Codec) (store : Store) (pathArr : List String) (n m : Nat)
    (hnm : n ≤ m) (o : Object) (cur : Nat) (r : Bytes)
    (hr : getFileByDir c n o pathArr cur store = some r) :
    getFileByDir c m o pathArr cur store = some r := by
  induction hnm with
  | refl => exact hr
  | step _ ih => exact getFileByDir_succ c store pathArr _ o cur r ih

theorem Hash2File_mono (c : Codec) (store : Store) (hash : Bytes) (path : String) (n m : Nat)
    (hnm : n ≤ m) (r : Bytes) (hr : Hash2File c n store hash path = some r) :
    Hash2File c m store hash path = some r := by
  unfold Hash2File at hr ⊢
  split at hr
  · rename_i hh
    simp only [hh, if_true]
    exact getFileByDir_mono c store _ n m hnm _ _ r hr
  · rename_i hh
    simp only [hh, if_false]
    exact hr

/-! ## Behaviour on concrete trees -/

/-- C1: in `sampleTree` the empty directory `a` comes before the empty file `b`. The tree
object of `a` and the blob object of `b` are both the zero object, so they share one key;
the directory is persisted first, with its encoding as the value, and `putObjInStore` skips
the blob. `Hash2File` on the path `/b` then returns the encoding of the zero object (two
bytes in the length-prefixed codec) in place of the empty content of the file. -/
theorem Hash2File_empty_file_after_empty_dir :
    ∃ r s, Add lpCodec [] sampleTree id = some (r, s) ∧
      (∀ fuel, 1 ≤ fuel →
        Hash2File lpCodec fuel s r (pathOf ["b"]) = some (lpCodec.marshal emptyObject)) ∧
      lpCodec.marshal emptyObject ≠ [] := by
  have hsome : (Add lpCodec [] sampleTree id).isSome = true := by decide
  obtain ⟨⟨r, s⟩, hrs⟩ := Option.isSome_iff_exists.1 hsome
  have hd : (Add lpCodec [] sampleTree id).map
      (fun p => Hash2File lpCodec 1 p.2 p.1 (pathOf ["b"])) =
        some (some (lpCodec.marshal emptyObject)) := by decide
  rw [hrs] at hd
  simp only [Option.map_some', Option.some.injEq] at hd
  exact ⟨r, s, hrs, fun fuel hfuel => Hash2File_mono lpCodec s r _ 1 fuel hfuel _ hd, by decide⟩

/-- C6, as stated, fails: in `sampleTree` the path `/hello.txt/zzz` has a segment after the
name of a file, and `Hash2File` returns the ten bytes of `hello.txt`, not the empty result;
the segments after the first are `hello.txt`, `zzz`, and they are not the names along any
chain from the children of the root. -/
theorem Hash2File_extra_segment :
    (∃ r s, Add lpCodec [] sampleTree id = some (r, s) ∧
      ∀ fuel, 1 ≤ fuel → Hash2File lpCodec fuel s r (pathOf ["hello.txt", "zzz"]) =
        some [97, 98, 99, 100, 101, 102, 103, 104, 105, 106]) ∧
      (Split (pathOf ["hello.txt", "zzz"])).drop 1 = ["hello.txt", "zzz"] ∧
      ¬ ∃ target,
        Chain [Node.dir "a" 0 [], Node.file "b" 0 [],
          Node.file "hello.txt" 10 [97, 98, 99, 100, 101, 102, 103, 104, 105, 106],
          Node.dir "d" 2 [Node.file "c" 2 [7, 7]]] ["hello.txt", "zzz"] target := by
  have hsome : (Add lpCodec [] sampleTree id).isSome = true := by decide
  obtain ⟨⟨r, s⟩, hrs⟩ := Option.isSome_iff_exists.1 hsome
  have hd : (Add lpCodec [] sampleTree id).map
      (fun p => Hash2File lpCodec 1 p.2 p.1 (pathOf ["hello.txt", "zzz"])) =
        some (some [97, 98, 99, 100, 101, 102, 103, 104, 105, 106]) := by decide
  rw [hrs] at hd
  simp only [Option.map_some', Option.some.injEq] at hd
  refine ⟨⟨r, s, hrs, fun fuel hfuel => Hash2File_mono lpCodec s r _ 1 fuel hfuel _ hd⟩,
    by decide, ?_⟩
  rintro ⟨target, hc⟩
  cases hc with
  | step hm hrest => simp at hm

/-- C7, as stated for every hash, fails: with a hash that maps everything to one digest, the
blob of the file `x` is persisted first under that digest and the tree object of the root
is skipped; the value under the returned root hash is the raw byte of the file, which is
not the encoding of the root object. -/
theorem Add_root_value_collision :
    Add lpCodec [] oneFileTree constHash = some ([], [([], [1])]) ∧
      Store.Get [(([] : Bytes), ([1] : Bytes))] [] = [1] ∧
      lpCodec.marshal (nodeObj lpCodec constHash oneFileTree) ≠ [1] := by
  decide
/-! ## The root object in the store -/

theorem dfsReqs_root (c : Codec) (h : Bytes → Bytes) (height : Nat) (bytes : Bytes)
    (o : Object) (m : Nat) (rs : List Req) (hh : 1 ≤ height)
    (hrun : dfsReqs c h height bytes 0 = some (o, m, rs)) :
    ∃ t pre, rs = pre ++ [(o, t)] ∧ (o = emptyObject → pre = []) := by
  match height, hh with
  | 1, _ =>
    simp only [dfsReqs] at hrun
    have h1 : ¬ 0 > bytes.length := by omega
    simp only [h1, if_false] at hrun
    by_cases hsmall : bytes.length - 0 < CHUNK_SIZE
    · simp only [hsmall, if_true, Option.some.injEq, Prod.mk.injEq] at hrun
      obtain ⟨rfl, _, rfl⟩ := hrun
      exact ⟨BLOB, [], rfl, fun _ => rfl⟩
    · simp only [hsmall, if_false, Option.some.injEq, Prod.mk.injEq] at hrun
      obtain ⟨rfl, _, rfl⟩ := hrun
      refine ⟨LIST, _, rfl, fun he => ?_⟩
      have hlt : 0 < bytes.length := by
        have := CHUNK_SIZE_pos
        omega
      have hne := (chunkReqs_basic c h bytes MAX_LISTLINE emptyObject 0 0 hlt rfl).2.2
        (Or.inr (by decide))
      exact absurd (by rw [he]; rfl) hne
  | k + 2, _ =>
    simp only [dfsReqs] at hrun
    by_cases hlen : 0 < bytes.length
    · obtain ⟨res, hres, _, _, h3⟩ := levelReqs_total c h bytes
        (fun start => dfsReqs c h (k + 1) bytes start) (cap (k + 1)) (cap_pos _)
        (fun s hs => by
          obtain ⟨o, m, rs, e1, e2, _⟩ := dfsReqs_total c h bytes (k + 1) s (by omega) hs
          exact ⟨o, m, rs, e1, e2⟩) MAX_LISTLINE emptyObject 0 0 rfl
      rw [hres] at hrun
      simp only [Option.some.injEq, Prod.mk.injEq] at hrun
      obtain ⟨rfl, _, rfl⟩ := hrun
      refine ⟨LIST, _, rfl, fun he => ?_⟩
      have hne := h3 (Or.inr ⟨by decide, hlen⟩)
      exact absurd (by rw [he]; rfl) hne
    · rw [levelReqs_of_ge c h bytes _ _ _ _ _ (by omega)] at hrun
      simp only [Option.some.injEq, Prod.mk.injEq] at hrun
      obtain ⟨rfl, _, rfl⟩ := hrun
      exact ⟨LIST, [], rfl, fun _ => rfl⟩

theorem treeReqs_nil (c : Codec) (h : Bytes → Bytes) (children : List Node)
    (hl : treeLinks c h children = []) : treeReqs c h children = [] := by
  induction children with
  | nil => rfl
  | cons node rest ih =>
    cases node with
    | file n s b => simp [treeLinks] at hl
    | dir n s cs => simp [treeLinks] at hl
    | other n s =>
      simp only [treeLinks] at hl
      simp [treeReqs, nodeReqs, addReqs, ih hl]

/-- The last request of the build of a file or directory is the request for its object;
when that object is the zero object it is the only request. -/
theorem nodeReqs_root (c : Codec) (h : Bytes → Bytes) (node : Node)
    (hnode : node.linkName ≠ none) :
    ∃ t pre, nodeReqs c h node = pre ++ [(nodeObj c h node, t)] ∧
      (nodeObj c h node = emptyObject → pre = []) ∧
      ((∃ name size cs, node = Node.dir name size cs) → t = LIST) := by
  cases node with
  | other n s => exact absurd rfl hnode
  | dir n s cs =>
    refine ⟨LIST, treeReqs c h cs, ?_, ?_, fun _ => rfl⟩
    · rw [nodeReqs_dir, nodeObj_dir]
    · rw [nodeObj_dir]
      intro he
      apply treeReqs_nil
      have := congrArg Object.Links he
      simpa [treeObj, emptyObject] using this
  | file n s b =>
    obtain ⟨res, hres⟩ := fileReqs_isSome c h s b
    have hobj : nodeObj c h (Node.file n s b) = res.1 := by simp [nodeObj, addReqs, hres]
    have hrs : nodeReqs c h (Node.file n s b) = res.2 := by simp [nodeReqs, addReqs, hres]
    rw [hobj, hrs]
    unfold fileReqs at hres
    by_cases hbig : s > CHUNK_SIZE
    · simp only [hbig, if_true] at hres
      obtain ⟨H, e1, e2, _⟩ := computeHeight_total s
      simp only [e1] at hres
      cases hd : dfsReqs c h H b 0 with
      | none => simp [hd] at hres
      | some q =>
        obtain ⟨o, m, rs⟩ := q
        simp only [hd, Option.some.injEq] at hres
        subst hres
        obtain ⟨t, pre, e3, e4⟩ := dfsReqs_root c h H b o m rs e2 hd
        exact ⟨t, pre, e3, e4, fun ⟨_, _, _, hh⟩ => by cases hh⟩
    · simp only [hbig, if_false, Option.some.injEq] at hres
      subst hres
      exact ⟨BLOB, [], rfl, fun _ => rfl, fun ⟨_, _, _, hh⟩ => by cases hh⟩

theorem persist_root_value (c : Codec) (h : Bytes → Bytes)
    (hinj : ∀ a b, h (c.marshal a) = h (c.marshal b) → a = b) (pre : List Req) (o : Object)
    (t : Bytes) (hsh : ∀ r ∈ pre ++ [(o, t)], ReqShape r) (hempty : o = emptyObject → pre = []) :
    (persist c h (pre ++ [(o, t)]) []).lookup (h (c.marshal o)) =
      some (if t = BLOB then o.Data else c.marshal o) := by
  by_cases he : o = emptyObject
  · rw [hempty he]
    simp only [List.nil_append, persist, putObjInStore, computeHash, Store.Has, List.lookup_nil,
      Option.isSome_none, Bool.false_eq_true, if_false]
    by_cases ht : t = BLOB <;> simp [ht, lookup_put]
  · have hg := persist_good c h hinj _ hsh (o, t) (by simp) he
    unfold Stored at hg
    rw [hg]
    have hs := hsh (o, t) (by simp)
    rcases hs with ⟨hb, hl⟩ | ⟨hb, hal⟩
    · simp only at hb hl
      simp [storedValue, hb, hl]
    · simp only at hb hal
      have hl : o.Links ≠ [] := by
        intro hl
        apply he
        rw [hl] at hal
        have hd : o.Data = [] := List.length_eq_zero.1 (by simpa using hal)
        cases o
        simp_all [emptyObject]
      have hLB : ¬ (t = BLOB) := by rw [hb]; exact BLOB_ne_LIST
      simp [storedValue, hl, hLB]

/-- C7 (amended): for every FILE or DIR node `Add` returns the hash `r` of the encoding of
the object of the node, and the store afterwards holds the key `r`. When the store was
empty before and the hash of the encoding is collision-free, the value under `r` is the raw
data when the object was persisted as a blob and its encoding when it was persisted as a
list or tree; the object of a directory is always persisted as a tree. -/
theorem Add_root_stored (c : Codec) (h : Bytes → Bytes) (node : Node) (store : Store)
    (hnode : node.linkName ≠ none) :
    ∃ r s t, Add c store node h = some (r, s) ∧ r = h (c.marshal (nodeObj c h node)) ∧
      s.Has r = true ∧ (nodeObj c h node, t) ∈ nodeReqs c h node ∧
      ((∃ name size cs, node = Node.dir name size cs) → t = LIST) ∧
      ((∀ a b, h (c.marshal a) = h (c.marshal b) → a = b) → store = [] →
        s.lookup r = some (if t = BLOB then (nodeObj c h node).Data
          else c.marshal (nodeObj c h node))) := by
  obtain ⟨t, pre, e1, e2, e3⟩ := nodeReqs_root c h node hnode
  have hmem : (nodeObj c h node, t) ∈ nodeReqs c h node := by rw [e1]; simp
  refine ⟨_, _, t, Add_total c h node store, rfl, ?_, hmem, e3, ?_⟩
  · exact persist_has c h _ store _ hmem
  · intro hinj hs
    subst hs
    have hsh := nodeReqs_shape c h node
    rw [e1] at hsh ⊢
    exact persist_root_value c h hinj pre _ t hsh e2

theorem Add_root_stored_witness :
    ∃ r s t, Add lpCodec [] sampleTree id = some (r, s) ∧
      r = id (lpCodec.marshal (nodeObj lpCodec id sampleTree)) ∧
      s.Has r = true ∧ (nodeObj lpCodec id sampleTree, t) ∈ nodeReqs lpCodec id sampleTree ∧
      ((∃ name size cs, sampleTree = Node.dir name size cs) → t = LIST) ∧
      ((∀ a b, id (lpCodec.marshal a) = id (lpCodec.marshal b) → a = b) → ([] : Store) = [] →
        s.lookup r = some (if t = BLOB then (nodeObj lpCodec id sampleTree).Data
          else lpCodec.marshal (nodeObj lpCodec id sampleTree))) :=
  Add_root_stored lpCodec id sampleTree [] (by decide)

/-! ## The shape of the object of a large file -/

set_option exponentiation.threshold 2000 in
theorem F64_one_eq : F64.one = 2 ^ 1044 * 4096 * CHUNK_SIZE := by
  have h18 : CHUNK_SIZE = 2 ^ 18 := by decide
  have h12 : (4096 : Nat) = 2 ^ 12 := by decide
  rw [h18, h12, ← pow_add, ← pow_add]
  rfl

theorem numChunks_ge_scaled (size : Nat) :
    float64OfNat size * (2 ^ 1044 * 4096) ≤ numChunks size := by
  unfold numChunks
  refine le_trans ?_ (F64_le_ceil _)
  unfold F64.divPow2
  refine le_trans ?_ (roundHalfEven_ge _ _)
  rw [Nat.le_div_iff_mul_le CHUNK_SIZE_pos, F64_one_eq]
  exact le_of_eq (by ring)

theorem height_arith (size f P A N : Nat) (hP : 2 ≤ P) (hsize : 1 ≤ size) (hf : size ≤ 2 * f)
    (hN : f * (P * 4096) ≤ N) (hA : N < A * 4096) : size ≤ A ∧ 2 ≤ A := by
  have h1 : f * P * 4096 < A * 4096 := by
    calc f * P * 4096 = f * (P * 4096) := by ring
      _ ≤ N := hN
      _ < A * 4096 := hA
  have h2 : f * P < A := Nat.lt_of_mul_lt_mul_right h1
  have h3 : f * 2 ≤ f * P := Nat.mul_le_mul_left _ hP
  omega

set_option exponentiation.threshold 2000 in
/-- The height that `handleFile` computes is at least 2, and already one level less covers
the whole file. -/
theorem computeHeight_spare (size : Nat) (hsize : 1 ≤ size) :
    ∃ k, computeHeight size = some (k + 2) ∧ size ≤ cap (k + 1) := by
  unfold computeHeight
  obtain ⟨H, e1, e2, e3⟩ := heightLoop_total (numChunks size + 1) 0 (numChunks size)
    (Nat.lt_succ_self _)
  rw [Nat.sub_zero] at e3
  obtain ⟨j, rfl⟩ : ∃ j, H = j + 1 := ⟨H - 1, by omega⟩
  rw [pow_succ, MAX_LISTLINE_eq] at e3
  have hP : 2 ≤ 2 ^ 1044 := by
    calc 2 = 2 ^ 1 := rfl
      _ ≤ 2 ^ 1044 := Nat.pow_le_pow_right (by decide) (by decide)
  obtain ⟨a1, a2⟩ := height_arith size (float64OfNat size) (2 ^ 1044) (4096 ^ j) (numChunks size)
    hP hsize (float64OfNat_ge size) (numChunks_ge_scaled size) e3
  have hj : 1 ≤ j := by
    rcases Nat.eq_zero_or_pos j with h0 | h0
    · subst h0; simp at a2
    · exact h0
  obtain ⟨k, rfl⟩ : ∃ k, j = k + 1 := ⟨j - 1, by omega⟩
  refine ⟨k, e1, ?_⟩
  unfold cap
  rw [MAX_LISTLINE_eq]
  calc size ≤ 4096 ^ (k + 1) := a1
    _ ≤ 4096 ^ (k + 1) * CHUNK_SIZE := Nat.le_mul_of_pos_right _ CHUNK_SIZE_pos

/-- A file above the chunk size whose size is the length of its bytes: the object that
`handleFile` returns has exactly one link, tagged `link`, with the size of the whole file;
the link refers to a list object. -/
theorem fileReqs_single_link (c : Codec) (h : Bytes → Bytes) (bytes : Bytes)
    (hbig : CHUNK_SIZE < bytes.length) :
    ∃ o rs child, fileReqs c h bytes.length bytes = some (o, rs) ∧
      o.Links = [{ Name := "", Hash := h (c.marshal child), Size := bytes.length }] ∧
      o.Data = LIST ∧ child.Links ≠ [] := by
  unfold fileReqs
  have hgt : bytes.length > CHUNK_SIZE := hbig
  simp only [hgt, if_true]
  have hlen : 0 < bytes.length := by omega
  obtain ⟨k, e1, e2⟩ := computeHeight_spare bytes.length hlen
  obtain ⟨o1, m1, rs1, d1, d2, _, _, d5⟩ := dfsReqs_total c h bytes (k + 1) 0 (by omega) hlen
  have hm : m1 = bytes.length := by
    rw [d2, Nat.sub_zero]
    exact Nat.min_eq_left e2
  subst hm
  have hne : o1.Links ≠ [] := d5 (Or.inr (by omega))
  have hM : MAX_LISTLINE = 4095 + 1 := rfl
  have hnlt : ¬ 0 ≥ bytes.length := by omega
  simp only [e1, dfsReqs]
  rw [hM, levelReqs]
  simp only [hnlt, if_false, d1, hne, Nat.zero_add]
  rw [levelReqs_of_ge c h bytes _ _ _ _ _ (le_refl _)]
  exact ⟨_, _, o1, rfl, rfl, rfl, hne⟩

/-- C9: for the file of `256*1024 + 1` bytes `handleFile` returns an object with one link of
size 262145 tagged `link`, not two links of sizes 262144 and 1 tagged `blob`: the height
computed by the float loop is 90, so the two-chunk list is wrapped in 89 single-link lists. -/
theorem handleFile_bigBytes_shape :
    ∃ o s, handleFile lpCodec id bigBytes.length bigBytes [] = some (o, s) ∧
      o.Links.length = 1 ∧ o.Links.map Link.Size = [CHUNK_SIZE + 1] ∧ o.Data = LIST ∧
      LIST ≠ BLOB ++ BLOB := by
  obtain ⟨o, rs, child, e1, e2, e3, _⟩ := fileReqs_single_link lpCodec id bigBytes bigBytes_length
  refine ⟨o, persist lpCodec id rs [], ?_, ?_, ?_, e3, by decide⟩
  · rw [handleFile_eq, e1]; rfl
  · rw [e2]; rfl
  · rw [e2]
    simp only [List.map_cons, List.map_nil]
    unfold bigBytes
    rw [List.length_replicate]

/-! ## Tag alignment -/

theorem tagsOf_append {α : Type} (tag : α → Bytes) (a b : List α) :
    tagsOf tag (a ++ b) = tagsOf tag a ++ tagsOf tag b := by
  induction a with
  | nil => rfl
  | cons k ks ih => simp [tagsOf, ih]

theorem tagsOf_length {α : Type} (tag : α → Bytes) (ks : List α)
    (htag : ∀ k ∈ ks, (tag k).length = 4) : (tagsOf tag ks).length = 4 * ks.length := by
  induction ks with
  | nil => rfl
  | cons k ks ih =>
    have h1 := htag k (List.mem_cons_self k ks)
    have h2 := ih (fun x hx => htag x (List.mem_cons_of_mem k hx))
    simp only [tagsOf, List.length_append, List.length_cons, h1, h2]
    omega

theorem tagsOf_slice {α : Type} (tag : α → Bytes) (ks : List α)
    (htag : ∀ k ∈ ks, (tag k).length = 4) : ∀ (i : Nat) (hi : i < ks.length),
      slice (tagsOf tag ks) (4 * i) (4 * i + 4) = tag ks[i] := by
  induction ks with
  | nil => intro i hi; simp at hi
  | cons k ks ih =>
    intro i hi
    have h1 := htag k (List.mem_cons_self k ks)
    cases i with
    | zero =>
      simp only [tagsOf, List.getElem_cons_zero]
      have := slice_mid [] (tag k) (tagsOf tag ks)
      simpa [h1] using this
    | succ j =>
      simp only [tagsOf, List.getElem_cons_succ]
      have hj : j < ks.length := by simpa using hi
      rw [← ih (fun x hx => htag x (List.mem_cons_of_mem k hx)) j hj, slice_eq, slice_eq]
      have e1 : 4 * (j + 1) = (tag k).length + 4 * j := by rw [h1]; omega
      have e2 : 4 * (j + 1) + 4 - 4 * (j + 1) = 4 * j + 4 - 4 * j := by omega
      rw [e2, e1, ← List.drop_drop, List.drop_left]

theorem tagsAt_of_joined (c : Codec) (h : Bytes → Bytes) (obj : Object) {α : Type}
    (ks : List α) (objOf : α → Object) (tag : α → Bytes)
    (htag : ∀ k ∈ ks, (tag k).length = 4)
    (hj : Joined c h obj ks objOf tag) : TagsAt c h obj ks objOf tag := by
  obtain ⟨h1, h2⟩ := hj
  have hlen : obj.Links.length = ks.length := by
    have := congrArg List.length h1
    simpa using this
  refine ⟨hlen, ?_, fun i hi => ⟨?_, ?_⟩⟩
  · rw [h2, tagsOf_length tag ks htag, hlen]
  · rw [h1, List.getElem?_map, List.getElem?_eq_getElem hi]
    rfl
  · rw [h2]
    exact tagsOf_slice tag ks htag i hi

theorem listTag_length (k : Object) : (listTag k).length = 4 := by
  unfold listTag
  split <;> rfl

theorem Joined.snoc (c : Codec) (h : Bytes → Bytes) (obj : Object) {α : Type} (ks : List α)
    (objOf : α → Object) (tag : α → Bytes) (hj : Joined c h obj ks objOf tag) (k : α)
    (name : String) (size : Nat) :
    Joined c h
      { Links := obj.Links ++ [{ Name := name, Hash := h (c.marshal (objOf k)), Size := size }],
        Data := obj.Data ++ tag k } (ks ++ [k]) objOf tag := by
  obtain ⟨h1, h2⟩ := hj
  refine ⟨?_, ?_⟩
  · simp [h1]
  · simp [h2, tagsOf_append, tagsOf]

theorem chunkReqs_joined (c : Codec) (h : Bytes → Bytes) (bytes : Bytes) (n : Nat) :
    ∀ (obj : Object) (lendata start : Nat) (ks : List Object),
      Joined c h obj ks id listTag →
        ∃ more, Joined c h (chunkReqs c h bytes n obj lendata start).1 (ks ++ more) id listTag := by
  induction n with
  | zero =>
    intro obj lendata start ks hj
    exact ⟨[], by simpa [chunkReqs] using hj⟩
  | succ n ih =>
    intro obj lendata start ks hj
    simp only [chunkReqs]
    generalize hstop : (if start + CHUNK_SIZE > bytes.length then bytes.length
      else start + CHUNK_SIZE) = stop
    have hstep := Joined.snoc c h obj ks id listTag hj
      { Links := [], Data := slice bytes start stop } "" (slice bytes start stop).length
    have htag : listTag { Links := [], Data := slice bytes start stop } = BLOB := rfl
    rw [htag] at hstep
    split
    · exact ⟨[{ Links := [], Data := slice bytes start stop }], hstep⟩
    · obtain ⟨more, hm⟩ := ih _ (lendata + (slice bytes start stop).length)
        (start + CHUNK_SIZE) _ hstep
      refine ⟨{ Links := [], Data := slice bytes start stop } :: more, ?_⟩
      simpa [List.append_assoc] using hm

theorem levelReqs_joined (c : Codec) (h : Bytes → Bytes) (bytes : Bytes)
    (child : Nat → Option (Object × Nat × List Req)) (n : Nat) :
    ∀ (obj : Object) (lendata start : Nat) (res : Object × Nat × List Req) (ks : List Object),
      levelReqs c h bytes child n obj lendata start = some res →
        Joined c h obj ks id listTag → ∃ more, Joined c h res.1 (ks ++ more) id listTag := by
  induction n with
  | zero =>
    intro obj lendata start res ks hres hj
    simp only [levelReqs, Option.some.injEq] at hres
    subst hres
    exact ⟨[], by simpa using hj⟩
  | succ n ih =>
    intro obj lendata start res ks hres hj
    simp only [levelReqs] at hres
    split at hres
    · simp only [Option.some.injEq] at hres
      subst hres
      exact ⟨[], by simpa using hj⟩
    · cases hch : child start with
      | none => simp [hch] at hres
      | some q =>
        obtain ⟨o, m, rs⟩ := q
        simp only [hch] at hres
        cases hrec : levelReqs c h bytes child n
            { Links := obj.Links ++ [{ Name := "", Hash := computeHash (c.marshal o) h, Size := m }],
              Data := if o.Links = [] then obj.Data ++ BLOB else obj.Data ++ LIST }
            (lendata + m) (start + m) with
        | none => simp [hrec] at hres
        | some q2 =>
          simp only [hrec, Option.some.injEq] at hres
          subst hres
          have hstep := Joined.snoc c h obj ks id listTag hj o "" m
          have hd : (if o.Links = [] then obj.Data ++ BLOB else obj.Data ++ LIST) =
              obj.Data ++ listTag o := by
            unfold listTag
            split <;> rfl
          rw [hd] at hrec
          obtain ⟨more, hm⟩ := ih _ _ _ q2 _ hrec hstep
          exact ⟨o :: more, by simpa [List.append_assoc] using hm⟩

theorem dfsReqs_joined (c : Codec) (h : Bytes → Bytes) (height : Nat) :
    ∀ (bytes : Bytes) (start : Nat) (res : Object × Nat × List Req),
      dfsReqs c h height bytes start = some res →
        ∀ r ∈ res.2.2, r.1.Links ≠ [] → ∃ ks : List Object, Joined c h r.1 ks id listTag := by
  induction height using Nat.strong_induction_on with
  | _ height ih =>
    intro bytes start res hres r hr hne
    have hempty : Joined c h emptyObject ([] : List Object) id listTag := ⟨rfl, rfl⟩
    match height with
    | 0 =>
      simp only [dfsReqs] at hres
      split at hres
      · simp at hres; subst hres; simp at hr; subst hr
        exact absurd rfl hne
      · simp at hres
    | 1 =>
      simp only [dfsReqs] at hres
      split at hres
      · simp at hres
      · split at hres
        · simp at hres; subst hres; simp at hr; subst hr
          exact absurd rfl hne
        · simp at hres; subst hres
          rcases List.mem_append.1 hr with hr | hr
          · exact absurd (chunkReqs_reqs c h bytes _ _ _ _ r hr).1 hne
          · simp at hr; subst hr
            obtain ⟨more, hm⟩ := chunkReqs_joined c h bytes MAX_LISTLINE emptyObject 0 start []
              hempty
            exact ⟨_, hm⟩
    | k + 2 =>
      simp only [dfsReqs] at hres
      cases hl : levelReqs c h bytes (fun start => dfsReqs c h (k + 1) bytes start) MAX_LISTLINE
          emptyObject 0 start with
      | none => simp [hl] at hres
      | some q =>
        simp only [hl, Option.some.injEq] at hres
        subst hres
        rcases List.mem_append.1 hr with hr | hr
        · exact levelReqs_reqs c h bytes _
            (fun r => r.1.Links ≠ [] → ∃ ks : List Object, Joined c h r.1 ks id listTag)
            (fun s res hs => ih (k + 1) (by omega) bytes s res hs) _ _ _ _ q hl r hr hne
        · simp at hr; subst hr
          obtain ⟨more, hm⟩ := levelReqs_joined c h bytes _ _ _ _ _ q [] hl hempty
          exact ⟨_, hm⟩

theorem treeObj_joined (c : Codec) (h : Bytes → Bytes) (children : List Node) :
    Joined c h (treeObj c h children) (entries children) (nodeObj c h) (nodeTag c h) := by
  induction children with
  | nil => exact ⟨rfl, rfl⟩
  | cons node rest ih =>
    obtain ⟨h1, h2⟩ := ih
    simp only [treeObj] at h1 h2
    cases node with
    | file name size bytes =>
      refine ⟨?_, ?_⟩
      · simp [treeObj, treeLinks, entries, Node.linkName, List.filter, nodeLink] at h1 ⊢
        exact h1
      · simp [treeObj, treeData, entries, Node.linkName, List.filter, tagsOf] at h2 ⊢
        exact h2
    | dir name size cs =>
      refine ⟨?_, ?_⟩
      · simp [treeObj, treeLinks, entries, Node.linkName, List.filter, nodeLink] at h1 ⊢
        exact h1
      · simp [treeObj, treeData, entries, Node.linkName, List.filter, tagsOf] at h2 ⊢
        exact h2
    | other name size =>
      refine ⟨?_, ?_⟩
      · simp [treeObj, treeLinks, entries, Node.linkName, List.filter] at h1 ⊢
        exact h1
      · simp [treeObj, treeData, entries, Node.linkName, List.filter] at h2 ⊢
        exact h2

theorem entries_tag_length (c : Codec) (h : Bytes → Bytes) (children : List Node) :
    ∀ k ∈ entries children, (nodeTag c h k).length = 4 := by
  intro k hk
  have hs : k.linkName.isSome = true := (List.mem_filter.1 hk).2
  apply nodeTag_length
  intro name size hk2
  subst hk2
  simp [Node.linkName] at hs

theorem fileReqs_joined (c : Codec) (h : Bytes → Bytes) (size : Nat) (bytes : Bytes)
    (res : Object × List Req) (hres : fileReqs c h size bytes = some res) :
    ∀ r ∈ res.2, r.1.Links ≠ [] → ∃ ks : List Object, Joined c h r.1 ks id listTag := by
  unfold fileReqs at hres
  split at hres
  · cases hH : computeHeight size with
    | none => simp [hH] at hres
    | some H =>
      simp only [hH] at hres
      cases hd : dfsReqs c h H bytes 0 with
      | none => simp [hd] at hres
      | some q =>
        simp only [hd, Option.some.injEq] at hres
        subst hres
        exact dfsReqs_joined c h H bytes 0 q hd
  · simp only [Option.some.injEq] at hres
    subst hres
    intro r hr hne
    simp at hr
    subst hr
    exact absurd rfl hne

theorem nodeReqs_joined (c : Codec) (h : Bytes → Bytes) (node : Node) :
    ∀ r ∈ nodeReqs c h node, r.1.Links ≠ [] →
      (∃ kids : List Object, Joined c h r.1 kids id listTag) ∨
      (∃ children : List Node, r.1 = treeObj c h children) := by
  induction node using Node.induct with
  | hfile name size bytes =>
    intro r hr hne
    obtain ⟨res, hres⟩ := fileReqs_isSome c h size bytes
    have := fileReqs_joined c h size bytes res hres
    simp only [nodeReqs, addReqs, hres, Option.map_some', Option.getD_some] at hr
    exact Or.inl (this r hr hne)
  | hother name size => intro r hr; simp [nodeReqs, addReqs] at hr
  | hdir name size children ih =>
    intro r hr hne
    rw [nodeReqs_dir] at hr
    rcases List.mem_append.1 hr with hr | hr
    · obtain ⟨x, hx, hrx⟩ := (treeReqs_mem c h children r).1 hr
      exact ih x hx r hrx hne
    · simp at hr; subst hr
      exact Or.inr ⟨children, rfl⟩

/-- C5, as stated, fails: the first child of `sampleTree` is the empty directory `a`. The
root object is persisted with non-empty links; its first link references the object of `a`,
which has no links, yet the first tag is `tree`, not `blob`. -/
theorem Add_tag_empty_dir :
    (nodeObj lpCodec id sampleTree, LIST) ∈ nodeReqs lpCodec id sampleTree ∧
      (nodeObj lpCodec id sampleTree).Links ≠ [] ∧
      ((nodeObj lpCodec id sampleTree).Links.map Link.Hash)[0]? =
        some (id (lpCodec.marshal (nodeObj lpCodec id (Node.dir "a" 0 [])))) ∧
      (nodeObj lpCodec id (Node.dir "a" 0 [])).Links = [] ∧
      slice (nodeObj lpCodec id sampleTree).Data 0 4 = TREE ∧
      slice (nodeObj lpCodec id sampleTree).Data 0 4 ≠ BLOB := by
  decide

/-- C5, amended: `Add` returns on every node, and every object with non-empty links among
its persist requests has four bytes of data per link and is either a list whose i-th link
references an object `kids[i]` and whose i-th tag is `blob` when `kids[i]` has no links and
`link` otherwise, or the tree of a directory whose i-th link references the object of the
i-th entry and whose i-th tag is `tree` when the entry is a directory (also an empty one)
and, when the entry is a file, `blob` when the object of the file has no links and `link`
otherwise. -/
theorem Add_tags_aligned (c : Codec) (h : Bytes → Bytes) (node : Node) (store : Store)
    (r : Req) (hr : r ∈ nodeReqs c h node) (hne : r.1.Links ≠ []) :
    Add c store node h =
        some (h (c.marshal (nodeObj c h node)), persist c h (nodeReqs c h node) store) ∧
      ((∃ kids : List Object, TagsAt c h r.1 kids id listTag) ∨
        (∃ children : List Node, r.1 = treeObj c h children ∧
          TagsAt c h r.1 (entries children) (nodeObj c h) (nodeTag c h))) := by
  refine ⟨Add_total c h node store, ?_⟩
  rcases nodeReqs_joined c h node r hr hne with ⟨kids, hk⟩ | ⟨children, hc⟩
  · exact Or.inl ⟨kids, tagsAt_of_joined c h r.1 kids id listTag
      (fun k _ => listTag_length k) hk⟩
  · refine Or.inr ⟨children, hc, ?_⟩
    rw [hc]
    exact tagsAt_of_joined c h _ _ _ _ (entries_tag_length c h children)
      (treeObj_joined c h children)

theorem Add_tags_aligned_witness :
    Add lpCodec [] sampleTree id =
        some (id (lpCodec.marshal (nodeObj lpCodec id sampleTree)),
          persist lpCodec id (nodeReqs lpCodec id sampleTree) []) ∧
      ((∃ kids : List Object,
          TagsAt lpCodec id (nodeObj lpCodec id sampleTree, LIST).1 kids id listTag) ∨
        (∃ children : List Node,
          (nodeObj lpCodec id sampleTree, LIST).1 = treeObj lpCodec id children ∧
          TagsAt lpCodec id (nodeObj lpCodec id sampleTree, LIST).1 (entries children)
            (nodeObj lpCodec id) (nodeTag lpCodec id))) :=
  Add_tags_aligned lpCodec id sampleTree [] (nodeObj lpCodec id sampleTree, LIST)
    (by decide) (by decide)

/-! ## Retrieval on an arbitrary path -/

theorem fuel_bound {α : Type} (P : α → Nat → Prop) (l : List α)
    (hl : ∀ x ∈ l, ∃ n, ∀ f, n ≤ f → P x f) : ∃ N, ∀ x ∈ l, ∀ f, N ≤ f → P x f := by
  induction l with
  | nil => exact ⟨0, fun x hx => by simp at hx⟩
  | cons a rest ih =>
    obtain ⟨n, hn⟩ := hl a (List.mem_cons_self a rest)
    obtain ⟨N, hN⟩ := ih (fun x hx => hl x (List.mem_cons_of_mem a hx))
    refine ⟨max n N, fun x hx f hf => ?_⟩
    rcases List.mem_cons.1 hx with rfl | hx
    · exact hn f (le_trans (le_max_left n N) hf)
    · exact hN x hx f (le_trans (le_max_right n N) hf)

theorem putObjInStore_empty_key (c : Codec) (h : Bytes → Bytes)
    (hinj : ∀ a b, h (c.marshal a) = h (c.marshal b) → a = b) (r : Req) (store : Store)
    (hinv : ∀ v, store.lookup (h (c.marshal emptyObject)) = some v →
      v = [] ∨ v = c.marshal emptyObject) :
    ∀ v, (putObjInStore c r.1 store h r.2).lookup (h (c.marshal emptyObject)) = some v →
      v = [] ∨ v = c.marshal emptyObject := by
  obtain ⟨ro, rt⟩ := r
  intro v hv
  unfold putObjInStore computeHash at hv
  simp only at hv
  by_cases hhas : store.Has (h (c.marshal ro)) = true
  · simp only [hhas, if_true] at hv
    exact hinv v hv
  · simp only [hhas] at hv
    by_cases hk : h (c.marshal emptyObject) = h (c.marshal ro)
    · have ho := hinj _ _ hk
      subst ho
      by_cases hb : rt = BLOB
      · simp [hb, lookup_put] at hv
        exact Or.inl (by rw [← hv]; rfl)
      · simp [hb, lookup_put] at hv
        exact Or.inr hv.symm
    · by_cases hb : rt = BLOB
      · simp [hb, lookup_put, hk] at hv
        exact hinv v hv
      · simp [hb, lookup_put, hk] at hv
        exact hinv v hv

theorem persist_empty_key (c : Codec) (h : Bytes → Bytes)
    (hinj : ∀ a b, h (c.marshal a) = h (c.marshal b) → a = b) (reqs : List Req) :
    ∀ (store : Store),
      (∀ v, store.lookup (h (c.marshal emptyObject)) = some v →
        v = [] ∨ v = c.marshal emptyObject) →
      ∀ v, (persist c h reqs store).lookup (h (c.marshal emptyObject)) = some v →
        v = [] ∨ v = c.marshal emptyObject := by
  induction reqs with
  | nil => intro store hinv; simpa [persist] using hinv
  | cons r rest ih =>
    intro store hinv
    simp only [persist]
    exact ih _ (putObjInStore_empty_key c h hinj r store hinv)

theorem Add_empty_key (c : Codec) (h : Bytes → Bytes)
    (hrt : ∀ o, c.unmarshal (c.marshal o) = o) (hnil : c.unmarshal [] = emptyObject)
    (hinj : ∀ a b, h (c.marshal a) = h (c.marshal b) → a = b) (reqs : List Req) :
    c.unmarshal ((persist c h reqs []).Get (h (c.marshal emptyObject))) = emptyObject := by
  unfold Store.Get
  cases hl : (persist c h reqs []).lookup (h (c.marshal emptyObject)) with
  | none => simpa using hnil
  | some v =>
    rcases persist_empty_key c h hinj reqs [] (fun v hv => by simp at hv) v hl with hv | hv
    · simpa [hv] using hnil
    · simp [hv, hrt]

theorem treeObj_of_links_nil (c : Codec) (h : Bytes → Bytes) (children : List Node)
    (hl : treeLinks c h children = []) : treeObj c h children = emptyObject := by
  have hd : (treeData c h children).length = 0 := by
    rw [treeData_length, hl]; rfl
  have hd2 : treeData c h children = [] := List.length_eq_zero.1 hd
  simp [treeObj, emptyObject, hl, hd2]

/-- Fetching the object of a directory: the store gives back the tree object of the
children, also when it is the zero object. -/
theorem tree_fetch (c : Codec) (h : Bytes → Bytes) (store : Store)
    (hrt : ∀ o, c.unmarshal (c.marshal o) = o)
    (hE : c.unmarshal (store.Get (h (c.marshal emptyObject))) = emptyObject)
    (name : String) (size : Nat) (children : List Node)
    (hg : GoodStore c h store (nodeReqs c h (Node.dir name size children))) :
    c.unmarshal (store.Get (h (c.marshal (treeObj c h children)))) = treeObj c h children := by
  by_cases hl : treeLinks c h children = []
  · rw [treeObj_of_links_nil c h children hl]
    exact hE
  · have hne := treeObj_ne_empty c h children hl
    have hs : Stored c h store (treeObj c h children) := by
      refine hg (treeObj c h children, LIST) ?_ hne
      rw [nodeReqs_dir]
      simp
    have hl2 : (treeObj c h children).Links ≠ [] := hl
    rw [hs.get]
    simp only [storedValue, hl2, if_false, hrt]

theorem drop_eq_getD_cons (pathArr : List String) (cur : Nat) (hc : cur < pathArr.length) :
    pathArr.drop cur = pathArr.getD cur "" :: pathArr.drop (cur + 1) := by
  rw [List.drop_eq_getElem_cons hc]
  congr 1
  simp [List.getD, List.getElem?_eq_getElem hc]

/-- The scan of `getFileByDir` over the entries of a directory returns when the recursive
calls on the entries named `seg` return; a non-empty answer comes from such an entry. -/
theorem dirScan_total (c : Codec) (h : Bytes → Bytes) (recDir recList : Object → Option Bytes)
    (store : Store) (seg : String) (R : Prop) (tail : List Node)
    (hdir : ∀ n s cs, Node.dir n s cs ∈ tail → n = seg →
      ∃ ans, recDir (c.unmarshal (store.Get (h (c.marshal (treeObj c h cs))))) = some ans ∧
        (ans ≠ [] → R))
    (hfile : ∀ n s b, Node.file n s b ∈ tail → n = seg →
      R ∧ ((nodeObj c h (Node.file n s b)).Links ≠ [] →
        ∃ ans, recList (c.unmarshal (store.Get (h (c.marshal (nodeObj c h (Node.file n s b))))))
          = some ans)) :
    ∀ d0 : Bytes, ∃ ans,
      dirScan c recDir recList store (d0 ++ treeData c h tail) seg (treeLinks c h tail)
          d0.length = some ans ∧ (ans ≠ [] → R) := by
  induction tail with
  | nil =>
    intro d0
    exact ⟨[], by simp [treeLinks, dirScan], fun hne => absurd rfl hne⟩
  | cons x rest ih =>
    have ih2 := ih (fun n s cs hm => hdir n s cs (List.mem_cons_of_mem x hm))
      (fun n s b hm => hfile n s b (List.mem_cons_of_mem x hm))
    intro d0
    have hBT : BLOB ≠ TREE := by decide
    have hLT : LIST ≠ TREE := by decide
    cases x with
    | other name size =>
      simp only [treeData, treeLinks]
      exact ih2 d0
    | file n s b =>
      have hlen := nodeTag_length c h (Node.file n s b) (fun _ _ hh => by cases hh)
      have hnext := ih2 (d0 ++ nodeTag c h (Node.file n s b))
      rw [List.length_append, hlen, List.append_assoc] at hnext
      simp only [treeData, treeLinks]
      rw [dirScan_step c recDir recList store d0 _ _ hlen]
      have hname : (nodeLink c h (Node.file n s b)).Name = n := rfl
      rw [hname]
      by_cases hn : n = seg
      · rw [if_neg (not_not.2 hn)]
        obtain ⟨hR, hrec⟩ := hfile n s b (List.mem_cons_self _ _) hn
        by_cases hl : (nodeObj c h (Node.file n s b)).Links = []
        · have htag : nodeTag c h (Node.file n s b) = BLOB := by simp [nodeTag, hl]
          rw [htag, if_neg hBT, if_pos rfl]
          exact ⟨_, rfl, fun _ => hR⟩
        · have htag : nodeTag c h (Node.file n s b) = LIST := by simp [nodeTag, hl]
          rw [htag, if_neg hLT, if_neg BLOB_ne_LIST, if_pos rfl]
          obtain ⟨ans, hans⟩ := hrec hl
          exact ⟨ans, hans, fun _ => hR⟩
      · rw [if_pos hn]
        exact hnext
    | dir n s cs =>
      have hlen : (nodeTag c h (Node.dir n s cs)).length = 4 := rfl
      have hnext := ih2 (d0 ++ nodeTag c h (Node.dir n s cs))
      rw [List.length_append, hlen, List.append_assoc] at hnext
      simp only [treeData, treeLinks]
      rw [dirScan_step c recDir recList store d0 _ _ hlen]
      have hname : (nodeLink c h (Node.dir n s cs)).Name = n := rfl
      have hhash : (nodeLink c h (Node.dir n s cs)).Hash = h (c.marshal (treeObj c h cs)) := by
        simp [nodeLink, nodeObj_dir]
      have htag : nodeTag c h (Node.dir n s cs) = TREE := rfl
      rw [hname, hhash]
      by_cases hn : n = seg
      · rw [if_neg (not_not.2 hn), if_pos htag]
        obtain ⟨ans, hans, hR⟩ := hdir n s cs (List.mem_cons_self _ _) hn
        rw [hans]
        by_cases he : ans = []
        · simp only [he, ne_eq, not_true_eq_false, if_false]
          exact hnext
        · simp only [ne_eq, he, not_false_eq_true, if_true]
          exact ⟨ans, rfl, hR⟩
      · rw [if_pos hn]
        exact hnext

theorem dfsReqs_nil_bytes (c : Codec) (h : Bytes → Bytes) (height : Nat) (hh : 1 ≤ height)
    (res : Object × Nat × List Req) (hres : dfsReqs c h height [] 0 = some res) :
    res.1.Links = [] := by
  match height, hh with
  | 1, _ =>
    simp only [dfsReqs] at hres
    have hc : 0 - 0 < CHUNK_SIZE := CHUNK_SIZE_pos
    simp only [List.length_nil, gt_iff_lt, Nat.lt_irrefl, if_false] at hres
    rw [if_pos hc] at hres
    simp only [Option.some.injEq] at hres
    rw [← hres]
  | k + 2, _ =>
    have hM : MAX_LISTLINE = 4095 + 1 := rfl
    simp only [dfsReqs] at hres
    rw [hM, levelReqs] at hres
    simp only [List.length_nil, ge_iff_le, Nat.le_refl, if_true, Option.some.injEq] at hres
    rw [← hres]
    rfl

theorem file_list_returns (c : Codec) (h : Bytes → Bytes) (store : Store)
    (hrt : ∀ o, c.unmarshal (c.marshal o) = o) (n : String) (s : Nat) (b : Bytes)
    (hg : GoodStore c h store (nodeReqs c h (Node.file n s b))) :
    ∃ H, ∀ f, H ≤ f → (nodeObj c h (Node.file n s b)).Links ≠ [] →
      ∃ ans, getFileByList c f
        (c.unmarshal (store.Get (h (c.marshal (nodeObj c h (Node.file n s b)))))) store
          = some ans := by
  obtain ⟨res, hres⟩ := fileReqs_isSome c h s b
  have hobj : nodeObj c h (Node.file n s b) = res.1 := by simp [nodeObj, addReqs, hres]
  have hrs : nodeReqs c h (Node.file n s b) = res.2 := by simp [nodeReqs, addReqs, hres]
  rw [hobj]
  rw [hrs] at hg
  unfold fileReqs at hres
  split at hres
  · obtain ⟨H, hH, hH1, _⟩ := computeHeight_total s
    simp only [hH] at hres
    cases hd : dfsReqs c h H b 0 with
    | none => simp [hd] at hres
    | some q =>
      obtain ⟨o, m, rs⟩ := q
      simp only [hd, Option.some.injEq] at hres
      subst hres
      simp only at hg ⊢
      refine ⟨H, fun f hf hl => ?_⟩
      by_cases hb : b = []
      · subst hb
        exact absurd (dfsReqs_nil_bytes c h H hH1 _ hd) hl
      · have hpos : 0 < b.length := List.length_pos.2 hb
        have hspec := (dfsReqs_spec c h b store hrt H 0 o m rs hH1 hpos hd hg f hf).2 hl
        obtain ⟨t, ht⟩ := dfsReqs_last c h H b 0 _ hd
        have hoe : o ≠ emptyObject := fun he => hl (by rw [he]; rfl)
        have hstored : Stored c h store o := hg (o, t) ht hoe
        rw [hstored.get]
        simp only [storedValue, hl, if_false, hrt]
        exact ⟨_, hspec⟩
  · simp only [Option.some.injEq] at hres
    subst hres
    exact ⟨0, fun f _ hl => absurd rfl hl⟩

/-- Retrieval returns on every tree object of a build and every path, whatever sizes the
files are recorded with: with enough fuel
`getFileByDir` gives an answer, and a non-empty answer comes with a chain of names from the
children to a file, the names being the path segments from the cursor on. -/
theorem getFileByDir_returns (c : Codec) (h : Bytes → Bytes) (store : Store)
    (hrt : ∀ o, c.unmarshal (c.marshal o) = o)
    (hE : c.unmarshal (store.Get (h (c.marshal emptyObject))) = emptyObject)
    (pathArr : List String) (node : Node) :
    ∀ name size children, node = Node.dir name size children →
      GoodStore c h store (nodeReqs c h node) →
      ∀ cur, ∃ n0, ∀ fuel, n0 ≤ fuel → ∃ ans,
        getFileByDir c fuel (treeObj c h children) pathArr cur store = some ans ∧
          (ans ≠ [] → ∃ names fname fsize bytes,
            Chain children names (Node.file fname fsize bytes) ∧
              names <+: pathArr.drop cur) := by
  induction node using Node.induct with
  | hfile name size bytes => intro _ _ _ he; cases he
  | hother name size => intro _ _ _ he; cases he
  | hdir name size children ih =>
    intro name2 size2 children2 he hg cur
    cases he
    have hgc : GoodStore c h store (treeReqs c h children) := by
      intro r hr
      apply hg r
      rw [nodeReqs_dir]
      exact List.mem_append_left _ hr
    by_cases hc : cur ≥ pathArr.length
    · refine ⟨1, fun fuel hf => ?_⟩
      obtain ⟨f, rfl⟩ : ∃ f, fuel = f + 1 := ⟨fuel - 1, by omega⟩
      refine ⟨[], ?_, fun hne => absurd rfl hne⟩
      simp only [getFileByDir, hc, if_true]
    · have hc2 : cur < pathArr.length := by omega
      have hdrop := drop_eq_getD_cons pathArr cur hc2
      obtain ⟨N, hN⟩ := fuel_bound
        (fun (x : Node) (f : Nat) =>
          (∀ n s cs, x = Node.dir n s cs → n = pathArr.getD cur "" →
            ∃ ans, getFileByDir c f (c.unmarshal (store.Get (h (c.marshal (treeObj c h cs)))))
                pathArr (cur + 1) store = some ans ∧
              (ans ≠ [] → ∃ names fname fsize bytes,
                Chain children names (Node.file fname fsize bytes) ∧
                  names <+: pathArr.drop cur)) ∧
          (∀ n s b, x = Node.file n s b → (nodeObj c h (Node.file n s b)).Links ≠ [] →
            ∃ ans, getFileByList c f
              (c.unmarshal (store.Get (h (c.marshal (nodeObj c h (Node.file n s b)))))) store
                = some ans))
        children (by
          intro x hx
          have hgx := nodeReqs_sub c h store children x hx hgc
          cases x with
          | other n s =>
            exact ⟨0, fun f _ => ⟨fun _ _ _ he => (by cases he), fun _ _ _ he => (by cases he)⟩⟩
          | file n s b =>
            obtain ⟨H, hH⟩ := file_list_returns c h store hrt n s b hgx
            refine ⟨H, fun f hf => ⟨fun _ _ _ he => (by cases he), fun n2 s2 b2 he => ?_⟩⟩
            cases he
            exact hH f hf
          | dir n s cs =>
            obtain ⟨n0, hn0⟩ := ih _ hx n s cs rfl hgx (cur + 1)
            refine ⟨n0, fun f hf => ⟨fun n2 s2 cs2 he hseg => ?_, fun _ _ _ he => (by cases he)⟩⟩
            cases he
            rw [tree_fetch c h store hrt hE n s cs hgx]
            obtain ⟨ans, hans, hch⟩ := hn0 f hf
            refine ⟨ans, hans, fun hne => ?_⟩
            obtain ⟨names, fname, fsize, bytes, hchain, hpre⟩ := hch hne
            refine ⟨n :: names, fname, fsize, bytes, Chain.step hx hchain, ?_⟩
            rw [hdrop, hseg]
            exact (List.cons_prefix_cons).2 ⟨rfl, hpre⟩)
      refine ⟨N + 1, fun fuel hf => ?_⟩
      obtain ⟨f, rfl⟩ : ∃ f, fuel = f + 1 := ⟨fuel - 1, by omega⟩
      have hfN : N ≤ f := by omega
      simp only [getFileByDir, hc, if_false]
      have hscan := dirScan_total c h
        (fun o => getFileByDir c f o pathArr (cur + 1) store)
        (fun o => getFileByList c f o store) store (pathArr.getD cur "")
        (∃ names fname fsize bytes,
          Chain children names (Node.file fname fsize bytes) ∧ names <+: pathArr.drop cur)
        children
        (fun n s cs hm hseg => (hN _ hm f hfN).1 n s cs rfl hseg)
        (fun n s b hm hseg => ⟨⟨[n], n, s, b, Chain.here hm rfl, by
            rw [hdrop, hseg]
            exact (List.cons_prefix_cons).2 ⟨rfl, List.nil_prefix⟩⟩,
          fun hl => (hN _ hm f hfN).2 n s b rfl hl⟩) []
      simpa [treeObj] using hscan

/-- C6, amended: for every directory tree built with `Add` into the empty store and every
path string, `Hash2File` on the root hash returns for every recursion bound from some bound
on, and it returns a non-empty result only if some prefix of the path segments after the
first is exactly the names along a chain from the root directory to a file. A wrong name at
a directory level and a path ending at a directory give the empty result; segments after
the name of a file are not looked at. The encoding is decodable, the empty input decodes to
the zero object, and the hash of the encoding is collision-free. -/
theorem Hash2File_notfound (c : Codec) (h : Bytes → Bytes)
    (hrt : ∀ o, c.unmarshal (c.marshal o) = o) (hnil : c.unmarshal [] = emptyObject)
    (hinj : ∀ a b, h (c.marshal a) = h (c.marshal b) → a = b)
    (rname : String) (rsize : Nat) (children : List Node)
    (path : String) :
    ∃ r s, Add c [] (Node.dir rname rsize children) h = some (r, s) ∧
      ∃ n0, ∀ fuel, n0 ≤ fuel → ∃ ans, Hash2File c fuel s r path = some ans ∧
        (ans ≠ [] → ∃ names fname fsize bytes,
          Chain children names (Node.file fname fsize bytes) ∧
            names <+: (Split path).drop 1) := by
  refine ⟨_, _, Add_total c h _ [], ?_⟩
  have hg := Add_good c h hinj (Node.dir rname rsize children)
  have hE := Add_empty_key c h hrt hnil hinj (nodeReqs c h (Node.dir rname rsize children))
  have hhas := persist_has c h (nodeReqs c h (Node.dir rname rsize children)) []
    (treeObj c h children, LIST) (by rw [nodeReqs_dir]; simp)
  rw [nodeObj_dir]
  generalize persist c h (nodeReqs c h (Node.dir rname rsize children)) [] = s at hg hE hhas ⊢
  have hfetch := tree_fetch c h s hrt hE rname rsize children hg
  obtain ⟨n0, hn0⟩ := getFileByDir_returns c h s hrt hE (Split path)
    (Node.dir rname rsize children) rname rsize children rfl hg 1
  refine ⟨n0, fun fuel hfuel => ?_⟩
  unfold Hash2File
  simp only at hhas
  simp only [hhas, if_true, hfetch]
  exact hn0 fuel hfuel

theorem Hash2File_notfound_witness :
    ∃ r s, Add lpCodec [] sampleTree id = some (r, s) ∧
      ∃ n0, ∀ fuel, n0 ≤ fuel → ∃ ans, Hash2File lpCodec fuel s r "/d/zzz" = some ans ∧
        (ans ≠ [] → ∃ names fname fsize bytes,
          Chain [Node.dir "a" 0 [], Node.file "b" 0 [],
              Node.file "hello.txt" 10 [97, 98, 99, 100, 101, 102, 103, 104, 105, 106],
              Node.dir "d" 2 [Node.file "c" 2 [7, 7]]] names (Node.file fname fsize bytes) ∧
            names <+: (Split "/d/zzz").drop 1) :=
  Hash2File_notfound lpCodec id lpCodec_roundtrip rfl lpCodec_inj "root" 0
    [Node.dir "a" 0 [], Node.file "b" 0 [],
      Node.file "hello.txt" 10 [97, 98, 99, 100, 101, 102, 103, 104, 105, 106],
      Node.dir "d" 2 [Node.file "c" 2 [7, 7]]]
    "/d/zzz"

/-! ## Persisting one object -/

/-- C11: `putObjInStore(obj, store, h, objType)` with `k` the hash of the encoding of `obj`:
when the store holds `k` the store is returned unchanged; otherwise the store afterwards
maps `k` to `obj.Data` when `objType` is `blob` and to the encoding of `obj` for any other
type, it reports `k` as present, and every other key has the value it had before. -/
theorem putObjInStore_post (c : Codec) (h : Bytes → Bytes) (obj : Object) (store : Store)
    (objType : Bytes) :
    (store.Has (computeHash (c.marshal obj) h) = true →
      putObjInStore c obj store h objType = store) ∧
    (store.Has (computeHash (c.marshal obj) h) = false →
      (putObjInStore c obj store h objType).lookup (computeHash (c.marshal obj) h) =
          some (if objType = BLOB then obj.Data else c.marshal obj) ∧
        (putObjInStore c obj store h objType).Has (computeHash (c.marshal obj) h) = true ∧
        ∀ k, k ≠ computeHash (c.marshal obj) h →
          (putObjInStore c obj store h objType).lookup k = store.lookup k) := by
  refine ⟨fun hhas => ?_, fun hhas => ?_⟩
  · simp [putObjInStore, hhas]
  · by_cases ht : objType = BLOB
    · simp only [putObjInStore, hhas, ht, if_true, Bool.false_eq_true, if_false]
      refine ⟨by simp [lookup_put], by simp [has_put], fun k hk => by simp [lookup_put, hk]⟩
    · simp only [putObjInStore, hhas, ht, Bool.false_eq_true, if_false]
      refine ⟨by simp [lookup_put], by simp [has_put], fun k hk => by simp [lookup_put, hk]⟩

theorem putObjInStore_post_witness :
    Store.Has [] (computeHash (lpCodec.marshal { Links := [], Data := [7] }) id) = false ∧
      (putObjInStore lpCodec { Links := [], Data := [7] } [] id BLOB).lookup
          (computeHash (lpCodec.marshal { Links := [], Data := [7] }) id) =
        some (if BLOB = BLOB then ({ Links := [], Data := [7] } : Object).Data
          else lpCodec.marshal { Links := [], Data := [7] }) :=
  ⟨by decide,
    ((putObjInStore_post lpCodec id { Links := [], Data := [7] } [] BLOB).2 (by decide)).1⟩

/-- C13: for a node whose type is neither FILE nor DIR, `Add` returns the hash of the
encoding of the zero object (no links, no data) and the store it was given, for every
store: nothing is written. -/
theorem Add_other (c : Codec) (h : Bytes → Bytes) (store : Store) (name : String) (size : Nat) :
    Add c store (Node.other name size) h =
      some (computeHash (c.marshal emptyObject) h, store) ∧
      emptyObject = { Links := [], Data := [] } := ⟨rfl, rfl⟩

/-! ## The first path segment -/

theorem getFileByDir_head (c : Codec) (store : Store) (a b : String) (rest : List String)
    (fuel : Nat) : ∀ (obj : Object) (cur : Nat),
      getFileByDir c fuel obj (a :: rest) (cur + 1) store =
        getFileByDir c fuel obj (b :: rest) (cur + 1) store := by
  induction fuel with
  | zero => intro obj cur; rfl
  | succ f ih =>
    intro obj cur
    have hrec : (fun o => getFileByDir c f o (a :: rest) (cur + 1 + 1) store) =
        (fun o => getFileByDir c f o (b :: rest) (cur + 1 + 1) store) := by
      funext o
      exact ih o (cur + 1)
    simp only [getFileByDir, List.length_cons, List.getD_cons_succ, hrec]

theorem Split_cons (p q : List Char) (hp : '/' ∉ p) :
    splitChars (p ++ '/' :: q) = p :: splitChars q :=
  splitChars_append p ('/' :: q) hp (splitChars q) (by simp [splitChars])

theorem splitChars_no_slash (p : List Char) (hp : '/' ∉ p) : splitChars p = [p] := by
  induction p with
  | nil => rfl
  | cons ch rest ih =>
    have hch : ch ≠ '/' := fun e => hp (by simp [e])
    have hrest : '/' ∉ rest := fun e => hp (List.mem_cons_of_mem _ e)
    simp [splitChars, hch, ih hrest]

/-- C20: the result of `Hash2File` depends only on the path segments after the first: two
paths whose segments agree from the second on give the same result, for every store, root
hash and recursion bound; so do `p1/q` and `p2/q` when `p1` and `p2` contain no `/`; and a
path without `/` gives the empty result. -/
theorem Hash2File_first_segment (c : Codec) (fuel : Nat) (store : Store) (hash : Bytes)
    (p1 p2 q : String) (h1 : '/' ∉ p1.data) (h2 : '/' ∉ p2.data) :
    (∀ path1 path2, (Split path1).tail = (Split path2).tail →
      Hash2File c fuel store hash path1 = Hash2File c fuel store hash path2) ∧
    Hash2File c fuel store hash (p1 ++ "/" ++ q) =
      Hash2File c fuel store hash (p2 ++ "/" ++ q) ∧
    Hash2File c (fuel + 1) store hash p1 = some [] := by
  have hgen : ∀ path1 path2, (Split path1).tail = (Split path2).tail →
      Hash2File c fuel store hash path1 = Hash2File c fuel store hash path2 := by
    intro path1 path2 ht
    have e1 : ∃ a t, Split path1 = a :: t := by
      unfold Split
      cases hs : splitChars path1.data with
      | nil => exact absurd hs (splitChars_ne_nil _)
      | cons x xs => exact ⟨_, _, rfl⟩
    have e2 : ∃ a t, Split path2 = a :: t := by
      unfold Split
      cases hs : splitChars path2.data with
      | nil => exact absurd hs (splitChars_ne_nil _)
      | cons x xs => exact ⟨_, _, rfl⟩
    obtain ⟨a, t, ha⟩ := e1
    obtain ⟨b, t2, hb⟩ := e2
    rw [ha, hb] at ht
    simp only [List.tail_cons] at ht
    subst ht
    unfold Hash2File
    simp only [ha, hb]
    split
    · exact getFileByDir_head c store a b t fuel _ 0
    · rfl
  refine ⟨hgen, hgen _ _ ?_, ?_⟩
  · have d1 : (p1 ++ "/" ++ q).data = p1.data ++ '/' :: q.data := by
      simp [String.data_append]
    have d2 : (p2 ++ "/" ++ q).data = p2.data ++ '/' :: q.data := by
      simp [String.data_append]
    simp only [Split, d1, d2, Split_cons _ _ h1, Split_cons _ _ h2, List.map_cons,
      List.tail_cons]
  · unfold Hash2File
    simp only [Split, splitChars_no_slash _ h1, List.map_cons, List.map_nil]
    split
    · simp [getFileByDir]
    · rfl

theorem Hash2File_first_segment_witness :
    (∀ path1 path2, (Split path1).tail = (Split path2).tail →
      Hash2File lpCodec 3 [([1], [0, 0])] [1] path1 = Hash2File lpCodec 3 [([1], [0, 0])] [1] path2) ∧
    Hash2File lpCodec 3 [([1], [0, 0])] [1] ("" ++ "/" ++ "hello.txt") =
      Hash2File lpCodec 3 [([1], [0, 0])] [1] ("root" ++ "/" ++ "hello.txt") ∧
    Hash2File lpCodec (3 + 1) [([1], [0, 0])] [1] "" = some [] :=
  Hash2File_first_segment lpCodec 3 [([1], [0, 0])] [1] "" "root" "hello.txt" (by decide) (by decide)

/-! ## No matching entry -/

theorem dirScan_no_match (c : Codec) (recDir recList : Object → Option Bytes) (store : Store)
    (data : Bytes) (seg : String) (links : List Link) :
    ∀ index, index + 4 * links.length ≤ data.length → (∀ l ∈ links, l.Name ≠ seg) →
      dirScan c recDir recList store data seg links index = some [] := by
  induction links with
  | nil => intro index _ _; rfl
  | cons l rest ih =>
    intro index hlen hno
    have hl : l.Name ≠ seg := hno l (List.mem_cons_self _ _)
    have hb : ¬ index + 4 > data.length := by
      simp only [List.length_cons] at hlen
      omega
    rw [dirScan, if_neg hb]
    simp only [hl, ne_eq, not_false_eq_true, if_true]
    refine ih (index + 4) ?_ (fun x hx => hno x (List.mem_cons_of_mem _ hx))
    simp only [List.length_cons] at hlen
    omega

/-- C14, as stated for every object, fails: an object with one link named `x` and no data
has no link named `y`, yet `getFileByDir` at the segment `y` does not return the empty
result: the tag slice `Data[0:4]` is taken before the name is compared and is out of
range. -/
theorem getFileByDir_short_data :
    (∀ l ∈ ({ Links := [{ Name := "x", Hash := [], Size := 0 }], Data := [] } : Object).Links,
      l.Name ≠ "y") ∧
    ∀ fuel, getFileByDir lpCodec fuel { Links := [{ Name := "x", Hash := [], Size := 0 }], Data := [] }
      ["", "y"] 1 [] = none := by
  refine ⟨by decide, fun fuel => ?_⟩
  cases fuel with
  | zero => rfl
  | succ f => rfl

/-- C14, amended: for every object with at least four bytes of data per link, every segment
array, cursor and store, `getFileByDir` returns the empty result when the cursor is at or
beyond the number of segments (here for every object) or no link is named as the segment at
the cursor. The tree that `handleDir` builds from a directory without children is the zero
object, and `Hash2File` on the root hash of such a directory, built into the empty store,
returns the empty result for every path; the encoding of the zero object is decodable. -/
theorem getFileByDir_no_match (c : Codec) (h : Bytes → Bytes) (fuel : Nat) (obj : Object)
    (pathArr : List String) (cur : Nat) (store : Store)
    (hrt : c.unmarshal (c.marshal emptyObject) = emptyObject)
    (hno : pathArr.length ≤ cur ∨
      (4 * obj.Links.length ≤ obj.Data.length ∧
        ∀ l ∈ obj.Links, l.Name ≠ pathArr.getD cur "")) :
    getFileByDir c (fuel + 1) obj pathArr cur store = some [] ∧
    (∀ name size, handleDir c h (Node.dir name size []) store =
      some (emptyObject, putObjInStore c emptyObject store h LIST)) ∧
    (∀ name size path, ∃ r s, Add c [] (Node.dir name size []) h = some (r, s) ∧
      s.Has r = true ∧ Hash2File c (fuel + 1) s r path = some []) := by
  refine ⟨?_, fun name size => rfl, fun name size path => ?_⟩
  · by_cases hc : cur ≥ pathArr.length
    · simp only [getFileByDir, hc, if_true]
    · rcases hno with hno | ⟨hal, hno⟩
      · exact absurd hno hc
      · simp only [getFileByDir, hc, if_false]
        exact dirScan_no_match c _ _ store obj.Data _ obj.Links 0 (by omega) hno
  · have hput : putObjInStore c emptyObject [] h LIST =
        Store.Put [] (h (c.marshal emptyObject)) (c.marshal emptyObject) := by
      simp [putObjInStore, computeHash, Store.Has, BLOB_ne_LIST]
    have hhas : Store.Has (putObjInStore c emptyObject [] h LIST)
        (computeHash (c.marshal emptyObject) h) = true :=
      putObjInStore_has c h emptyObject [] LIST
    have hget : Store.Get (putObjInStore c emptyObject [] h LIST)
        (computeHash (c.marshal emptyObject) h) = c.marshal emptyObject := by
      rw [hput]
      simp [Store.Get, lookup_put, computeHash]
    refine ⟨_, _, rfl, hhas, ?_⟩
    unfold Hash2File
    simp only [hhas, if_true, hget, hrt]
    by_cases hc : 1 ≥ (Split path).length
    · simp only [getFileByDir, hc, if_true]
    · simp only [getFileByDir, hc, if_false]
      rfl

theorem getFileByDir_no_match_witness :
    getFileByDir lpCodec (0 + 1)
        { Links := [{ Name := "x", Hash := [], Size := 0 }], Data := [98, 108, 111, 98] }
        ["", "y"] 1 [] = some [] ∧
    (∀ name size, handleDir lpCodec id (Node.dir name size []) [] =
      some (emptyObject, putObjInStore lpCodec emptyObject [] id LIST)) ∧
    (∀ name size path, ∃ r s, Add lpCodec [] (Node.dir name size []) id = some (r, s) ∧
      s.Has r = true ∧ Hash2File lpCodec (0 + 1) s r path = some []) :=
  getFileByDir_no_match lpCodec id 0
    { Links := [{ Name := "x", Hash := [], Size := 0 }], Data := [98, 108, 111, 98] }
    ["", "y"] 1 [] (by decide) (Or.inr ⟨by decide, by decide⟩)

/-! ## Tree entries -/

theorem treeLinks_entries (c : Codec) (h : Bytes → Bytes) (children : List Node) :
    treeLinks c h children = (entries children).map (fun x =>
      ({ Name := x.name, Hash := h (c.marshal (nodeObj c h x)),
         Size := x.size % 2 ^ 64 } : Link)) := by
  induction children with
  | nil => rfl
  | cons node rest ih =>
    cases node with
    | file n s b =>
      simp only [treeLinks, entries, List.filter, Node.linkName, Option.isSome_some,
        List.map_cons, nodeLink, Node.name, Node.size]
      exact congrArg _ ih
    | dir n s cs =>
      simp only [treeLinks, entries, List.filter, Node.linkName, Option.isSome_some,
        List.map_cons, nodeLink, Node.name, Node.size]
      exact congrArg _ ih
    | other n s =>
      simp only [treeLinks, entries, List.filter, Node.linkName, Option.isSome_none]
      exact ih

theorem intValue_of_lt (n : Nat) (hn : n < 2 ^ 63) : intValue (n % 2 ^ 64) = (n : Int) := by
  have h1 : n % 2 ^ 64 = n := Nat.mod_eq_of_lt (by omega)
  unfold intValue
  rw [h1, h1, if_pos hn]

/-- C19, as stated, fails: a directory whose only child is a directory `d` with `Size()`
`2^63`. The link that `handleDir` builds for `d` has the size `int(dir.Size())`, which is
`-2^63`, not the `Size()` of the child. -/
theorem handleDir_size_wraps :
    (handleDir lpCodec id (Node.dir "root" 0 [Node.dir "d" (2 ^ 63) []]) []).map
        (fun r => r.1.Links.map (fun l => (l.Name, intValue l.Size))) =
      some [("d", -(2 ^ 63))] ∧
    Node.size (Node.dir "d" (2 ^ 63) []) = 2 ^ 63 := by
  decide

/-- C19, amended: for every directory and store `handleDir` returns the tree object of the
children. Its links are, in the iterator's order, one per child that is a file or a
directory (the entries), with the name of the child, the size `int(Size())` of the child,
which is `Size()` when that is below `2^63`, and the hash that `Add` returns for the child,
which is the hash of the encoding of the object built for it; children of any other type
are not among the entries. Its data is one tag per entry, and the tag of a directory is
`tree`, for every list of children of that directory, the empty one included. -/
theorem handleDir_mirror (c : Codec) (h : Bytes → Bytes) (name : String) (size : Nat)
    (children : List Node) (store : Store) :
    (∃ s, handleDir c h (Node.dir name size children) store =
      some (treeObj c h children, s)) ∧
    (treeObj c h children).Links = (entries children).map (fun x =>
      ({ Name := x.name, Hash := h (c.marshal (nodeObj c h x)),
         Size := x.size % 2 ^ 64 } : Link)) ∧
    (∀ x : Node, x.size < 2 ^ 63 → intValue (x.size % 2 ^ 64) = (x.size : Int)) ∧
    (∀ x, x ∈ entries children ↔
      x ∈ children ∧ ((∃ n s b, x = Node.file n s b) ∨ (∃ n s cs, x = Node.dir n s cs))) ∧
    (∀ x st, ∃ s2, Add c st x h = some (h (c.marshal (nodeObj c h x)), s2)) ∧
    (treeObj c h children).Data = tagsOf (nodeTag c h) (entries children) ∧
    (∀ n sz cs, nodeTag c h (Node.dir n sz cs) = TREE) ∧
    (treeObj c h children).Data.length = 4 * (entries children).length := by
  refine ⟨?_, treeLinks_entries c h children, fun x hx => intValue_of_lt x.size hx, ?_,
    fun x st => ⟨_, Add_total c h x st⟩, (treeObj_joined c h children).2,
    fun _ _ _ => rfl, ?_⟩
  · rw [handleDir_eq, dirReqs_eq]
    exact ⟨_, rfl⟩
  · intro x
    simp only [entries, List.mem_filter]
    constructor
    · rintro ⟨hx, hs⟩
      refine ⟨hx, ?_⟩
      cases x with
      | file n s b => exact Or.inl ⟨n, s, b, rfl⟩
      | dir n s cs => exact Or.inr ⟨n, s, cs, rfl⟩
      | other n s => simp [Node.linkName] at hs
    · rintro ⟨hx, hk⟩
      refine ⟨hx, ?_⟩
      rcases hk with ⟨n, s, b, rfl⟩ | ⟨n, s, cs, rfl⟩ <;> rfl
  · have := treeData_length c h children
    rw [treeLinks_entries, List.length_map] at this
    exact this

theorem handleDir_mirror_witness :
    (∃ s, handleDir lpCodec id sampleTree [] = some (treeObj lpCodec id
      [Node.dir "a" 0 [], Node.file "b" 0 [],
        Node.file "hello.txt" 10 [97, 98, 99, 100, 101, 102, 103, 104, 105, 106],
        Node.dir "d" 2 [Node.file "c" 2 [7, 7]]], s)) ∧
    intValue ((Node.dir "d" 2 [Node.file "c" 2 [7, 7]]).size % 2 ^ 64) = 2 :=
  ⟨(handleDir_mirror lpCodec id "root" 0 [Node.dir "a" 0 [], Node.file "b" 0 [],
      Node.file "hello.txt" 10 [97, 98, 99, 100, 101, 102, 103, 104, 105, 106],
      Node.dir "d" 2 [Node.file "c" 2 [7, 7]]] []).1,
    (handleDir_mirror lpCodec id "root" 0 [] []).2.2.1 (Node.dir "d" 2 [Node.file "c" 2 [7, 7]])
      (by decide)⟩

/-! ## The height against the division count -/

theorem divisions_le (d : Nat) (fuel : Nat) :
    ∀ (n k : Nat), n < d ^ k → divisions d fuel n ≤ k := by
  induction fuel with
  | zero => intro n k _; exact Nat.zero_le _
  | succ f ih =>
    intro n k hn
    simp only [divisions]
    split
    · exact Nat.zero_le _
    · rename_i h0
      cases k with
      | zero => simp at hn; exact absurd hn h0
      | succ j =>
        have hd : n / d < d ^ j := by
          apply Nat.div_lt_of_lt_mul
          rw [pow_succ, Nat.mul_comm] at hn
          exact hn
        exact Nat.succ_le_succ (ih (n / d) j hd)

theorem height_lower_arith (f Q N : Nat) (hf : 4096 ≤ f) (h1 : f * Q ≤ N)
    (h2 : N < 4096 * Q) : False := by
  have := Nat.mul_le_mul_right Q hf
  omega

set_option exponentiation.threshold 2000 in
theorem pow_4096_89 : (4096 : Nat) ^ 89 = 4096 * (2 ^ 1044 * 4096) := by decide

theorem computeHeight_ge_90 (size : Nat) (hsize : CHUNK_SIZE < size) :
    ∃ H, computeHeight size = some H ∧ 90 ≤ H := by
  unfold computeHeight
  obtain ⟨H, e1, _, e3⟩ := heightLoop_total (numChunks size + 1) 0 (numChunks size)
    (Nat.lt_succ_self _)
  rw [Nat.sub_zero, MAX_LISTLINE_eq] at e3
  refine ⟨H, e1, ?_⟩
  by_contra hH
  have hle : (4096 : Nat) ^ H ≤ 4096 ^ 89 := Nat.pow_le_pow_right (by decide) (by omega)
  rw [pow_4096_89] at hle
  have hf : 4096 ≤ float64OfNat size := by
    have := float64OfNat_ge size
    rw [CHUNK_SIZE_eq] at hsize
    omega
  exact height_lower_arith (float64OfNat size) (2 ^ 1044 * 4096) (numChunks size) hf
    (numChunks_ge_scaled size) (Nat.lt_of_lt_of_le e3 hle)

theorem heightByDivision_le (size : Nat) (hsize : size < 2 ^ 63) : heightByDivision size ≤ 4 := by
  unfold heightByDivision
  apply divisions_le
  rw [MAX_LISTLINE_eq, CHUNK_SIZE_eq]
  have h63 : (2 : Nat) ^ 63 = 9223372036854775808 := by decide
  have h4 : (4096 : Nat) ^ 4 = 281474976710656 := by decide
  rw [h63] at hsize
  rw [h4]
  apply Nat.div_lt_of_lt_mul
  omega

set_option exponentiation.threshold 2000 in
/-- C17: the height that `handleFile` computes is not the count of integer divisions. For a
file of `CHUNK_SIZE + 1` bytes the chunk count is 2 and one integer division by
`MAX_LISTLINE` takes it to zero, but the loop returns 90; for `CHUNK_SIZE * MAX_LISTLINE`
bytes the chunk count is 4096, two divisions take it to zero, and the loop returns 91. For
every size above `CHUNK_SIZE` and below `2^63` the loop returns at least 90 where the
division count is at most 4. -/
theorem computeHeight_vs_division_count :
    computeHeight (CHUNK_SIZE + 1) = some 90 ∧ heightByDivision (CHUNK_SIZE + 1) = 1 ∧
      Nat.log 4096 ((CHUNK_SIZE + 1 + CHUNK_SIZE - 1) / CHUNK_SIZE) + 1 = 1 ∧
      computeHeight (CHUNK_SIZE * MAX_LISTLINE) = some 91 ∧
      heightByDivision (CHUNK_SIZE * MAX_LISTLINE) = 2 ∧
      ∀ size, CHUNK_SIZE < size → size < 2 ^ 63 →
        ∃ H, computeHeight size = some H ∧ 90 ≤ H ∧ heightByDivision size ≤ 4 := by
  refine ⟨by decide, by decide, ?_, by decide, by decide, fun size h1 h2 => ?_⟩
  · have e : (CHUNK_SIZE + 1 + CHUNK_SIZE - 1) / CHUNK_SIZE = 2 := by decide
    rw [e]
    simp [Nat.log]
  · obtain ⟨H, e1, e2⟩ := computeHeight_ge_90 size h1
    exact ⟨H, e1, e2, heightByDivision_le size h2⟩

/-! ## Retrieval stays in range -/

/-- C16: for every directory built with `Add` into the empty store and every path string,
every object that the build persists has at least four bytes of data per link, and
`Hash2File` on the root hash returns a result (bytes or the empty result) for every
recursion bound from some bound on: no tag slice is taken out of range. The encoding is
decodable, the empty input decodes to the zero object, and the hash of the encoding is
collision-free. -/
theorem Hash2File_in_range (c : Codec) (h : Bytes → Bytes)
    (hrt : ∀ o, c.unmarshal (c.marshal o) = o) (hnil : c.unmarshal [] = emptyObject)
    (hinj : ∀ a b, h (c.marshal a) = h (c.marshal b) → a = b)
    (rname : String) (rsize : Nat) (children : List Node) (path : String) :
    ∃ r s, Add c [] (Node.dir rname rsize children) h = some (r, s) ∧
      s = persist c h (nodeReqs c h (Node.dir rname rsize children)) [] ∧
      (∀ q ∈ nodeReqs c h (Node.dir rname rsize children),
        4 * q.1.Links.length ≤ q.1.Data.length) ∧
      ∃ n0, ∀ fuel, n0 ≤ fuel → ∃ ans, Hash2File c fuel s r path = some ans := by
  refine ⟨_, _, Add_total c h _ [], rfl, ?_, ?_⟩
  · intro q hq
    rcases nodeReqs_shape c h _ q hq with ⟨_, hl⟩ | ⟨_, hal⟩
    · rw [hl]
      exact Nat.zero_le _
    · exact Nat.le_of_eq hal.symm
  · have hg := Add_good c h hinj (Node.dir rname rsize children)
    have hE := Add_empty_key c h hrt hnil hinj (nodeReqs c h (Node.dir rname rsize children))
    have hhas := persist_has c h (nodeReqs c h (Node.dir rname rsize children)) []
      (treeObj c h children, LIST) (by rw [nodeReqs_dir]; simp)
    rw [nodeObj_dir]
    generalize persist c h (nodeReqs c h (Node.dir rname rsize children)) [] = s at hg hE hhas ⊢
    have hfetch := tree_fetch c h s hrt hE rname rsize children hg
    obtain ⟨n0, hn0⟩ := getFileByDir_returns c h s hrt hE (Split path)
      (Node.dir rname rsize children) rname rsize children rfl hg 1
    refine ⟨n0, fun fuel hfuel => ?_⟩
    unfold Hash2File
    simp only at hhas
    simp only [hhas, if_true, hfetch]
    obtain ⟨ans, hans, _⟩ := hn0 fuel hfuel
    exact ⟨ans, hans⟩

theorem Hash2File_in_range_witness :
    ∃ r s, Add lpCodec [] (Node.dir "root" 0 [Node.dir "a" 0 [], Node.file "b" 7 [1, 2]]) id =
        some (r, s) ∧
      s = persist lpCodec id
        (nodeReqs lpCodec id (Node.dir "root" 0 [Node.dir "a" 0 [], Node.file "b" 7 [1, 2]])) [] ∧
      (∀ q ∈ nodeReqs lpCodec id (Node.dir "root" 0 [Node.dir "a" 0 [], Node.file "b" 7 [1, 2]]),
        4 * q.1.Links.length ≤ q.1.Data.length) ∧
      ∃ n0, ∀ fuel, n0 ≤ fuel → ∃ ans, Hash2File lpCodec fuel s r "/a/x" = some ans :=
  Hash2File_in_range lpCodec id lpCodec_roundtrip rfl lpCodec_inj "root" 0
    [Node.dir "a" 0 [], Node.file "b" 7 [1, 2]] "/a/x"

/-! ## Chunk sizes -/

theorem blobsOf_append (a b : List Req) : blobsOf (a ++ b) = blobsOf a ++ blobsOf b := by
  simp [blobsOf]

theorem blobsOf_cons_blob (o : Object) (rest : List Req) :
    blobsOf ((o, BLOB) :: rest) = o.Data :: blobsOf rest := by
  simp [blobsOf]

theorem blobsOf_cons_list (o : Object) (rest : List Req) :
    blobsOf ((o, LIST) :: rest) = blobsOf rest := by
  simp [blobsOf, BLOB_ne_LIST]

theorem Chunked.append (bytes : Bytes) (a : List Bytes) :
    ∀ (s e e2 : Nat) (b : List Bytes), Chunked bytes s a e → Chunked bytes e b e2 →
      Chunked bytes s (a ++ b) e2 := by
  induction a with
  | nil =>
    intro s e e2 b ha hb
    simp only [Chunked] at ha
    subst ha
    simpa using hb
  | cons x rest ih =>
    intro s e e2 b ha hb
    obtain ⟨h1, h2, h3, h4, h5, h6⟩ := ha
    exact ⟨h1, h2, h3, h4, h5, ih _ _ _ _ h6 hb⟩

theorem Chunked.single (bytes : Bytes) (s stop C : Nat) (hs : s < stop)
    (hstop : stop ≤ bytes.length) (hC : stop - s ≤ C) (hCS : C = CHUNK_SIZE)
    (hfull : stop - s = C ∨ stop = bytes.length) :
    Chunked bytes s [slice bytes s stop] stop := by
  have hlen : (slice bytes s stop).length = stop - s := slice_length bytes s stop hstop
  have hss : s + (stop - s) = stop := by omega
  simp only [Chunked, hlen, hss]
  refine ⟨trivial, by omega, by rw [← hCS]; exact hC, hstop, ?_, trivial⟩
  rcases hfull with hf | hf
  · exact Or.inl (by rw [← hCS]; exact hf)
  · exact Or.inr hf

theorem chunkReqs_chunked (c : Codec) (h : Bytes → Bytes) (bytes : Bytes) (n : Nat) :
    ∀ (obj : Object) (lendata start : Nat), start < bytes.length →
      Chunked bytes start (blobsOf (chunkReqs c h bytes n obj lendata start).2.2)
        (start + min (bytes.length - start) (n * CHUNK_SIZE)) := by
  induction n with
  | zero =>
    intro obj lendata start _
    simp [chunkReqs, blobsOf, Chunked]
  | succ n ih =>
    intro obj lendata start hlt
    simp only [chunkReqs]
    rw [Nat.succ_mul]
    by_cases hge : start + CHUNK_SIZE ≥ bytes.length
    · have hstop : (if start + CHUNK_SIZE > bytes.length then bytes.length
          else start + CHUNK_SIZE) = bytes.length := by
        split
        · rfl
        · rename_i hgt
          exact Nat.le_antisymm (Nat.le_of_not_lt hgt) hge
      rw [hstop, if_pos hge, blobsOf_cons_blob]
      have hend : start + min (bytes.length - start) (n * CHUNK_SIZE + CHUNK_SIZE) =
          bytes.length := by
        have := chunk_arith2 bytes.length start CHUNK_SIZE (n * CHUNK_SIZE) 0 bytes.length
          hlt hge rfl
        omega
      rw [hend]
      exact Chunked.single bytes start bytes.length CHUNK_SIZE hlt (Nat.le_refl _)
        (by omega) rfl (Or.inr rfl)
    · have hlt2 : start + CHUNK_SIZE < bytes.length := Nat.lt_of_not_le hge
      have hstop : (if start + CHUNK_SIZE > bytes.length then bytes.length
          else start + CHUNK_SIZE) = start + CHUNK_SIZE := by
        rw [if_neg (Nat.not_lt.2 (Nat.le_of_lt hlt2))]
      rw [hstop, if_neg hge, blobsOf_cons_blob]
      have hrest := ih
        { Links := obj.Links ++ [{ Name := "", Hash := computeHash (c.marshal { Links := [], Data := slice bytes start (start + CHUNK_SIZE) }) h, Size := (slice bytes start (start + CHUNK_SIZE)).length }], Data := obj.Data ++ BLOB }
        (lendata + (slice bytes start (start + CHUNK_SIZE)).length) (start + CHUNK_SIZE) hlt2
      rw [(chunk_arith bytes.length start CHUNK_SIZE (n * CHUNK_SIZE) 0 (start + CHUNK_SIZE)
        hlt2 rfl).2] at hrest
      have hone := Chunked.single bytes start (start + CHUNK_SIZE) CHUNK_SIZE
        (Nat.lt_add_of_pos_right CHUNK_SIZE_pos) (Nat.le_of_lt hlt2)
        (Nat.le_of_eq (Nat.add_sub_cancel_left _ _)) rfl (Or.inl (Nat.add_sub_cancel_left _ _))
      exact Chunked.append bytes _ _ _ _ _ hone hrest

theorem levelReqs_chunked (c : Codec) (h : Bytes → Bytes) (bytes : Bytes)
    (child : Nat → Option (Object × Nat × List Req)) (capc : Nat) (hcap : 0 < capc)
    (hchild : ∀ s, s < bytes.length →
      ∃ o m rs, child s = some (o, m, rs) ∧ m = min (bytes.length - s) capc ∧
        Chunked bytes s (blobsOf rs) (s + m)) (n : Nat) :
    ∀ (obj : Object) (lendata start : Nat) (res : Object × Nat × List Req),
      levelReqs c h bytes child n obj lendata start = some res →
      Chunked bytes start (blobsOf res.2.2) (start + min (bytes.length - start) (n * capc)) := by
  induction n with
  | zero =>
    intro obj lendata start res hres
    simp only [levelReqs, Option.some.injEq] at hres
    subst hres
    simp [blobsOf, Chunked]
  | succ n ih =>
    intro obj lendata start res hres
    simp only [levelReqs] at hres
    by_cases hge : start ≥ bytes.length
    · rw [if_pos hge] at hres
      simp only [Option.some.injEq] at hres
      subst hres
      have h0 : bytes.length - start = 0 := Nat.sub_eq_zero_of_le hge
      simp [blobsOf, Chunked, h0]
    · rw [if_neg hge] at hres
      have hlt : start < bytes.length := Nat.lt_of_not_le hge
      obtain ⟨o, m, rs, hc, hm, hch⟩ := hchild start hlt
      simp only [hc] at hres
      cases hrec : levelReqs c h bytes child n
          { Links := obj.Links ++ [{ Name := "", Hash := computeHash (c.marshal o) h, Size := m }],
            Data := if o.Links = [] then obj.Data ++ BLOB else obj.Data ++ LIST }
          (lendata + m) (start + m) with
      | none => simp [hrec] at hres
      | some q =>
        simp only [hrec, Option.some.injEq] at hres
        subst hres
        have hrest := ih _ _ _ q hrec
        rw [(level_arith bytes.length start capc (n * capc) 0 m hcap hlt hm).2.1] at hrest
        rw [blobsOf_append, Nat.succ_mul]
        exact Chunked.append bytes _ _ _ _ _ hch hrest

theorem dfsReqs_chunked (c : Codec) (h : Bytes → Bytes) (bytes : Bytes) (height : Nat) :
    ∀ (start : Nat), 1 ≤ height → start < bytes.length →
      ∀ res, dfsReqs c h height bytes start = some res →
        res.2.1 = min (bytes.length - start) (cap height) ∧
        Chunked bytes start (blobsOf res.2.2)
          (start + min (bytes.length - start) (cap height)) := by
  induction height with
  | zero => intro start hh; exact absurd hh (by decide)
  | succ k ih =>
    intro start _ hlt res hres
    obtain ⟨o, m, rs, hrun, hm, _⟩ := dfsReqs_total c h bytes (k + 1) start (by omega) hlt
    rw [hrun, Option.some.injEq] at hres
    subst hres
    refine ⟨hm, ?_⟩
    cases k with
    | zero =>
      simp only [dfsReqs] at hrun
      rw [if_neg (Nat.not_lt.2 (Nat.le_of_lt hlt))] at hrun
      by_cases hsmall : bytes.length - start < CHUNK_SIZE
      · rw [if_pos hsmall] at hrun
        simp only [Option.some.injEq, Prod.mk.injEq] at hrun
        obtain ⟨_, _, e3⟩ := hrun
        have hend : start + min (bytes.length - start) (cap 1) = bytes.length := by
          have := blob_arith bytes.length start CHUNK_SIZE MAX_LISTLINE hsmall
            (Nat.le_mul_of_pos_left _ (by decide))
          rw [cap_one, ← this]
          omega
        rw [← e3, hend, blobsOf_cons_blob]
        exact Chunked.single bytes start bytes.length CHUNK_SIZE hlt (Nat.le_refl _)
          (Nat.le_of_lt hsmall) rfl (Or.inr rfl)
      · rw [if_neg hsmall] at hrun
        simp only [Option.some.injEq, Prod.mk.injEq] at hrun
        obtain ⟨_, _, e3⟩ := hrun
        rw [← e3, blobsOf_append, blobsOf_cons_list, cap_one]
        simpa [blobsOf] using
          chunkReqs_chunked c h bytes MAX_LISTLINE emptyObject 0 start hlt
    | succ j =>
      simp only [dfsReqs] at hrun
      cases hl : levelReqs c h bytes (fun start => dfsReqs c h (j + 1) bytes start) MAX_LISTLINE
          emptyObject 0 start with
      | none => simp [hl] at hrun
      | some q =>
        simp only [hl, Option.some.injEq, Prod.mk.injEq] at hrun
        obtain ⟨_, _, e3⟩ := hrun
        have hlev := levelReqs_chunked c h bytes (fun start => dfsReqs c h (j + 1) bytes start)
          (cap (j + 1)) (cap_pos _)
          (fun s hs => by
            obtain ⟨o2, m2, rs2, hrun2, hm2, _⟩ :=
              dfsReqs_total c h bytes (j + 1) s (by omega) hs
            refine ⟨o2, m2, rs2, hrun2, hm2, ?_⟩
            have := (ih s (by omega) hs _ hrun2).2
            rw [hm2]
            exact this)
          MAX_LISTLINE emptyObject 0 start q hl
        rw [← e3, blobsOf_append, blobsOf_cons_list, cap_succ]
        simpa [blobsOf] using hlev

theorem levelReqs_mem (c : Codec) (h : Bytes → Bytes) (bytes : Bytes)
    (child : Nat → Option (Object × Nat × List Req)) (n : Nat) :
    ∀ (obj : Object) (lendata start : Nat) (res : Object × Nat × List Req),
      levelReqs c h bytes child n obj lendata start = some res → ∀ r ∈ res.2.2,
        ∃ s cres, s < bytes.length ∧ child s = some cres ∧ r ∈ cres.2.2 ∧
          ∀ x ∈ cres.2.2, x ∈ res.2.2 := by
  induction n with
  | zero =>
    intro obj lendata start res hres r hr
    simp [levelReqs] at hres
    subst hres; simp at hr
  | succ n ih =>
    intro obj lendata start res hres r hr
    simp only [levelReqs] at hres
    by_cases hge : start ≥ bytes.length
    · rw [if_pos hge] at hres
      simp at hres; subst hres; simp at hr
    · rw [if_neg hge] at hres
      cases hch : child start with
      | none => simp [hch] at hres
      | some q =>
        obtain ⟨o, m, rs⟩ := q
        simp only [hch] at hres
        cases hrec : levelReqs c h bytes child n
            { Links := obj.Links ++ [{ Name := "", Hash := computeHash (c.marshal o) h, Size := m }],
              Data := if o.Links = [] then obj.Data ++ BLOB else obj.Data ++ LIST }
            (lendata + m) (start + m) with
        | none => simp [hrec] at hres
        | some q2 =>
          simp only [hrec, Option.some.injEq] at hres
          subst hres
          rcases List.mem_append.1 hr with hr | hr
          · exact ⟨start, (o, m, rs), Nat.lt_of_not_le hge, hch, hr,
              fun x hx => List.mem_append_left _ hx⟩
          · obtain ⟨s, cres, h1, h2, h3, h4⟩ := ih _ _ _ q2 hrec r hr
            exact ⟨s, cres, h1, h2, h3, fun x hx => List.mem_append_right _ (h4 x hx)⟩

theorem dfsReqs_list_links (c : Codec) (h : Bytes → Bytes) (bytes : Bytes) (height : Nat) :
    ∀ (start : Nat), 1 ≤ height → start < bytes.length →
      ∀ res, dfsReqs c h height bytes start = some res →
        ∀ r ∈ res.2.2, r.2 ≠ BLOB → r.1.Links ≠ [] := by
  induction height with
  | zero => intro start hh; exact absurd hh (by decide)
  | succ k ih =>
    intro start _ hlt res hres r hr hnb
    obtain ⟨o, m, rs, hrun, _, _, _, htop⟩ :=
      dfsReqs_total c h bytes (k + 1) start (by omega) hlt
    rw [hrun, Option.some.injEq] at hres
    subst hres
    cases k with
    | zero =>
      simp only [dfsReqs] at hrun
      rw [if_neg (Nat.not_lt.2 (Nat.le_of_lt hlt))] at hrun
      by_cases hsmall : bytes.length - start < CHUNK_SIZE
      · rw [if_pos hsmall] at hrun
        simp only [Option.some.injEq, Prod.mk.injEq] at hrun
        obtain ⟨_, _, e3⟩ := hrun
        rw [← e3] at hr
        simp only [List.mem_singleton] at hr
        subst hr
        exact absurd rfl hnb
      · rw [if_neg hsmall] at hrun
        simp only [Option.some.injEq, Prod.mk.injEq] at hrun
        obtain ⟨e1, _, e3⟩ := hrun
        rw [← e3] at hr
        rcases List.mem_append.1 hr with hr | hr
        · exact absurd (chunkReqs_reqs c h bytes _ _ _ _ r hr).2 hnb
        · simp only [List.mem_singleton] at hr
          subst hr
          rw [e1]
          exact htop (Or.inr (Nat.le_of_not_lt hsmall))
    | succ j =>
      simp only [dfsReqs] at hrun
      cases hl : levelReqs c h bytes (fun start => dfsReqs c h (j + 1) bytes start) MAX_LISTLINE
          emptyObject 0 start with
      | none => simp [hl] at hrun
      | some q =>
        simp only [hl, Option.some.injEq, Prod.mk.injEq] at hrun
        obtain ⟨e1, _, e3⟩ := hrun
        rw [← e3] at hr
        rcases List.mem_append.1 hr with hr | hr
        · obtain ⟨s, cres, hs, hc, hrc, _⟩ := levelReqs_mem c h bytes _ _ _ _ _ q hl r hr
          exact ih s (by omega) hs cres hc r hrc hnb
        · simp only [List.mem_singleton] at hr
          subst hr
          rw [e1]
          exact htop (Or.inl (by omega))

theorem Chunked.join (bytes : Bytes) (bl : List Bytes) :
    ∀ (s e : Nat), Chunked bytes s bl e →
      s ≤ e ∧ bl.flatten = slice bytes s e ∧
        ∀ b ∈ bl, 1 ≤ b.length ∧ b.length ≤ CHUNK_SIZE := by
  induction bl with
  | nil =>
    intro s e hc
    simp only [Chunked] at hc
    subst hc
    exact ⟨Nat.le_refl _, by simp [slice_self], fun b hb => by simp at hb⟩
  | cons x rest ih =>
    intro s e hc
    obtain ⟨h1, h2, h3, _, _, h6⟩ := hc
    obtain ⟨i1, i2, i3⟩ := ih _ _ h6
    refine ⟨by omega, ?_, ?_⟩
    · rw [List.flatten_cons, i2]
      nth_rewrite 1 [h1]
      exact slice_append_slice bytes s (s + x.length) e (Nat.le_add_right _ _) i1
    · intro b hb
      rcases List.mem_cons.1 hb with rfl | hb
      · exact ⟨h2, h3⟩
      · exact i3 b hb

/-- C18: for every non-empty file and every height of at least 1, `dfshandleFile` at offset
0 returns on every store with the same requests. A request is made with type `blob`
exactly when its object has no links. The data of the blob requests, in the order of the
calls (the left-to-right order of the links), are consecutive ranges of the bytes of the
file from offset 0 to the consumed count: each starts where the one before ends, holds
between 1 and `CHUNK_SIZE` bytes, and holds exactly `CHUNK_SIZE` bytes unless it ends at
the end of the file; together they are the consumed bytes. -/
theorem dfshandleFile_chunks (c : Codec) (h : Bytes → Bytes) (height : Nat) (bytes : Bytes)
    (hh : 1 ≤ height) (hne : bytes ≠ []) :
    ∃ o m rs, (∀ store, dfshandleFile c h height bytes store 0 =
        some (o, m, persist c h rs store)) ∧
      (∀ r ∈ rs, r.2 = BLOB ↔ r.1.Links = []) ∧
      Chunked bytes 0 (blobsOf rs) m ∧
      (∀ b ∈ blobsOf rs, 1 ≤ b.length ∧ b.length ≤ CHUNK_SIZE) ∧
      (blobsOf rs).flatten = slice bytes 0 m := by
  have hpos : 0 < bytes.length := List.length_pos.2 hne
  obtain ⟨o, m, rs, hrun, hm, _⟩ := dfsReqs_total c h bytes height 0 hh hpos
  have hch := (dfsReqs_chunked c h bytes height 0 hh hpos _ hrun).2
  rw [← hm, Nat.zero_add] at hch
  simp only at hch
  obtain ⟨_, hj, hb⟩ := Chunked.join bytes _ _ _ hch
  refine ⟨o, m, rs, fun store => ?_, fun r hr => ⟨fun hb => ?_, fun hl => ?_⟩, hch, hb, hj⟩
  · rw [dfshandleFile_eq, hrun]
    rfl
  · rcases dfsReqs_shape c h height bytes 0 _ hrun r hr with ⟨_, hl⟩ | ⟨ht, _⟩
    · exact hl
    · rw [hb] at ht
      exact absurd ht.symm BLOB_ne_LIST
  · by_contra hnb
    exact dfsReqs_list_links c h bytes height 0 hh hpos _ hrun r hr hnb hl

theorem dfshandleFile_chunks_witness :
    ∃ o m rs, (∀ store, dfshandleFile lpCodec id 2 [5, 6, 7] store 0 =
        some (o, m, persist lpCodec id rs store)) ∧
      (∀ r ∈ rs, r.2 = BLOB ↔ r.1.Links = []) ∧
      Chunked [5, 6, 7] 0 (blobsOf rs) m ∧
      (∀ b ∈ blobsOf rs, 1 ≤ b.length ∧ b.length ≤ CHUNK_SIZE) ∧
      (blobsOf rs).flatten = slice [5, 6, 7] 0 m :=
  dfshandleFile_chunks lpCodec id 2 [5, 6, 7] (by decide) (by decide)

/-! ## Link sizes -/

theorem sizeSum_snoc (ls : List Link) (l : Link) : sizeSum (ls ++ [l]) = sizeSum ls + l.Size := by
  simp [sizeSum]

theorem linksCover_snoc (c : Codec) (h : Bytes → Bytes) (recList : Object → Option Bytes)
    (store : Store) (bytes : Bytes) (l : Link) (kid : Object) (hname : l.Name = "")
    (hhash : l.Hash = h (c.marshal kid)) (ls : List Link) :
    ∀ (s0 start : Nat), LinksCover c h recList store bytes ls s0 → s0 + sizeSum ls = start →
      start + l.Size ≤ bytes.length →
      childBytes c h recList store kid = some (slice bytes start (start + l.Size)) →
      LinksCover c h recList store bytes (ls ++ [l]) s0 := by
  induction ls with
  | nil =>
    intro s0 start _ hs hle hk
    simp only [sizeSum, List.map_nil, List.sum_nil, Nat.add_zero] at hs
    subst hs
    exact ⟨hname, hle, ⟨kid, hhash, hk⟩, trivial⟩
  | cons x rest ih =>
    intro s0 start hc hs hle hk
    obtain ⟨h1, h2, h3, h4⟩ := hc
    refine ⟨h1, h2, h3, ih (s0 + x.Size) start h4 ?_ hle hk⟩
    simp only [sizeSum, List.map_cons, List.sum_cons] at hs ⊢
    omega

theorem chunkReqs_cover (c : Codec) (h : Bytes → Bytes) (bytes : Bytes) (store : Store)
    (recList : Object → Option Bytes) (n : Nat) :
    ∀ (obj : Object) (lendata start s0 : Nat), start < bytes.length →
      LinksCover c h recList store bytes obj.Links s0 → s0 + sizeSum obj.Links = start →
      sizeSum obj.Links = lendata →
      (∀ r ∈ (chunkReqs c h bytes n obj lendata start).2.2,
        r.1 ≠ emptyObject → Stored c h store r.1) →
      LinksCover c h recList store bytes (chunkReqs c h bytes n obj lendata start).1.Links s0 ∧
        sizeSum (chunkReqs c h bytes n obj lendata start).1.Links =
          (chunkReqs c h bytes n obj lendata start).2.1 := by
  induction n with
  | zero =>
    intro obj lendata start s0 _ hc _ hsum _
    exact ⟨hc, hsum⟩
  | succ n ih =>
    intro obj lendata start s0 hlt hc hs hsum hst
    have hcs : 0 < CHUNK_SIZE := CHUNK_SIZE_pos
    simp only [chunkReqs] at hst ⊢
    generalize hstop : (if start + CHUNK_SIZE > bytes.length then bytes.length
      else start + CHUNK_SIZE) = stop at hst ⊢
    have hstop1 : start < stop ∧ stop ≤ bytes.length ∧ stop ≤ start + CHUNK_SIZE ∧
        (start + CHUNK_SIZE ≤ bytes.length → stop = start + CHUNK_SIZE) ∧
        (bytes.length ≤ start + CHUNK_SIZE → stop = bytes.length) := by
      rw [← hstop]; split <;> omega
    have hlen : (slice bytes start stop).length = stop - start := slice_length _ _ _ hstop1.2.1
    have hne : ({ Links := [], Data := slice bytes start stop } : Object) ≠ emptyObject := by
      intro he
      have : (slice bytes start stop).length = 0 := by
        have := congrArg Object.Data he
        simp [emptyObject] at this
        simp [this]
      omega
    have hstored : Stored c h store { Links := [], Data := slice bytes start stop } := by
      refine hst ({ Links := [], Data := slice bytes start stop }, BLOB) ?_ hne
      split <;> simp
    have hget := hstored.get
    simp only [storedValue, if_true] at hget
    have hend2 : start + (slice bytes start stop).length = stop := by rw [hlen]; omega
    have hkid : childBytes c h recList store { Links := [], Data := slice bytes start stop } =
        some (slice bytes start (start + (slice bytes start stop).length)) := by
      simp only [childBytes, if_true, hget, hend2]
    have hcov := linksCover_snoc c h recList store bytes
      { Name := "", Hash := computeHash (c.marshal { Links := [], Data := slice bytes start stop }) h, Size := (slice bytes start stop).length }
      { Links := [], Data := slice bytes start stop } rfl rfl obj.Links s0 start hc hs
      (by rw [hend2]; exact hstop1.2.1) hkid
    by_cases hend : start + CHUNK_SIZE ≥ bytes.length
    · simp only [hend, if_true] at hst ⊢
      exact ⟨hcov, by rw [sizeSum_snoc, hsum]⟩
    · simp only [hend, if_false] at hst ⊢
      have hlt2 : start + CHUNK_SIZE < bytes.length := Nat.lt_of_not_le hend
      have hs2 := hstop1.2.2.2.1 (Nat.le_of_lt hlt2)
      exact ih _ (lendata + (slice bytes start stop).length) (start + CHUNK_SIZE) s0 hlt2 hcov
        (by rw [sizeSum_snoc, ← Nat.add_assoc, hs, hlen, hs2]; simp)
        (by rw [sizeSum_snoc, hsum]) (fun r hr => hst r (List.mem_cons_of_mem _ hr))

theorem levelReqs_cover (c : Codec) (h : Bytes → Bytes) (bytes : Bytes) (store : Store)
    (recList : Object → Option Bytes)
    (child : Nat → Option (Object × Nat × List Req)) (capc : Nat) (hcap : 0 < capc)
    (hchild : ∀ s, s < bytes.length →
      ∃ o m rs, child s = some (o, m, rs) ∧ m = min (bytes.length - s) capc ∧
        (GoodStore c h store rs →
          childBytes c h recList store o = some (slice bytes s (s + m)))) (n : Nat) :
    ∀ (obj : Object) (lendata start s0 : Nat) (res : Object × Nat × List Req),
      LinksCover c h recList store bytes obj.Links s0 → s0 + sizeSum obj.Links = start →
      sizeSum obj.Links = lendata →
      levelReqs c h bytes child n obj lendata start = some res →
      GoodStore c h store res.2.2 →
      LinksCover c h recList store bytes res.1.Links s0 ∧ sizeSum res.1.Links = res.2.1 := by
  induction n with
  | zero =>
    intro obj lendata start s0 res hc _ hsum hres _
    simp only [levelReqs, Option.some.injEq] at hres
    subst hres
    exact ⟨hc, hsum⟩
  | succ n ih =>
    intro obj lendata start s0 res hc hs hsum hres hg
    simp only [levelReqs] at hres
    by_cases hge : start ≥ bytes.length
    · rw [if_pos hge] at hres
      simp only [Option.some.injEq] at hres
      subst hres
      exact ⟨hc, hsum⟩
    · rw [if_neg hge] at hres
      have hlt : start < bytes.length := Nat.lt_of_not_le hge
      obtain ⟨o, m, rs, hch, hm, hkid⟩ := hchild start hlt
      simp only [hch] at hres
      cases hrec : levelReqs c h bytes child n
          { Links := obj.Links ++ [{ Name := "", Hash := computeHash (c.marshal o) h, Size := m }],
            Data := if o.Links = [] then obj.Data ++ BLOB else obj.Data ++ LIST }
          (lendata + m) (start + m) with
      | none => simp [hrec] at hres
      | some q =>
        simp only [hrec, Option.some.injEq] at hres
        subst hres
        have hle := (min_pos_arith bytes.length start capc m hlt hcap hm).2
        have hcov := linksCover_snoc c h recList store bytes
          { Name := "", Hash := computeHash (c.marshal o) h, Size := m } o rfl rfl obj.Links
          s0 start hc hs hle (hkid (fun r hr => hg r (List.mem_append_left _ hr)))
        exact ih _ (lendata + m) (start + m) s0 q hcov
          (by rw [sizeSum_snoc, ← Nat.add_assoc, hs])
          (by rw [sizeSum_snoc, hsum]) hrec (fun r hr => hg r (List.mem_append_right _ hr))

theorem dfsReqs_cover (c : Codec) (h : Bytes → Bytes) (bytes : Bytes) (store : Store)
    (hrt : ∀ o, c.unmarshal (c.marshal o) = o) (height start : Nat) (hh : 1 ≤ height)
    (hlt : start < bytes.length) (res : Object × Nat × List Req)
    (hres : dfsReqs c h height bytes start = some res) (hg : GoodStore c h store res.2.2)
    (fuel : Nat) (hf : height ≤ fuel) :
    LinksCover c h (fun x => getFileByList c fuel x store) store bytes res.1.Links start ∧
      (res.1.Links ≠ [] → sizeSum res.1.Links = res.2.1) := by
  match height, hh with
  | 1, _ =>
    simp only [dfsReqs] at hres
    rw [if_neg (Nat.not_lt.2 (Nat.le_of_lt hlt))] at hres
    by_cases hsmall : bytes.length - start < CHUNK_SIZE
    · rw [if_pos hsmall] at hres
      simp only [Option.some.injEq] at hres
      subst hres
      exact ⟨trivial, fun hne => absurd rfl hne⟩
    · rw [if_neg hsmall] at hres
      simp only [Option.some.injEq] at hres
      subst hres
      have := chunkReqs_cover c h bytes store (fun x => getFileByList c fuel x store)
        MAX_LISTLINE emptyObject 0 start start hlt trivial rfl rfl
        (fun r hr => hg r (List.mem_append_left _ hr))
      exact ⟨this.1, fun _ => this.2⟩
  | k + 2, _ =>
    simp only [dfsReqs] at hres
    cases hl : levelReqs c h bytes (fun start => dfsReqs c h (k + 1) bytes start) MAX_LISTLINE
        emptyObject 0 start with
    | none => simp [hl] at hres
    | some q =>
      simp only [hl, Option.some.injEq] at hres
      subst hres
      have := levelReqs_cover c h bytes store (fun x => getFileByList c fuel x store)
        (fun start => dfsReqs c h (k + 1) bytes start) (cap (k + 1)) (cap_pos _)
        (fun s hs => by
          obtain ⟨o2, m2, rs2, hrun2, hm2, _⟩ :=
            dfsReqs_total c h bytes (k + 1) s (by omega) hs
          exact ⟨o2, m2, rs2, hrun2, hm2, fun hg2 =>
            (dfsReqs_spec c h bytes store hrt (k + 1) s o2 m2 rs2 (by omega) hs hrun2 hg2
              fuel (by omega)).1⟩)
        MAX_LISTLINE emptyObject 0 start start q trivial rfl rfl hl
        (fun r hr => hg r (List.mem_append_left _ hr))
      exact ⟨this.1, fun _ => this.2⟩

theorem dfsReqs_calls (c : Codec) (h : Bytes → Bytes) (bytes : Bytes) (height : Nat) :
    ∀ (start : Nat), 1 ≤ height → start < bytes.length →
      ∀ res, dfsReqs c h height bytes start = some res →
        ∀ r ∈ res.2.2, r.1.Links ≠ [] →
          ∃ ht st cres, 1 ≤ ht ∧ ht ≤ height ∧ st < bytes.length ∧
            dfsReqs c h ht bytes st = some cres ∧ cres.1 = r.1 ∧
            ∀ x ∈ cres.2.2, x ∈ res.2.2 := by
  induction height with
  | zero => intro start hh; exact absurd hh (by decide)
  | succ k ih =>
    intro start _ hlt res hres r hr hne
    have hself : ∀ x ∈ res.2.2, x ∈ res.2.2 := fun _ hx => hx
    cases k with
    | zero =>
      have hres0 := hres
      simp only [dfsReqs] at hres
      rw [if_neg (Nat.not_lt.2 (Nat.le_of_lt hlt))] at hres
      by_cases hsmall : bytes.length - start < CHUNK_SIZE
      · rw [if_pos hsmall] at hres
        simp only [Option.some.injEq] at hres
        subst hres
        simp only [List.mem_singleton] at hr
        subst hr
        exact absurd rfl hne
      · rw [if_neg hsmall] at hres
        simp only [Option.some.injEq] at hres
        rw [← hres] at hr
        rcases List.mem_append.1 hr with hr | hr
        · exact absurd (chunkReqs_reqs c h bytes _ _ _ _ r hr).1 hne
        · simp only [List.mem_singleton] at hr
          refine ⟨1, start, res, Nat.le_refl _, Nat.le_refl _, hlt, hres0, ?_, hself⟩
          rw [hr, ← hres]
    | succ j =>
      have hres0 := hres
      simp only [dfsReqs] at hres
      cases hl : levelReqs c h bytes (fun start => dfsReqs c h (j + 1) bytes start) MAX_LISTLINE
          emptyObject 0 start with
      | none => simp [hl] at hres
      | some q =>
        simp only [hl, Option.some.injEq] at hres
        rw [← hres] at hr
        rcases List.mem_append.1 hr with hr | hr
        · obtain ⟨s, cres, hs, hc, hrc, hsub⟩ := levelReqs_mem c h bytes _ _ _ _ _ q hl r hr
          obtain ⟨ht, st, cres2, a1, a2, a3, a4, a5, a6⟩ := ih s (by omega) hs cres hc r hrc hne
          refine ⟨ht, st, cres2, a1, by omega, a3, a4, a5, fun x hx => ?_⟩
          rw [← hres]
          exact List.mem_append_left _ (hsub x (a6 x hx))
        · simp only [List.mem_singleton] at hr
          refine ⟨j + 1 + 1, start, res, by omega, Nat.le_refl _, hlt, hres0, ?_, hself⟩
          rw [hr, ← hres]

theorem linksSpan_snoc (c : Codec) (h : Bytes → Bytes) (bytes : Bytes) (height : Nat)
    (l : Link) (hname : l.Name = "") (hpos : 1 ≤ l.Size) (ls : List Link) :
    ∀ (s0 start : Nat), LinksSpan c h bytes height ls s0 → s0 + sizeSum ls = start →
      start + l.Size ≤ bytes.length →
      (∃ kid : Object, l.Hash = h (c.marshal kid) ∧
        ((height = 1 ∧ kid = { Links := [], Data := slice bytes start (start + l.Size) }) ∨
          (2 ≤ height ∧ ∀ store, ∃ s2,
            dfshandleFile c h (height - 1) bytes store start = some (kid, l.Size, s2)))) →
      LinksSpan c h bytes height (ls ++ [l]) s0 := by
  induction ls with
  | nil =>
    intro s0 start _ hs hle hk
    simp only [sizeSum, List.map_nil, List.sum_nil, Nat.add_zero] at hs
    subst hs
    exact ⟨hname, hpos, hle, hk, trivial⟩
  | cons x rest ih =>
    intro s0 start hc hs hle hk
    obtain ⟨h1, h2, h3, h4, h5⟩ := hc
    refine ⟨h1, h2, h3, h4, ih (s0 + x.Size) start h5 ?_ hle hk⟩
    simp only [sizeSum, List.map_cons, List.sum_cons] at hs ⊢
    omega

theorem LinksSpan.names (c : Codec) (h : Bytes → Bytes) (bytes : Bytes) (height : Nat)
    (ls : List Link) : ∀ (s : Nat), LinksSpan c h bytes height ls s →
      ∀ l ∈ ls, l.Name = "" ∧ 1 ≤ l.Size := by
  induction ls with
  | nil => intro s _ l hl; simp at hl
  | cons x rest ih =>
    intro s hc l hl
    rcases List.mem_cons.1 hl with rfl | hl
    · exact ⟨hc.1, hc.2.1⟩
    · exact ih _ hc.2.2.2.2 l hl

theorem chunkReqs_span (c : Codec) (h : Bytes → Bytes) (bytes : Bytes) (n : Nat) :
    ∀ (obj : Object) (lendata start s0 : Nat), start < bytes.length →
      LinksSpan c h bytes 1 obj.Links s0 → s0 + sizeSum obj.Links = start →
      sizeSum obj.Links = lendata →
      LinksSpan c h bytes 1 (chunkReqs c h bytes n obj lendata start).1.Links s0 ∧
        sizeSum (chunkReqs c h bytes n obj lendata start).1.Links =
          (chunkReqs c h bytes n obj lendata start).2.1 := by
  induction n with
  | zero =>
    intro obj lendata start s0 _ hc _ hsum
    exact ⟨hc, hsum⟩
  | succ n ih =>
    intro obj lendata start s0 hlt hc hs hsum
    have hcs : 0 < CHUNK_SIZE := CHUNK_SIZE_pos
    simp only [chunkReqs]
    generalize hstop : (if start + CHUNK_SIZE > bytes.length then bytes.length
      else start + CHUNK_SIZE) = stop
    have hstop1 : start < stop ∧ stop ≤ bytes.length ∧ stop ≤ start + CHUNK_SIZE ∧
        (start + CHUNK_SIZE ≤ bytes.length → stop = start + CHUNK_SIZE) ∧
        (bytes.length ≤ start + CHUNK_SIZE → stop = bytes.length) := by
      rw [← hstop]; split <;> omega
    have hlen : (slice bytes start stop).length = stop - start := slice_length _ _ _ hstop1.2.1
    have hend2 : start + (slice bytes start stop).length = stop := by rw [hlen]; omega
    have hcov := linksSpan_snoc c h bytes 1
      { Name := "", Hash := computeHash (c.marshal { Links := [], Data := slice bytes start stop }) h, Size := (slice bytes start stop).length }
      rfl (by show 1 ≤ (slice bytes start stop).length; rw [hlen]; omega) obj.Links s0 start
      hc hs
      (by rw [hend2]; exact hstop1.2.1)
      ⟨{ Links := [], Data := slice bytes start stop }, rfl, Or.inl ⟨rfl, by rw [hend2]⟩⟩
    by_cases hend : start + CHUNK_SIZE ≥ bytes.length
    · simp only [hend, if_true]
      exact ⟨hcov, by rw [sizeSum_snoc, hsum]⟩
    · simp only [hend, if_false]
      have hlt2 : start + CHUNK_SIZE < bytes.length := Nat.lt_of_not_le hend
      have hs2 := hstop1.2.2.2.1 (Nat.le_of_lt hlt2)
      exact ih _ (lendata + (slice bytes start stop).length) (start + CHUNK_SIZE) s0 hlt2 hcov
        (by rw [sizeSum_snoc, ← Nat.add_assoc, hs, hlen, hs2]; simp)
        (by rw [sizeSum_snoc, hsum])

theorem levelReqs_span (c : Codec) (h : Bytes → Bytes) (bytes : Bytes) (k n : Nat) :
    ∀ (obj : Object) (lendata start s0 : Nat) (res : Object × Nat × List Req),
      LinksSpan c h bytes (k + 2) obj.Links s0 → s0 + sizeSum obj.Links = start →
      sizeSum obj.Links = lendata →
      levelReqs c h bytes (fun s => dfsReqs c h (k + 1) bytes s) n obj lendata start =
        some res →
      LinksSpan c h bytes (k + 2) res.1.Links s0 ∧ sizeSum res.1.Links = res.2.1 := by
  induction n with
  | zero =>
    intro obj lendata start s0 res hc _ hsum hres
    simp only [levelReqs, Option.some.injEq] at hres
    subst hres
    exact ⟨hc, hsum⟩
  | succ n ih =>
    intro obj lendata start s0 res hc hs hsum hres
    simp only [levelReqs] at hres
    by_cases hge : start ≥ bytes.length
    · rw [if_pos hge] at hres
      simp only [Option.some.injEq] at hres
      subst hres
      exact ⟨hc, hsum⟩
    · rw [if_neg hge] at hres
      have hlt : start < bytes.length := Nat.lt_of_not_le hge
      obtain ⟨o, m, rs, hch, hm, _⟩ := dfsReqs_total c h bytes (k + 1) start (by omega) hlt
      simp only [hch] at hres
      cases hrec : levelReqs c h bytes (fun s => dfsReqs c h (k + 1) bytes s) n
          { Links := obj.Links ++ [{ Name := "", Hash := computeHash (c.marshal o) h, Size := m }],
            Data := if o.Links = [] then obj.Data ++ BLOB else obj.Data ++ LIST }
          (lendata + m) (start + m) with
      | none => simp [hrec] at hres
      | some q =>
        simp only [hrec, Option.some.injEq] at hres
        subst hres
        have hmm := min_pos_arith bytes.length start (cap (k + 1)) m hlt (cap_pos _) hm
        have hcov := linksSpan_snoc c h bytes (k + 2)
          { Name := "", Hash := computeHash (c.marshal o) h, Size := m } rfl hmm.1 obj.Links
          s0 start hc hs hmm.2
          ⟨o, rfl, Or.inr ⟨by omega, fun store => by
            show ∃ s2, dfshandleFile c h (k + 1) bytes store start = some (o, m, s2)
            rw [dfshandleFile_eq, hch]
            exact ⟨_, rfl⟩⟩⟩
        exact ih _ (lendata + m) (start + m) s0 q hcov
          (by rw [sizeSum_snoc, ← Nat.add_assoc, hs])
          (by rw [sizeSum_snoc, hsum]) hrec

theorem dfsReqs_span (c : Codec) (h : Bytes → Bytes) (bytes : Bytes) (height start : Nat)
    (hh : 1 ≤ height) (hlt : start < bytes.length) (res : Object × Nat × List Req)
    (hres : dfsReqs c h height bytes start = some res) :
    LinksSpan c h bytes height res.1.Links start ∧
      (res.1.Links ≠ [] → sizeSum res.1.Links = res.2.1) := by
  match height, hh with
  | 1, _ =>
    simp only [dfsReqs] at hres
    rw [if_neg (Nat.not_lt.2 (Nat.le_of_lt hlt))] at hres
    by_cases hsmall : bytes.length - start < CHUNK_SIZE
    · rw [if_pos hsmall] at hres
      simp only [Option.some.injEq] at hres
      subst hres
      exact ⟨trivial, fun hne => absurd rfl hne⟩
    · rw [if_neg hsmall] at hres
      simp only [Option.some.injEq] at hres
      subst hres
      have := chunkReqs_span c h bytes MAX_LISTLINE emptyObject 0 start start hlt trivial
        rfl rfl
      exact ⟨this.1, fun _ => this.2⟩
  | k + 2, _ =>
    simp only [dfsReqs] at hres
    cases hl : levelReqs c h bytes (fun start => dfsReqs c h (k + 1) bytes start) MAX_LISTLINE
        emptyObject 0 start with
    | none => simp [hl] at hres
    | some q =>
      simp only [hl, Option.some.injEq] at hres
      subst hres
      have := levelReqs_span c h bytes k MAX_LISTLINE emptyObject 0 start start q trivial
        rfl rfl hl
      exact ⟨this.1, fun _ => this.2⟩

/-! ## Link sizes of lists and trees -/

set_option maxRecDepth 20000 in
/-- C12, as stated, fails twice. With a hash that maps everything to one digest, the list
that `dfshandleFile` builds at height 3 for the two bytes `0, 0` has one link of `Size` 2,
but retrieval from that link reconstructs no bytes: the key of the child holds the raw
blob, which decodes to the zero object. And for a file with `Size()` `2^63` the link that
`handleDir` builds has the size `int(file.Size())`, which is `-2^63`. -/
theorem link_size_collision :
    (dfshandleFile lpCodec constHash 3 [0, 0] [] 0).map
        (fun r => (r.1.Links.map Link.Size, getFileByList lpCodec 2 r.1 r.2.2)) =
      some ([2], some []) ∧
    (handleDir lpCodec id (Node.dir "root" 0 [Node.file "f" (2 ^ 63) []]) []).map
        (fun r => r.1.Links.map (fun l => intValue l.Size)) = some [-(2 ^ 63)] := by
  refine ⟨by decide, ?_⟩
  rw [handleDir_eq, dirReqs_eq]
  simp only [Option.map_some', treeObj, treeLinks, nodeLink, List.map_cons, List.map_nil]
  decide

/-- C12, amended: for every height of at least 1 and every start offset inside the file,
`dfshandleFile` returns, and every object with links among its requests (every list it
builds) is the object returned by a call of `dfshandleFile` inside the file. The sum of the
sizes of its links is the consumed count of that call, every link has the empty name, and
each link's `Size` is the number of bytes its child covers: the links span consecutive
ranges from the offset of the call (`LinksSpan`). When the encoding is decodable and the
hash of the encoding is collision-free, retrieval from each link, in the store built from
the empty store, gives exactly the bytes of its range. In the tree that `handleDir` returns
for a directory, the link of an entry that is a file has the size `int(file.Size())`,
which is `Size()` when that is below `2^63`. -/
theorem dfshandleFile_link_sizes (c : Codec) (h : Bytes → Bytes)
    (height : Nat) (bytes : Bytes) (start : Nat) (hh : 1 ≤ height)
    (hs : start < bytes.length) (dname : String) (dsize : Nat) (children : List Node) :
    (∃ o m rs, (∀ store, dfshandleFile c h height bytes store start =
        some (o, m, persist c h rs store)) ∧
      ∀ r ∈ rs, r.1.Links ≠ [] →
        ∃ ht st mm, 1 ≤ ht ∧ st < bytes.length ∧
          (∀ store, ∃ s2, dfshandleFile c h ht bytes store st = some (r.1, mm, s2)) ∧
          sizeSum r.1.Links = mm ∧ (∀ l ∈ r.1.Links, l.Name = "") ∧
          LinksSpan c h bytes ht r.1.Links st ∧
          ((∀ o, c.unmarshal (c.marshal o) = o) →
            (∀ a b, h (c.marshal a) = h (c.marshal b) → a = b) →
            ∀ fuel, height ≤ fuel →
              LinksCover c h (fun x => getFileByList c fuel x (persist c h rs []))
                (persist c h rs []) bytes r.1.Links st)) ∧
    (∀ store, ∃ s2, handleDir c h (Node.dir dname dsize children) store =
      some (treeObj c h children, s2)) ∧
    (∀ (i : Nat) (hi : i < (entries children).length) fname fsize fbytes,
      (entries children)[i] = Node.file fname fsize fbytes →
        ((treeObj c h children).Links[i]?).map Link.Size = some (fsize % 2 ^ 64) ∧
        (fsize < 2 ^ 63 →
          ((treeObj c h children).Links[i]?).map (fun l => intValue l.Size) =
            some (fsize : Int))) := by
  refine ⟨?_, fun store => ?_, fun i hi fname fsize fbytes he => ?_⟩
  · obtain ⟨o, m, rs, hrun, _⟩ := dfsReqs_total c h bytes height start hh hs
    refine ⟨o, m, rs, fun store => by rw [dfshandleFile_eq, hrun]; rfl, fun r hr hne => ?_⟩
    obtain ⟨ht, st, cres, a1, a2, a3, a4, a5, a6⟩ :=
      dfsReqs_calls c h bytes height start hh hs _ hrun r hr hne
    have hspan := dfsReqs_span c h bytes ht st a1 a3 cres a4
    rw [a5] at hspan
    refine ⟨ht, st, cres.2.1, a1, a3, fun store => ?_, hspan.2 hne,
      fun l hl => (LinksSpan.names c h bytes ht _ _ hspan.1 l hl).1, hspan.1,
      fun hrt hinj fuel hf => ?_⟩
    · rw [dfshandleFile_eq, a4, ← a5]
      exact ⟨_, rfl⟩
    · have hg : GoodStore c h (persist c h rs []) rs :=
        persist_good c h hinj rs (dfsReqs_shape c h height bytes start (o, m, rs) hrun)
      have hgc : GoodStore c h (persist c h rs []) cres.2.2 := fun x hx => hg x (a6 x hx)
      have hcov := dfsReqs_cover c h bytes (persist c h rs []) hrt ht st a1 a3 cres a4 hgc fuel
        (Nat.le_trans a2 hf)
      rw [a5] at hcov
      exact hcov.1
  · rw [handleDir_eq, dirReqs_eq]
    exact ⟨_, rfl⟩
  · have hl : (treeObj c h children).Links = treeLinks c h children := rfl
    rw [hl, treeLinks_entries, List.getElem?_map, List.getElem?_eq_getElem hi, he]
    refine ⟨rfl, fun hlt => ?_⟩
    simp only [Option.map_some', Node.size, Option.some.injEq]
    exact intValue_of_lt fsize hlt

theorem dfshandleFile_link_sizes_witness :
    (∃ o m rs, (∀ store, dfshandleFile lpCodec id 2 [5, 6, 7] store 1 =
        some (o, m, persist lpCodec id rs store)) ∧
      ∀ r ∈ rs, r.1.Links ≠ [] →
        ∃ ht st mm, 1 ≤ ht ∧ st < ([5, 6, 7] : Bytes).length ∧
          (∀ store, ∃ s2, dfshandleFile lpCodec id ht [5, 6, 7] store st = some (r.1, mm, s2)) ∧
          sizeSum r.1.Links = mm ∧ (∀ l ∈ r.1.Links, l.Name = "") ∧
          LinksSpan lpCodec id [5, 6, 7] ht r.1.Links st ∧
          ((∀ o, lpCodec.unmarshal (lpCodec.marshal o) = o) →
            (∀ a b, id (lpCodec.marshal a) = id (lpCodec.marshal b) → a = b) →
            ∀ fuel, 2 ≤ fuel →
              LinksCover lpCodec id
                (fun x => getFileByList lpCodec fuel x (persist lpCodec id rs []))
                (persist lpCodec id rs []) [5, 6, 7] r.1.Links st)) ∧
    (∀ store, ∃ s2, handleDir lpCodec id (Node.dir "d" 2 [Node.file "c" 2 [7, 7]]) store =
      some (treeObj lpCodec id [Node.file "c" 2 [7, 7]], s2)) ∧
    (∀ (i : Nat) (hi : i < (entries [Node.file "c" 2 [7, 7]]).length) fname fsize fbytes,
      (entries [Node.file "c" 2 [7, 7]])[i] = Node.file fname fsize fbytes →
        ((treeObj lpCodec id [Node.file "c" 2 [7, 7]]).Links[i]?).map Link.Size =
          some (fsize % 2 ^ 64) ∧
        (fsize < 2 ^ 63 →
          ((treeObj lpCodec id [Node.file "c" 2 [7, 7]]).Links[i]?).map
            (fun l => intValue l.Size) = some (fsize : Int))) :=
  dfshandleFile_link_sizes lpCodec id 2 [5, 6, 7] 1 (by decide) (by decide) "d" 2
    [Node.file "c" 2 [7, 7]]

/-! ## Consumed bytes -/

/-- C15: for every height of at least 1 and every start offset inside the file,
`dfshandleFile` returns on every store, with the same object, the same requests and the same
consumed count `min (n - start) (MAX_LISTLINE ^ height * CHUNK_SIZE)`. The bytes covered by
the returned object are exactly `Bytes()[start : start + consumed]`: the blobs requested
during the call are consecutive ranges from `start` to `start + consumed` and together are
that slice; an object without links holds the slice as its data, and the sizes of the
links of an object with links add up to the consumed count. So a call at offset 0 whose
capacity is at least the length consumes the whole file, and a call whose capacity is
smaller than what remains consumes the capacity only and leaves the rest out. When the
encoding is decodable and the hash of the encoding is collision-free, retrieval from a link
to the returned object, in the store built from the empty one, gives the same slice. -/
theorem dfshandleFile_consumed (c : Codec) (h : Bytes → Bytes)
    (height : Nat) (bytes : Bytes) (start : Nat) (hh : 1 ≤ height)
    (hs : start < bytes.length) :
    ∃ o m rs, (∀ store, dfshandleFile c h height bytes store start =
        some (o, m, persist c h rs store)) ∧
      m = min (bytes.length - start) (cap height) ∧
      Chunked bytes start (blobsOf rs) (start + m) ∧
      (blobsOf rs).flatten = slice bytes start (start + m) ∧
      (o.Links = [] → o.Data = slice bytes start (start + m)) ∧
      (o.Links ≠ [] → sizeSum o.Links = m ∧ LinksSpan c h bytes height o.Links start) ∧
      (start = 0 → bytes.length ≤ cap height → m = bytes.length) ∧
      (cap height < bytes.length - start → m = cap height ∧ start + m < bytes.length) ∧
      ((∀ o, c.unmarshal (c.marshal o) = o) →
        (∀ a b, h (c.marshal a) = h (c.marshal b) → a = b) →
        ∀ fuel, height ≤ fuel →
          childBytes c h (fun x => getFileByList c fuel x (persist c h rs []))
            (persist c h rs []) o = some (slice bytes start (start + m))) := by
  obtain ⟨o, m, rs, hrun, hm, _, hblob, _⟩ := dfsReqs_total c h bytes height start hh hs
  have hch := (dfsReqs_chunked c h bytes height start hh hs _ hrun).2
  rw [← hm] at hch
  simp only at hch
  obtain ⟨_, hj, _⟩ := Chunked.join bytes _ _ _ hch
  have hspan := dfsReqs_span c h bytes height start hh hs _ hrun
  refine ⟨o, m, rs, fun store => ?_, hm, hch, hj, hblob, fun hne => ⟨hspan.2 hne, hspan.1⟩,
    fun h0 hc => ?_, fun hc => ?_, fun hrt hinj fuel hf => ?_⟩
  · rw [dfshandleFile_eq, hrun]
    rfl
  · subst h0
    rw [hm]
    simp only [Nat.sub_zero]
    exact Nat.min_eq_left hc
  · rw [hm, Nat.min_eq_right (Nat.le_of_lt hc)]
    exact ⟨rfl, by omega⟩
  · have hg : GoodStore c h (persist c h rs []) rs :=
      persist_good c h hinj rs (dfsReqs_shape c h height bytes start (o, m, rs) hrun)
    exact (dfsReqs_spec c h bytes _ hrt height start o m rs hh hs hrun hg fuel hf).1

theorem dfshandleFile_consumed_witness :
    ∃ o m rs, (∀ store, dfshandleFile lpCodec id 2 [5, 6, 7] store 1 =
        some (o, m, persist lpCodec id rs store)) ∧
      m = min (([5, 6, 7] : Bytes).length - 1) (cap 2) ∧
      Chunked [5, 6, 7] 1 (blobsOf rs) (1 + m) ∧
      (blobsOf rs).flatten = slice [5, 6, 7] 1 (1 + m) ∧
      (o.Links = [] → o.Data = slice [5, 6, 7] 1 (1 + m)) ∧
      (o.Links ≠ [] → sizeSum o.Links = m ∧ LinksSpan lpCodec id [5, 6, 7] 2 o.Links 1) ∧
      (1 = 0 → ([5, 6, 7] : Bytes).length ≤ cap 2 → m = ([5, 6, 7] : Bytes).length) ∧
      (cap 2 < ([5, 6, 7] : Bytes).length - 1 → m = cap 2 ∧ 1 + m < ([5, 6, 7] : Bytes).length) ∧
      ((∀ o, lpCodec.unmarshal (lpCodec.marshal o) = o) →
        (∀ a b, id (lpCodec.marshal a) = id (lpCodec.marshal b) → a = b) →
        ∀ fuel, 2 ≤ fuel →
          childBytes lpCodec id
            (fun x => getFileByList lpCodec fuel x (persist lpCodec id rs []))
            (persist lpCodec id rs []) o = some (slice [5, 6, 7] 1 (1 + m))) :=
  dfshandleFile_consumed lpCodec id 2 [5, 6, 7] 1 (by decide) (by decide)

/-! ## Paths that do not name the file -/

/-- C2, as stated, fails: the claim puts no condition on the names. A file above the chunk
size whose name `a/b` contains the separator is not found under its path `/a/b`: the result
is empty. And when a one-byte file `x` comes before a file `x` above the chunk size in the
same directory, the path `/x` gives the byte of the first file, not the content of the
second. -/
theorem roundtrip_large_names :
    CHUNK_SIZE < bigBytes.length ∧
    (∃ r s, Add lpCodec [] (Node.dir "root" 0 [Node.file "a/b" bigBytes.length bigBytes]) id =
        some (r, s) ∧
      ∀ fuel, Hash2File lpCodec (fuel + 1) s r "/a/b" = some []) ∧
    (∃ r s, Add lpCodec []
        (Node.dir "root" 0 [Node.file "x" 1 [1], Node.file "x" bigBytes.length bigBytes]) id =
        some (r, s) ∧
      ∃ n0, ∀ fuel, n0 ≤ fuel → Hash2File lpCodec fuel s r "/x" = some [1]) := by
  refine ⟨bigBytes_length, ?_, ?_⟩
  · refine ⟨_, _, Add_total lpCodec id _ [], fun fuel => ?_⟩
    have hg := Add_good lpCodec id lpCodec_inj
      (Node.dir "root" 0 [Node.file "a/b" bigBytes.length bigBytes])
    have hE := Add_empty_key lpCodec id lpCodec_roundtrip rfl lpCodec_inj
      (nodeReqs lpCodec id (Node.dir "root" 0 [Node.file "a/b" bigBytes.length bigBytes]))
    have hhas := persist_has lpCodec id
      (nodeReqs lpCodec id (Node.dir "root" 0 [Node.file "a/b" bigBytes.length bigBytes])) []
      (treeObj lpCodec id [Node.file "a/b" bigBytes.length bigBytes], LIST)
      (by rw [nodeReqs_dir]; simp)
    rw [nodeObj_dir]
    generalize persist lpCodec id
      (nodeReqs lpCodec id (Node.dir "root" 0 [Node.file "a/b" bigBytes.length bigBytes])) [] = s
      at hg hE hhas ⊢
    have hfetch := tree_fetch lpCodec id s lpCodec_roundtrip hE "root" 0 _ hg
    have hsplit : Split "/a/b" = ["", "a", "b"] := by decide
    unfold Hash2File
    simp only at hhas
    simp only [hhas, if_true, hfetch, hsplit]
    have hc : ¬ (1 ≥ (["", "a", "b"] : List String).length) := by decide
    simp only [getFileByDir, hc, if_false]
    refine dirScan_no_match lpCodec _ _ s _ _ _ 0 ?_ ?_
    · have := treeData_length lpCodec id [Node.file "a/b" bigBytes.length bigBytes]
      simp only [treeObj, Nat.zero_add]
      exact Nat.le_of_eq this.symm
    · intro l hl
      simp only [treeObj, treeLinks, List.mem_singleton] at hl
      subst hl
      decide
  · refine ⟨_, _, Add_total lpCodec id _ [], ?_⟩
    have hg := Add_good lpCodec id lpCodec_inj
      (Node.dir "root" 0 [Node.file "x" 1 [1], Node.file "x" bigBytes.length bigBytes])
    have hE := Add_empty_key lpCodec id lpCodec_roundtrip rfl lpCodec_inj
      (nodeReqs lpCodec id
        (Node.dir "root" 0 [Node.file "x" 1 [1], Node.file "x" bigBytes.length bigBytes]))
    have hhas := persist_has lpCodec id
      (nodeReqs lpCodec id
        (Node.dir "root" 0 [Node.file "x" 1 [1], Node.file "x" bigBytes.length bigBytes])) []
      (treeObj lpCodec id [Node.file "x" 1 [1], Node.file "x" bigBytes.length bigBytes], LIST)
      (by rw [nodeReqs_dir]; simp)
    rw [nodeObj_dir]
    generalize persist lpCodec id
      (nodeReqs lpCodec id
        (Node.dir "root" 0 [Node.file "x" 1 [1], Node.file "x" bigBytes.length bigBytes])) [] = s
      at hg hE hhas ⊢
    have hfetch := tree_fetch lpCodec id s lpCodec_roundtrip hE "root" 0 _ hg
    have hgc : GoodStore lpCodec id s (nodeReqs lpCodec id (Node.file "x" 1 [1])) := by
      refine nodeReqs_sub lpCodec id s
        [Node.file "x" 1 [1], Node.file "x" bigBytes.length bigBytes] _
        (List.mem_cons_self _ _) (fun r hr => hg r ?_)
      rw [nodeReqs_dir]
      exact List.mem_append_left _ hr
    obtain ⟨H, hH⟩ := dirScan_file lpCodec id s lpCodec_roundtrip "x" [1] (by decide) hgc
    refine ⟨H + 1, fun fuel hf => ?_⟩
    obtain ⟨f, rfl⟩ : ∃ f, fuel = f + 1 := ⟨fuel - 1, by omega⟩
    have hsplit : Split "/x" = ["", "x"] := by decide
    unfold Hash2File
    simp only at hhas
    simp only [hhas, if_true, hfetch, hsplit]
    have hc : ¬ (1 ≥ (["", "x"] : List String).length) := by decide
    simp only [getFileByDir, hc, if_false]
    have hat := dirScan_at lpCodec id (fun o => getFileByDir lpCodec f o ["", "x"] (1 + 1) s)
      (fun o => getFileByList lpCodec f o s) s "x" []
      [Node.file "x" bigBytes.length bigBytes] (Node.file "x" 1 [1])
      (fun _ _ hh => by cases hh) (fun x hx => by simp at hx)
    simp only [List.nil_append] at hat
    have hseg : (["", "x"] : List String).getD 1 "" = "x" := rfl
    rw [hseg, hat]
    exact hH f (by omega) _ (treeData lpCodec id []) _ _

end MerkleDag
